import Mathlib

/-!
# kaldi-lattice-search: scoring queries against lattices

A shallow embedding of `kaldi-lattice-search.cc`.

Floating-point values (`float`, `double`, `BaseFloat`) are embedded as `Dbl`:
an exact rational, `+infinity`, `-infinity` or `NaN`, with the IEEE rules for
the special values and exact arithmetic on the finite ones. The rounding of a
single-precision sum is `roundFloat`; the insertion penalty is embedded with the
exact sum (`AddInsPenToCompactLattice`) and with the rounded sum
(`AddInsPenToCompactLatticeFloat`).

`ComputeLikelihood` is generic in the weight type, as the template of the source
is: the tropical semiring is `TropicalWeight.ops`, and the log semiring is
`LogProb.ops`, with each weight carried as the probability it stands for. The
routines of the OpenFst and Kaldi libraries that the source calls
(`fst::ShortestDistance`, `TableCompose`, `fst::ConvertLattice`, `fst::ArcSort`,
`fst::ScaleLattice`) are not part of the source and are modelled from the spec.
-/

namespace LatticeSearch

/-! ## Scalars -/

/-- A `double` under exact arithmetic. -/
inductive Dbl where
  | fin (q : ℚ)
  | pinf
  | ninf
  | nan
  deriving DecidableEq, Repr

namespace Dbl

/-- IEEE addition, exact on finite values. -/
def add : Dbl → Dbl → Dbl
  | fin a, fin b => fin (a + b)
  | nan, _ => nan
  | _, nan => nan
  | pinf, ninf => nan
  | ninf, pinf => nan
  | pinf, _ => pinf
  | _, pinf => pinf
  | ninf, _ => ninf
  | _, ninf => ninf

/-- IEEE negation. -/
def neg : Dbl → Dbl
  | fin a => fin (-a)
  | pinf => ninf
  | ninf => pinf
  | nan => nan

/-- IEEE subtraction `a - b`, exact on finite values. -/
def sub (a b : Dbl) : Dbl := add a (neg b)

/-- IEEE multiplication, exact on finite values (`0 * inf` is `NaN`). -/
def mul : Dbl → Dbl → Dbl
  | fin a, fin b => fin (a * b)
  | nan, _ => nan
  | _, nan => nan
  | fin a, pinf => if a = 0 then nan else if 0 < a then pinf else ninf
  | fin a, ninf => if a = 0 then nan else if 0 < a then ninf else pinf
  | pinf, fin b => if b = 0 then nan else if 0 < b then pinf else ninf
  | ninf, fin b => if b = 0 then nan else if 0 < b then ninf else pinf
  | pinf, pinf => pinf
  | ninf, ninf => pinf
  | pinf, ninf => ninf
  | ninf, pinf => ninf

/-- IEEE `a < b`: false whenever an operand is `NaN`. -/
def lt : Dbl → Dbl → Bool
  | fin a, fin b => decide (a < b)
  | nan, _ => false
  | _, nan => false
  | ninf, ninf => false
  | ninf, _ => true
  | _, ninf => false
  | pinf, _ => false
  | _, pinf => true

/-- IEEE `a <= b`: false whenever an operand is `NaN`. -/
def le : Dbl → Dbl → Bool
  | fin a, fin b => decide (a ≤ b)
  | nan, _ => false
  | _, nan => false
  | ninf, _ => true
  | _, pinf => true
  | pinf, _ => false
  | _, ninf => false

/-- IEEE `a != b`: true whenever an operand is `NaN`. -/
def ne : Dbl → Dbl → Bool
  | fin a, fin b => decide (a ≠ b)
  | nan, _ => true
  | _, nan => true
  | pinf, pinf => false
  | ninf, ninf => false
  | _, _ => true

/-- A finite value (neither infinite nor `NaN`). -/
def isFinite : Dbl → Bool
  | fin _ => true
  | _ => false

/-- A cost: a finite value or `+infinity`. -/
def isCost : Dbl → Bool
  | fin _ => true
  | pinf => true
  | _ => false

instance : Add Dbl := ⟨add⟩
instance : Neg Dbl := ⟨neg⟩
instance : Sub Dbl := ⟨sub⟩
instance : Mul Dbl := ⟨mul⟩
instance : LT Dbl := ⟨fun a b => lt a b = true⟩
instance : LE Dbl := ⟨fun a b => le a b = true⟩
instance (a b : Dbl) : Decidable (a < b) := inferInstanceAs (Decidable (lt a b = true))
instance (a b : Dbl) : Decidable (a ≤ b) := inferInstanceAs (Decidable (le a b = true))

end Dbl

/-! ## Weights -/

/-- Kaldi `LatticeWeight`: `Value1` is the graph cost, `Value2` the acoustic cost. -/
structure LatticeWeight where
  Value1 : Dbl
  Value2 : Dbl
  deriving DecidableEq, Repr

/-- Kaldi `CompactLatticeWeight`: a `LatticeWeight` and a string of transition ids. -/
structure CompactLatticeWeight where
  Weight : LatticeWeight
  String : List Int
  deriving DecidableEq, Repr

/-- The weight of `fst::StdArc` (a scalar read in the tropical semiring). -/
structure TropicalWeight where
  Value : Dbl
  deriving DecidableEq, Repr

/-- The weight of `fst::LogArc` (a scalar read in the log semiring). -/
structure LogWeight where
  Value : Dbl
  deriving DecidableEq, Repr

/-- `ConvertLatticeWeight(const CompactLatticeWeight&, StdArc::Weight*)`. -/
def ConvertLatticeWeightStd (iw : CompactLatticeWeight) : TropicalWeight :=
  ⟨iw.Weight.Value1 + iw.Weight.Value2⟩

/-- `ConvertLatticeWeight(const CompactLatticeWeight&, LogArc::Weight*)`. -/
def ConvertLatticeWeightLog (iw : CompactLatticeWeight) : LogWeight :=
  ⟨iw.Weight.Value1 + iw.Weight.Value2⟩

/-! ## Automata -/

/-- An arc: input label, output label, weight and destination state. Label 0 is epsilon. -/
structure Arc (W : Type) where
  ilabel : Int
  olabel : Int
  weight : W
  nextstate : Nat
  deriving DecidableEq, Repr

/-- One state of a `VectorFst`: its final weight and its outgoing arcs, in order. -/
structure VectorState (W : Type) where
  final : W
  arcs : List (Arc W)
  deriving DecidableEq, Repr

/-- A `VectorFst`: states are numbered from 0; `start = none` is `kNoStateId`. -/
structure VectorFst (W : Type) where
  start : Option Nat
  states : List (VectorState W)
  deriving DecidableEq, Repr

abbrev Lattice := VectorFst LatticeWeight
abbrev CompactLattice := VectorFst CompactLatticeWeight

namespace VectorFst

variable {W : Type}

def NumStates (fst : VectorFst W) : Nat := fst.states.length

/-- The outgoing arcs of state `s` (none for an id that is not a state). -/
def Arcs (fst : VectorFst W) (s : Nat) : List (Arc W) :=
  match fst.states[s]? with
  | some st => st.arcs
  | none => []

def NumArcs (fst : VectorFst W) (s : Nat) : Nat := (fst.Arcs s).length

/-- The final weight of state `s`; `zero` for an id that is not a state. -/
def Final (zero : W) (fst : VectorFst W) (s : Nat) : W :=
  match fst.states[s]? with
  | some st => st.final
  | none => zero

/-- The final weight of state `s`, when `s` is a state. -/
def Final? (fst : VectorFst W) (s : Nat) : Option W :=
  (fst.states[s]?).map (fun st => st.final)

/-- `MutableArcIterator::SetValue`: replace the arc at position `i` of state `s`. -/
def SetArc (fst : VectorFst W) (s i : Nat) (arc : Arc W) : VectorFst W :=
  match fst.states[s]? with
  | some st => { fst with states := fst.states.set s { st with arcs := st.arcs.set i arc } }
  | none => fst

end VectorFst

/-! ## Insertion penalty -/

/-- The body of the arc loop of `AddInsPenToLattice(BaseFloat, Lattice*)` at position `i`
of state `state`. -/
def AddInsPenArc (penalty : Dbl) (state : Nat) (lat : Lattice) (i : Nat) : Lattice :=
  match (lat.Arcs state)[i]? with
  | some arc =>
    if arc.olabel ≠ 0 then
      let weight := arc.weight
      let weight := { weight with Value1 := weight.Value1 + penalty }
      lat.SetArc state i { arc with weight := weight }
    else lat
  | none => lat

/-- `AddInsPenToLattice(BaseFloat penalty, Lattice *lat)`. -/
def AddInsPenToLattice (penalty : Dbl) (lat : Lattice) : Lattice :=
  (List.range lat.NumStates).foldl
    (fun lat state => (List.range (lat.NumArcs state)).foldl (AddInsPenArc penalty state) lat)
    lat

/-- The body of the arc loop of `AddInsPenToLattice(BaseFloat, CompactLattice*)` at
position `i` of state `state`. -/
def AddInsPenArcCompact (penalty : Dbl) (state : Nat) (lat : CompactLattice) (i : Nat) :
    CompactLattice :=
  match (lat.Arcs state)[i]? with
  | some arc =>
    if arc.olabel ≠ 0 then
      let weight := arc.weight.Weight
      let weight := { weight with Value1 := weight.Value1 + penalty }
      lat.SetArc state i { arc with weight := { arc.weight with Weight := weight } }
    else lat
  | none => lat

/-- `AddInsPenToLattice(BaseFloat penalty, CompactLattice *lat)`. -/
def AddInsPenToCompactLattice (penalty : Dbl) (lat : CompactLattice) : CompactLattice :=
  (List.range lat.NumStates).foldl
    (fun lat state =>
      (List.range (lat.NumArcs state)).foldl (AddInsPenArcCompact penalty state) lat)
    lat

/-! ## Single-precision sums -/

/-- The rational `2 ^ e`. -/
def pow2 (e : Int) : ℚ :=
  if 0 ≤ e then ((2 ^ e.toNat : Nat) : ℚ) else 1 / ((2 ^ (-e).toNat : Nat) : ℚ)

/-- The integer part of the base-2 logarithm of a positive rational, found in at most `fuel`
halvings or doublings. -/
def floorLog2 : Nat → ℚ → Int
  | 0, _ => 0
  | fuel + 1, a =>
    if 2 ≤ a then floorLog2 fuel (a / 2) + 1
    else if a < 1 then floorLog2 fuel (a * 2) - 1
    else 0

/-- The integer nearest to a non-negative rational, ties going to the even one. -/
def roundHalfEven (m : ℚ) : Int :=
  let f := m.floor
  if m - f < 1 / 2 then f
  else if 1 / 2 < m - f then f + 1
  else if f % 2 = 0 then f else f + 1

/-- The `float` (IEEE binary32: 24 significant bits, exponents from -126 to 127) nearest to a
rational, ties going to the even significand, values past the largest `float` going to
infinity. -/
def roundFloat (q : ℚ) : Dbl :=
  if q = 0 then Dbl.fin 0
  else
    let a := if q < 0 then -q else q
    let e := max (floorLog2 300 a) (-126)
    let ulp := pow2 (e - 23)
    let v := (roundHalfEven (a / ulp) : ℚ) * ulp
    if pow2 128 ≤ v then (if 0 < q then Dbl.pinf else Dbl.ninf)
    else Dbl.fin (if 0 < q then v else -v)

/-- The sum of two `float`s as the machine computes it: the exact sum, rounded. -/
def Dbl.addFloat (a b : Dbl) : Dbl :=
  match a + b with
  | Dbl.fin q => roundFloat q
  | x => x

/-- The body of the arc loop of `AddInsPenToLattice(BaseFloat, CompactLattice*)`, with the
single-precision sum `weight.Value1() + penalty`. -/
def AddInsPenArcCompactFloat (penalty : Dbl) (state : Nat) (lat : CompactLattice) (i : Nat) :
    CompactLattice :=
  match (lat.Arcs state)[i]? with
  | some arc =>
    if arc.olabel ≠ 0 then
      let weight := arc.weight.Weight
      let weight := { weight with Value1 := Dbl.addFloat weight.Value1 penalty }
      lat.SetArc state i { arc with weight := { arc.weight with Weight := weight } }
    else lat
  | none => lat

/-- `AddInsPenToLattice(BaseFloat penalty, CompactLattice *lat)`, with the single-precision
sum `weight.Value1() + penalty`. -/
def AddInsPenToCompactLatticeFloat (penalty : Dbl) (lat : CompactLattice) : CompactLattice :=
  (List.range lat.NumStates).foldl
    (fun lat state =>
      (List.range (lat.NumArcs state)).foldl (AddInsPenArcCompactFloat penalty state) lat)
    lat

/-! ## Semirings -/

/-- The operations of a weight type: `Weight::Zero()`, `Weight::One()`, `fst::Plus`,
`fst::Times` and `Value()`. -/
structure WeightOps (W : Type) where
  Zero : W
  One : W
  Plus : W → W → W
  Times : W → W → W
  Value : W → Dbl

namespace TropicalWeight

/-- Modelled from the spec: the tropical semiring of the OpenFst library, `zero = +inf`. -/
def Zero : TropicalWeight := ⟨Dbl.pinf⟩

/-- Modelled from the spec: the tropical semiring of the OpenFst library, `one = 0`. -/
def One : TropicalWeight := ⟨Dbl.fin 0⟩

/-- Modelled from the spec: the tropical semiring of the OpenFst library, `plus = min`. -/
def Plus (w1 w2 : TropicalWeight) : TropicalWeight :=
  if w1.Value < w2.Value then w1 else w2

/-- Modelled from the spec: the tropical semiring of the OpenFst library, `times = +`. -/
def Times (w1 w2 : TropicalWeight) : TropicalWeight :=
  ⟨w1.Value + w2.Value⟩

/-- A weight that belongs to the tropical semiring: a finite cost or `+infinity`. -/
def Member (w : TropicalWeight) : Bool := w.Value.isCost

/-- The tropical semiring as `WeightOps`. -/
def ops : WeightOps TropicalWeight := ⟨Zero, One, Plus, Times, TropicalWeight.Value⟩

end TropicalWeight

/-- Modelled from the spec: the log semiring of the OpenFst library, each weight carried as
the probability `exp(-cost)` it stands for, in an ordered field `K` (the reals for all costs,
the rationals in evaluations), so that `plus(a, b) = -log(exp(-a) + exp(-b))` is the sum of
the probabilities, `times = +` is their product, `zero = +inf` is the probability 0 and
`one = 0` is the probability 1. `Value` gives the cost `-log p` of a probability `p`, as a
double; it is not a rational function and is left as a parameter. -/
def LogProb.ops {K : Type} [LinearOrderedField K] (Value : K → Dbl) : WeightOps K :=
  ⟨0, 1, fun a b => a + b, fun a b => a * b, Value⟩

/-! ## Likelihood -/

/-- `ComputeLikelihood(const fst::Fst<Arc>&)`, for the weight type of `Arc` and the library
routine `fst::ShortestDistance`, which fills the vector `state_likelihoods` when it returns
(`none` when it does not). The source indexes the vector with every state and no bounds
check: the result is `none` (undefined behaviour) as soon as a state lies past the end of
the vector. -/
def ComputeLikelihood {W : Type} (ops : WeightOps W)
    (ShortestDistance : VectorFst W → Option (List W)) (fst : VectorFst W) : Option Dbl :=
  if fst.start = none then
    some (Dbl.neg Dbl.pinf)
  else
    match ShortestDistance fst with
    | none => none
    | some state_likelihoods =>
      let total_likelihood := (List.range fst.NumStates).foldl
        (fun total_likelihood s =>
          match total_likelihood, state_likelihoods[s]? with
          | some total_likelihood, some d =>
            some (ops.Plus total_likelihood (ops.Times (fst.Final ops.Zero s) d))
          | _, _ => none)
        (some ops.Zero)
      total_likelihood.map fun total_likelihood => Dbl.neg (ops.Value total_likelihood)

/-! ## Paths -/

/-- The arcs `p` form a path leaving state `s`: each arc leaves the state the previous
one enters. -/
def IsPath {W : Type} (fst : VectorFst W) : Nat → List (Arc W) → Prop
  | _, [] => True
  | s, a :: p => a ∈ fst.Arcs s ∧ IsPath fst a.nextstate p

instance IsPath.decidable {W : Type} [DecidableEq W] (fst : VectorFst W) :
    (s : Nat) → (p : List (Arc W)) → Decidable (IsPath fst s p)
  | _, [] => isTrue trivial
  | _, a :: p => @instDecidableAnd _ _ _ (IsPath.decidable fst a.nextstate p)

/-- The state a path leaving `s` ends in. -/
def pathEnd {W : Type} : Nat → List (Arc W) → Nat
  | s, [] => s
  | _, a :: p => pathEnd a.nextstate p

/-- The states a path leaves, in order: the source of each of its arcs. -/
def pathSources {W : Type} : Nat → List (Arc W) → List Nat
  | _, [] => []
  | s, a :: p => s :: pathSources a.nextstate p

/-- No state has a non-empty path back to itself. -/
def Acyclic {W : Type} (fst : VectorFst W) : Prop :=
  ∀ s p, p ≠ [] → IsPath fst s p → pathEnd s p ≠ s

/-- All paths of exactly `k` arcs leaving state `s`. -/
def pathsFrom {W : Type} (fst : VectorFst W) : Nat → Nat → List (List (Arc W))
  | 0, _ => [[]]
  | k + 1, s => (fst.Arcs s).flatMap fun a => (pathsFrom fst k a.nextstate).map (a :: ·)

/-- All paths of at most `n` arcs leaving state `s`. -/
def pathsUpTo {W : Type} (fst : VectorFst W) (n s : Nat) : List (List (Arc W)) :=
  (List.range (n + 1)).flatMap fun k => pathsFrom fst k s

/-- The times-product of the arc weights along a path. -/
def pathWeight {W : Type} (ops : WeightOps W) : List (Arc W) → W
  | [] => ops.One
  | a :: p => ops.Times a.weight (pathWeight ops p)

/-- The sum of the arc weights along a path. -/
def pathCost : List (Arc TropicalWeight) → Dbl
  | [] => Dbl.fin 0
  | a :: p => a.weight.Value + pathCost p

/-- The distance vector built from the paths of at most `k` arcs that leave the state `s0`.
The distance of state `s` is the plus-combination, over these paths to `s`, of the
times-product of the arc weights along each path. The vector has an entry for every state
up to the highest-numbered one that such a path enters, and none beyond. -/
def distanceVector {W : Type} (ops : WeightOps W) (fst : VectorFst W) (s0 k : Nat) : List W :=
  let paths := pathsUpTo fst k s0
  let size := (paths.map (pathEnd s0)).foldl max 0 + 1
  (List.range size).map fun s =>
    (paths.filter (fun p => pathEnd s0 p = s)).foldl
      (fun d p => ops.Plus d (pathWeight ops p)) ops.Zero

/-- Modelled from the spec: `fst::ShortestDistance` of the OpenFst library. The distance of
state `s` is the plus-combination, over all paths from the start state to `s`, of the
times-product of the arc weights along each path. The library routine relaxes arcs until no
distance changes. When the paths of at most `NumStates` arcs already give the distances,
that is when the paths of one more arc change none of them, it returns these distances.
Otherwise a cycle keeps changing a distance (a cycle of negative cost in the tropical
semiring, a cycle of positive probability in the log semiring): under exact arithmetic the
routine does not return, and the model gives `none`. As the library routine does, the vector
is grown only as far as the highest-numbered state that a path from the start state enters:
a state numbered above all of these has no entry. -/
def ShortestDistance {W : Type} [DecidableEq W] (ops : WeightOps W) (fst : VectorFst W) :
    Option (List W) :=
  match fst.start with
  | none => some []
  | some s0 =>
    let distance := distanceVector ops fst s0 fst.NumStates
    if distance = distanceVector ops fst s0 (fst.NumStates + 1) then some distance else none

/-- `ComputeLikelihood<fst::StdArc>`. -/
def ComputeLikelihoodStd (fst : VectorFst TropicalWeight) : Option Dbl :=
  ComputeLikelihood TropicalWeight.ops (ShortestDistance TropicalWeight.ops) fst

/-- `ComputeLikelihood<fst::LogArc>`, on an automaton whose weights are carried as
probabilities. -/
def ComputeLikelihoodLog {K : Type} [LinearOrderedField K] (Value : K → Dbl)
    (fst : VectorFst K) : Option Dbl :=
  ComputeLikelihood (LogProb.ops Value) (ShortestDistance (LogProb.ops Value)) fst

/-- A path from the start state enters the highest-numbered state: the distance vector then
has an entry for every state. -/
def TopReached {W : Type} (fst : VectorFst W) : Prop :=
  ∃ s0 p, fst.start = some s0 ∧ IsPath fst s0 p ∧ fst.NumStates ≤ pathEnd s0 p + 1

/-- Every arc weight and every final weight belongs to the tropical semiring. -/
def AllMembers (fst : VectorFst TropicalWeight) : Prop :=
  ∀ st ∈ fst.states, st.final.Member = true ∧ ∀ a ∈ st.arcs, a.weight.Member = true

instance (fst : VectorFst TropicalWeight) : Decidable (AllMembers fst) := by
  unfold AllMembers; infer_instance

/-- The path `p` leaves the start state and ends in a state that carries a final weight
(one that is not `Zero`). -/
def Accepting (fst : VectorFst TropicalWeight) (p : List (Arc TropicalWeight)) : Prop :=
  ∃ s0, fst.start = some s0 ∧ IsPath fst s0 p ∧
    (fst.Final TropicalWeight.Zero (pathEnd s0 p)).Value ≠ Dbl.pinf

instance (fst : VectorFst TropicalWeight) (p : List (Arc TropicalWeight)) :
    Decidable (Accepting fst p) :=
  match h : fst.start with
  | none => isFalse (by rintro ⟨s0, hs, _⟩; rw [h] at hs; cases hs)
  | some s0 =>
    decidable_of_iff
      (IsPath fst s0 p ∧ (fst.Final TropicalWeight.Zero (pathEnd s0 p)).Value ≠ Dbl.pinf)
      ⟨fun ⟨a, b⟩ => ⟨s0, h, a, b⟩,
        by rintro ⟨s, hs, a, b⟩; rw [h] at hs; cases hs; exact ⟨a, b⟩⟩

/-- The cost of a path from the start state: the sum of its arc weights plus the final
weight of the state it ends in. -/
def acceptCost (fst : VectorFst TropicalWeight) (p : List (Arc TropicalWeight)) : Dbl :=
  match fst.start with
  | some s0 => pathCost p + (fst.Final TropicalWeight.Zero (pathEnd s0 p)).Value
  | none => Dbl.pinf

/-! ## Lattice transforms -/

/-- Modelled from the spec: `fst::ScaleLattice` of the Kaldi library, for the scale matrix
`scale` that `main` builds. It multiplies the graph cost of every arc weight and final
weight by `scale[0][0]` and the acoustic cost by `scale[1][1]`. -/
def ScaleLattice (scale : List (List Dbl)) (lat : CompactLattice) : CompactLattice :=
  let graph_scale := (scale.getD 0 []).getD 0 (Dbl.fin 0)
  let acoustic_scale := (scale.getD 1 []).getD 1 (Dbl.fin 0)
  let scaleWeight := fun (w : CompactLatticeWeight) =>
    { w with Weight := ⟨graph_scale * w.Weight.Value1, acoustic_scale * w.Weight.Value2⟩ }
  { lat with states := lat.states.map fun st =>
      ⟨scaleWeight st.final, st.arcs.map fun a => { a with weight := scaleWeight a.weight }⟩ }

/-- Modelled from the spec: `fst::ConvertLattice` of the Kaldi library, instantiated with
`ConvertLatticeWeight(const CompactLatticeWeight&, StdArc::Weight*)`. It keeps the states,
the start state, the arcs and their labels and destinations, and converts every arc weight
and every final weight. -/
def ConvertLattice (lat : CompactLattice) : VectorFst TropicalWeight :=
  { start := lat.start
    states := lat.states.map fun st =>
      ⟨ConvertLatticeWeightStd st.final,
        st.arcs.map fun a => ⟨a.ilabel, a.olabel, ConvertLatticeWeightStd a.weight, a.nextstate⟩⟩ }

/-- Modelled from the spec: `fst::ArcSort` of the OpenFst library with `OLabelCompare`. It
sorts the arcs of every state by output label. -/
def ArcSortOLabel {W : Type} (fst : VectorFst W) : VectorFst W :=
  { fst with states := fst.states.map fun st =>
      { st with arcs := st.arcs.insertionSort (fun a b => a.olabel ≤ b.olabel) } }

/-! ## Composition -/

/-- Modelled from the spec: the arcs of the state `(s1, s2)` of the composition, the pair
`(t1, t2)` being numbered `t1 * NumStates(fst2) + t2`. An arc of `fst1` with output label 0
moves `fst1` alone, an arc of `fst2` with input label 0 moves `fst2` alone, and an arc of
`fst1` and one of `fst2` whose output and input label agree and are not 0 move together, with
the times-product of their weights. Arcs to a state out of range are left out. The two kinds
of lone moves are all kept, in either order: the epsilon filter of the library, which keeps
one order of them, is not modelled. It removes paths only, and only when `fst2` has an arc of
input label 0. -/
def composeArcs {W : Type} (ops : WeightOps W) (fst1 fst2 : VectorFst W) (s1 s2 : Nat) :
    List (Arc W) :=
  let n1 := fst1.NumStates
  let n2 := fst2.NumStates
  ((fst1.Arcs s1).flatMap fun a1 =>
    if a1.nextstate < n1 then
      if a1.olabel = 0 then
        [⟨a1.ilabel, 0, a1.weight, a1.nextstate * n2 + s2⟩]
      else
        ((fst2.Arcs s2).filter fun a2 => a2.ilabel = a1.olabel ∧ a2.nextstate < n2).map
          fun a2 => ⟨a1.ilabel, a2.olabel, ops.Times a1.weight a2.weight,
            a1.nextstate * n2 + a2.nextstate⟩
    else [])
  ++ ((fst2.Arcs s2).filter fun a2 => a2.ilabel = 0 ∧ a2.nextstate < n2).map
      fun a2 => ⟨0, a2.olabel, a2.weight, s1 * n2 + a2.nextstate⟩

/-- Modelled from the spec: the product automaton of the composition, before it is trimmed.
The paths are the pairs of a path of `fst1` and a path of `fst2` that share the intermediate
label sequence, and the weight of a path is the times-product of the two weights. The state
`(s1, s2)` is numbered `s1 * NumStates(fst2) + s2`; without a start state on either side
there is no start state. -/
def composeProduct {W : Type} (ops : WeightOps W) (fst1 fst2 : VectorFst W) : VectorFst W :=
  let n1 := fst1.NumStates
  let n2 := fst2.NumStates
  { start :=
      match fst1.start, fst2.start with
      | some s1, some s2 => if s1 < n1 ∧ s2 < n2 then some (s1 * n2 + s2) else none
      | _, _ => none
    states := (List.range (n1 * n2)).map fun k =>
      ⟨ops.Times (fst1.Final ops.Zero (k / n2)) (fst2.Final ops.Zero (k % n2)),
        composeArcs ops fst1 fst2 (k / n2) (k % n2)⟩ }

/-- The states that a path from the start state enters, in increasing order. -/
def accessibleStates {W : Type} (fst : VectorFst W) : List Nat :=
  match fst.start with
  | none => []
  | some s0 =>
    (List.range fst.NumStates).filter fun s =>
      (pathsUpTo fst fst.NumStates s0).any fun p => pathEnd s0 p = s

/-- Some path from the state `s` ends in a state that carries a final weight (one that is
not `Zero`). -/
def coaccessible {W : Type} [DecidableEq W] (ops : WeightOps W) (fst : VectorFst W)
    (s : Nat) : Bool :=
  (pathsUpTo fst fst.NumStates s).any fun p => fst.Final ops.Zero (pathEnd s p) ≠ ops.Zero

/-- The states `Connect` keeps: those on a path from the start state to a final state. -/
def keptStates {W : Type} [DecidableEq W] (ops : WeightOps W) (fst : VectorFst W) :
    List Nat :=
  (accessibleStates fst).filter (coaccessible ops fst)

/-- Modelled from the spec: `fst::Connect` of the OpenFst library. It removes the states that
are not on a path from the start state to a final state, with the arcs that enter them, and
renumbers the remaining states consecutively; when nothing remains the result has no start
state. -/
def Connect {W : Type} [DecidableEq W] (ops : WeightOps W) (fst : VectorFst W) :
    VectorFst W :=
  let kept := keptStates ops fst
  { start := fst.start.bind fun s0 => if s0 ∈ kept then some (kept.indexOf s0) else none
    states := kept.map fun s =>
      ⟨fst.Final ops.Zero s,
        ((fst.Arcs s).filter fun a => a.nextstate ∈ kept).map fun a =>
          { a with nextstate := kept.indexOf a.nextstate }⟩ }

/-- Modelled from the spec: `TableCompose` of the Kaldi library, with its default options:
the composition of `fst1` and `fst2`, trimmed by `Connect`. When no path of `fst1` matches a
path of `fst2` the result has no start state. -/
def TableCompose {W : Type} [DecidableEq W] (ops : WeightOps W) (fst1 fst2 : VectorFst W) :
    VectorFst W :=
  Connect ops (composeProduct ops fst1 fst2)

/-! ## Driver -/

/-- The score `main` reports for one query (lines 218-234): the restricted likelihood is
clamped to the lattice likelihood, then the difference is printed. -/
def reportedScore (lattice_likelihood query_likelihood : Dbl) : Dbl :=
  let query_likelihood :=
    if query_likelihood > lattice_likelihood then lattice_likelihood else query_likelihood
  query_likelihood - lattice_likelihood

/-- The smaller of two doubles, as `std::min(a, b)` computes it. -/
def Dbl.min (a b : Dbl) : Dbl := if b < a then b else a

/-- The options of `main` that the scoring pipeline reads. -/
structure Options where
  acoustic_scale : Dbl := Dbl.fin 1
  graph_scale : Dbl := Dbl.fin 1
  insertion_penalty : Dbl := Dbl.fin 0
  beam : Dbl := Dbl.pinf
  use_log : Bool := true

/-- The lattice that `main` hands to pruning (lines 125-127 and 176-183): the scale matrix is
built, the lattice is rescaled unless both scales are 1, then the insertion penalty is
added unless it is 0. -/
def latticeBeforePrune (opts : Options) (lat : CompactLattice) : CompactLattice :=
  let scale := [[opts.graph_scale, Dbl.fin 0], [Dbl.fin 0, opts.acoustic_scale]]
  let lat :=
    if Dbl.ne opts.acoustic_scale (Dbl.fin 1) || Dbl.ne opts.graph_scale (Dbl.fin 1) then
      ScaleLattice scale lat
    else lat
  if Dbl.ne opts.insertion_penalty (Dbl.fin 0) then
    AddInsPenToCompactLattice opts.insertion_penalty lat
  else lat

/-- The tropical automaton `lattice_std_fst` that `main` builds from one lattice when
`use_log` is false (lines 176-200), `PruneLattice` being the Kaldi library routine. -/
def latticeStdFst (PruneLattice : Dbl → CompactLattice → CompactLattice) (opts : Options)
    (lat : CompactLattice) : VectorFst TropicalWeight :=
  let lat := latticeBeforePrune opts lat
  let lat := if Dbl.ne opts.beam Dbl.pinf then PruneLattice opts.beam lat else lat
  ArcSortOLabel (ConvertLattice lat)

/-- The score `main` prints for one lattice and one query when `use_log` is false
(lines 203-234). -/
def queryScoreStd (PruneLattice : Dbl → CompactLattice → CompactLattice) (opts : Options)
    (lat : CompactLattice) (query : VectorFst TropicalWeight) : Option Dbl := do
  let lattice_std_fst := latticeStdFst PruneLattice opts lat
  let lattice_likelihood ← ComputeLikelihoodStd lattice_std_fst
  let tmp_std := TableCompose TropicalWeight.ops lattice_std_fst query
  let query_likelihood ← ComputeLikelihoodStd tmp_std
  pure (reportedScore lattice_likelihood query_likelihood)


/-- Every arc leads to a state of a higher number. -/
def TopSorted {W : Type} (fst : VectorFst W) : Bool :=
  (List.range fst.NumStates).all fun s => (fst.Arcs s).all fun a => decide (s < a.nextstate)

/-! ## Example automata -/

/-- A tropical automaton with two accepting paths: state 0 is the start state, an arc labelled
1 of cost 1 leads to the final state 1 and an arc labelled 2 of cost 2 to the final state 2. -/
def twoPathStd : VectorFst TropicalWeight :=
  ⟨some 0,
    [⟨⟨Dbl.pinf⟩, [⟨1, 1, ⟨Dbl.fin 1⟩, 1⟩, ⟨2, 2, ⟨Dbl.fin 2⟩, 2⟩]⟩,
     ⟨⟨Dbl.fin 0⟩, []⟩,
     ⟨⟨Dbl.fin 0⟩, []⟩]⟩

/-- An acyclic tropical automaton whose highest-numbered state is not reached from the start
state: state 0 is the start state, an arc of cost 5 leads to the final state 1, and the
final state 2 has no arc entering it. -/
def trailingStd : VectorFst TropicalWeight :=
  ⟨some 0,
    [⟨⟨Dbl.pinf⟩, [⟨1, 1, ⟨Dbl.fin 5⟩, 1⟩]⟩,
     ⟨⟨Dbl.fin 0⟩, []⟩,
     ⟨⟨Dbl.fin 0⟩, []⟩]⟩

/-- The automaton `twoPathStd` without a start state. -/
def noStartStd : VectorFst TropicalWeight := { twoPathStd with start := none }

/-- A lattice with two accepting paths. Path A is one arc with word label 1 ("cat"), graph cost
0.25 and acoustic cost 0.75 (total 1.0); path B is one arc with word label 2 ("dog"), graph
cost 1.5 and acoustic cost 0.5 (total 2.0). Both end in a final state of weight one. -/
def catDogLattice : CompactLattice :=
  ⟨some 0,
    [⟨⟨⟨Dbl.pinf, Dbl.pinf⟩, []⟩,
       [⟨1, 1, ⟨⟨Dbl.fin (1/4), Dbl.fin (3/4)⟩, [3, 4]⟩, 1⟩,
        ⟨2, 2, ⟨⟨Dbl.fin (3/2), Dbl.fin (1/2)⟩, [5]⟩, 2⟩]⟩,
     ⟨⟨⟨Dbl.fin 0, Dbl.fin 0⟩, []⟩, []⟩,
     ⟨⟨⟨Dbl.fin 0, Dbl.fin 0⟩, []⟩, []⟩]⟩

/-- The unweighted single-path query that accepts the one-word sequence `label`. -/
def wordQuery (label : Int) : VectorFst TropicalWeight :=
  ⟨some 0,
    [⟨TropicalWeight.Zero, [⟨label, label, TropicalWeight.One, 1⟩]⟩,
     ⟨TropicalWeight.One, []⟩]⟩

/-- The default options of `main`, with the tropical semiring selected. -/
def tropicalDefaults : Options := { use_log := false }

/-- A lattice with a single accepting path of two arcs: an epsilon arc of graph cost 0.5 and
acoustic cost 0.25, then an arc with word label 1 of graph cost 1 and acoustic cost 0.25,
which leads to a final state of weight one. -/
def epsCatLattice : CompactLattice :=
  ⟨some 0,
    [⟨⟨⟨Dbl.pinf, Dbl.pinf⟩, []⟩, [⟨0, 0, ⟨⟨Dbl.fin (1/2), Dbl.fin (1/4)⟩, [7]⟩, 1⟩]⟩,
     ⟨⟨⟨Dbl.pinf, Dbl.pinf⟩, []⟩, [⟨1, 1, ⟨⟨Dbl.fin 1, Dbl.fin (1/4)⟩, [8, 9]⟩, 2⟩]⟩,
     ⟨⟨⟨Dbl.fin 0, Dbl.fin 0⟩, []⟩, []⟩]⟩

/-- A lattice with a single accepting path of one arc, with word label 1, graph cost
`2 ^ 25 = 33554432` and acoustic cost 0, which leads to a final state of weight one. -/
def heavyLattice : CompactLattice :=
  ⟨some 0,
    [⟨⟨⟨Dbl.pinf, Dbl.pinf⟩, []⟩, [⟨1, 1, ⟨⟨Dbl.fin 33554432, Dbl.fin 0⟩, [3]⟩, 1⟩]⟩,
     ⟨⟨⟨Dbl.fin 0, Dbl.fin 0⟩, []⟩, []⟩]⟩

/-- The accepting path of `ConvertLattice heavyLattice`. -/
def heavyPath : List (Arc TropicalWeight) :=
  [⟨1, 1, ⟨Dbl.fin 33554432⟩, 1⟩]

/-- A lattice with a single accepting path of one arc, an epsilon arc of graph cost 1 and
acoustic cost 0, which leads to a final state of weight one. -/
def epsLattice : CompactLattice :=
  ⟨some 0,
    [⟨⟨⟨Dbl.pinf, Dbl.pinf⟩, []⟩, [⟨0, 0, ⟨⟨Dbl.fin 1, Dbl.fin 0⟩, [3]⟩, 1⟩]⟩,
     ⟨⟨⟨Dbl.fin 0, Dbl.fin 0⟩, []⟩, []⟩]⟩

/-- The accepting path of `ConvertLattice epsLattice`. -/
def epsPath : List (Arc TropicalWeight) :=
  [⟨0, 0, ⟨Dbl.fin 1⟩, 1⟩]

/-- The accepting path of `ConvertLattice epsCatLattice`. -/
def epsCatPath : List (Arc TropicalWeight) :=
  [⟨0, 0, ⟨Dbl.fin (3/4)⟩, 1⟩, ⟨1, 1, ⟨Dbl.fin (5/4)⟩, 2⟩]

/-- A single-path query that accepts the one-word sequence `label` with the weight `w` on its
arc. -/
def weightedWordQuery (label : Int) (w : Dbl) : VectorFst TropicalWeight :=
  ⟨some 0,
    [⟨TropicalWeight.Zero, [⟨label, label, ⟨w⟩, 1⟩]⟩,
     ⟨TropicalWeight.One, []⟩]⟩

/-! ## Specification vocabulary -/

/-- The distance of the state `s`, built from the paths of at most `k` arcs that leave the
state `s0`: the entry of `distanceVector` for `s`, and `Zero` for a state past its end. -/
def distanceOf {W : Type} (ops : WeightOps W) (fst : VectorFst W) (s0 k s : Nat) : W :=
  ((pathsUpTo fst k s0).filter (fun p => pathEnd s0 p = s)).foldl
    (fun d p => ops.Plus d (pathWeight ops p)) ops.Zero


/-- One step of a loop that rewrites a list in place: position `i` is replaced by `g` of
its value. -/
def stepAt {α : Type} (g : α → α) (l : List α) (i : Nat) : List α :=
  match l[i]? with
  | some a => l.set i (g a)
  | none => l

/-- The automaton whose every arc is replaced by its image under `g`. -/
def VectorFst.mapArcs {W : Type} (g : Arc W → Arc W) (fst : VectorFst W) : VectorFst W :=
  { fst with states := fst.states.map fun st => { st with arcs := st.arcs.map g } }

/-- Two automata over the same weight type have the same states, start state, final
weights and, state by state, the same arcs in the same order as far as labels and
destinations go. -/
def SameShape {W : Type} (a b : VectorFst W) : Prop :=
  b.NumStates = a.NumStates ∧ b.start = a.start ∧
  ∀ s, b.Final? s = a.Final? s ∧
    (b.Arcs s).map Arc.ilabel = (a.Arcs s).map Arc.ilabel ∧
    (b.Arcs s).map Arc.olabel = (a.Arcs s).map Arc.olabel ∧
    (b.Arcs s).map Arc.nextstate = (a.Arcs s).map Arc.nextstate

/-- A tropical arc with `p` added to its weight when its output label is not 0. -/
def penalizeStd (p : ℚ) (a : Arc TropicalWeight) : Arc TropicalWeight :=
  if a.olabel ≠ 0 then { a with weight := ⟨a.weight.Value + Dbl.fin p⟩ } else a

/-- The number of arcs of a path whose output label is not 0 (epsilon). -/
def nonEpsilonCount {W : Type} (π : List (Arc W)) : Nat :=
  π.countP fun a => a.olabel ≠ 0

/-- Every arc weight and every final weight is a cost `>= 0` (possibly `+infinity`). -/
def NonNegative (fst : VectorFst TropicalWeight) : Prop :=
  ∀ st ∈ fst.states, Dbl.fin 0 ≤ st.final.Value ∧ ∀ a ∈ st.arcs, Dbl.fin 0 ≤ a.weight.Value

instance (fst : VectorFst TropicalWeight) : Decidable (NonNegative fst) := by
  unfold NonNegative; infer_instance


/-- No sum `weight.Value1() + penalty` of the loop of `AddInsPenToLattice` is rounded: on every
arc with a non-epsilon output label the single-precision sum is the exact sum. -/
def PenaltyExact (penalty : Dbl) (lat : CompactLattice) : Prop :=
  ∀ st ∈ lat.states, ∀ a ∈ st.arcs, a.olabel ≠ 0 →
    Dbl.addFloat a.weight.Weight.Value1 penalty = a.weight.Weight.Value1 + penalty

instance (penalty : Dbl) (lat : CompactLattice) : Decidable (PenaltyExact penalty lat) := by
  unfold PenaltyExact; infer_instance

/-! ## Log-semiring vocabulary -/

/-- Every arc weight and every final weight, carried as a probability, is `>= 0`: the cost it
stands for is finite or `+infinity`. -/
def ProbWeights {K : Type} [LinearOrderedField K] (fst : VectorFst K) : Prop :=
  ∀ st ∈ fst.states, 0 ≤ st.final ∧ ∀ a ∈ st.arcs, 0 ≤ a.weight

instance {K : Type} [LinearOrderedField K] (fst : VectorFst K) : Decidable (ProbWeights fst) := by
  unfold ProbWeights; infer_instance

/-- The log-semiring counterpart of `NonNegative` for a query whose weights are carried as
probabilities: no arc has the input label 0, every final weight has a cost `>= 0` (a
probability in `[0, 1]`), and at every state the arcs that share an input label have a
plus-combination of cost `>= 0` (probabilities `>= 0` of sum `<= 1`). For a query with at
most one arc per state and input label this says that every cost is `>= 0`. -/
def SubStochastic {K : Type} [LinearOrderedField K] (fst : VectorFst K) : Prop :=
  ∀ st ∈ fst.states, 0 ≤ st.final ∧ st.final ≤ 1 ∧
    ∀ a ∈ st.arcs, a.ilabel ≠ 0 ∧ 0 ≤ a.weight ∧
      ((st.arcs.filter fun b => b.ilabel = a.ilabel).map fun b => b.weight).sum ≤ 1

instance {K : Type} [LinearOrderedField K] (fst : VectorFst K) :
    Decidable (SubStochastic fst) := by
  unfold SubStochastic; infer_instance

/-- The total probability of the paths of exactly `k` arcs that leave the state `s`, each
path weighted by the final weight of the state it ends in. -/
def acceptMass {K : Type} [LinearOrderedField K] (fst : VectorFst K) : Nat → Nat → K
  | 0, s => fst.Final 0 s
  | k + 1, s => ((fst.Arcs s).map fun a => a.weight * acceptMass fst k a.nextstate).sum

/-- The total probability of the paths of at most `n` arcs that leave the state `s`, each
path weighted by the final weight of the state it ends in. -/
def totalMass {K : Type} [LinearOrderedField K] (fst : VectorFst K) (n s : Nat) : K :=
  ((List.range (n + 1)).map fun k => acceptMass fst k s).sum

/-- A readout of the cost of a probability with exact values: minus the integer part of the
base-2 logarithm, `+infinity` for the probability 0. It decreases as the probability grows,
as `-log` does. -/
def log2Cost (p : ℚ) : Dbl :=
  if p ≤ 0 then Dbl.pinf else Dbl.fin (-(Int.log 2 p))

/-- A log-semiring automaton with two accepting paths: an arc labelled 1 ("cat") of
probability 1/2 and an arc labelled 2 ("dog") of probability 1/4, each to a final state of
weight one. -/
def twoPathLog : VectorFst ℚ :=
  ⟨some 0,
    [⟨0, [⟨1, 1, 1/2, 1⟩, ⟨2, 2, 1/4, 2⟩]⟩,
     ⟨1, []⟩,
     ⟨1, []⟩]⟩

/-- The unweighted single-path log-semiring query that accepts the one-word sequence
`label`. -/
def wordQueryLog (label : Int) : VectorFst ℚ :=
  ⟨some 0, [⟨0, [⟨label, label, 1, 1⟩]⟩, ⟨1, []⟩]⟩

/-- An unweighted log-semiring query with two paths that accept the same one-word sequence
`label`: two arcs of cost 0 (probability 1) from the start state to the final state. -/
def doubleWordQueryLog (label : Int) : VectorFst ℚ :=
  ⟨some 0, [⟨0, [⟨label, label, 1, 1⟩, ⟨label, label, 1, 1⟩]⟩, ⟨1, []⟩]⟩

/-! # Theorems -/

/-! ## In-place loops -/

theorem foldl_stepAt {α : Type} (g : α → α) (l : List α) (k : Nat) :
    (List.range k).foldl (stepAt g) l = (l.take k).map g ++ l.drop k := by
  induction k with
  | zero => simp
  | succ k ih =>
    rw [List.range_succ, List.foldl_append, ih]
    simp only [List.foldl_cons, List.foldl_nil, stepAt]
    by_cases hk : k < l.length
    · have h1 : ((l.take k).map g ++ l.drop k)[k]? = l[k]? := by
        rw [List.getElem?_append_right] <;> simp [Nat.min_eq_left hk.le]
      rw [h1, List.getElem?_eq_getElem hk]
      simp only
      have h2 : ((l.take k).map g).length = k := by simp [Nat.min_eq_left hk.le]
      rw [List.set_append_right _ _ (by omega), h2, Nat.sub_self, List.drop_eq_getElem_cons hk,
        List.set_cons_zero]
      have h3 : List.take (k + 1) l = List.take k l ++ [l[k]] := by
        rw [List.take_succ, List.getElem?_eq_getElem hk]; rfl
      rw [h3, List.map_append, List.append_assoc]; rfl
    · have hk' : l.length ≤ k := by omega
      have h1 : ((l.take k).map g ++ l.drop k)[k]? = none := by
        rw [List.getElem?_eq_none]; simp; omega
      rw [h1]
      simp [List.take_of_length_le hk', List.take_of_length_le (Nat.le_succ_of_le hk'),
        List.drop_eq_nil_of_le hk', List.drop_eq_nil_of_le (Nat.le_succ_of_le hk')]

theorem foldl_stepAt_length {α : Type} (g : α → α) (l : List α) :
    (List.range l.length).foldl (stepAt g) l = l.map g := by
  rw [foldl_stepAt]; simp

theorem foldl_hom {α β γ : Type} (rep : α → β) (f : β → γ → β) (f' : α → γ → α)
    (h : ∀ x i, f (rep x) i = rep (f' x i)) (x : α) (l : List γ) :
    l.foldl f (rep x) = rep (l.foldl f' x) := by
  induction l generalizing x with
  | nil => rfl
  | cons a l ih => simp [List.foldl_cons, h, ih]

/-- A loop over the arcs of every state that replaces each arc by `g` of it computes
`mapArcs g`, whenever its body at position `i` of state `s` is `SetArc s i (g arc)`. -/
theorem arcLoop_eq_mapArcs {W : Type} (g : Arc W → Arc W)
    (body : Nat → VectorFst W → Nat → VectorFst W)
    (hbody : ∀ s fst i, body s fst i =
      match (fst.Arcs s)[i]? with
      | some arc => fst.SetArc s i (g arc)
      | none => fst)
    (fst : VectorFst W) :
    (List.range fst.NumStates).foldl
      (fun fst s => (List.range (fst.NumArcs s)).foldl (body s) fst) fst = fst.mapArcs g := by
  have inner : ∀ (start : Option Nat) (states : List (VectorState W)) (s : Nat),
      (List.range ((VectorFst.mk start states).NumArcs s)).foldl (body s)
        (VectorFst.mk start states)
      = VectorFst.mk start
          (stepAt (fun st => { st with arcs := st.arcs.map g }) states s) := by
    intro start states s
    cases hs : states[s]? with
    | none => simp [VectorFst.NumArcs, VectorFst.Arcs, hs, stepAt]
    | some st =>
      have hlt : s < states.length := by
        rcases List.getElem?_eq_some.1 hs with ⟨h, _⟩; exact h
      have hrep : ∀ (arcs : List (Arc W)) (i : Nat),
          body s (VectorFst.mk start (states.set s { st with arcs := arcs })) i
          = VectorFst.mk start (states.set s { st with arcs := stepAt g arcs i }) := by
        intro arcs i
        rw [hbody]
        simp only [VectorFst.Arcs, VectorFst.SetArc, List.getElem?_set_self hlt, stepAt]
        cases arcs[i]? <;> simp
      have h0 : VectorFst.mk start states
          = VectorFst.mk start (states.set s { st with arcs := st.arcs }) := by
        congr 1
        apply List.ext_getElem?
        intro j
        rw [List.getElem?_set]
        split
        · subst_vars; simp [hs, hlt]
        · rfl
      have hn : (VectorFst.mk start states).NumArcs s = st.arcs.length := by
        simp [VectorFst.NumArcs, VectorFst.Arcs, hs]
      rw [hn, h0,
        foldl_hom (fun arcs => VectorFst.mk start (states.set s { st with arcs := arcs }))
          (body s) (stepAt g) hrep, foldl_stepAt_length]
      simp [stepAt, hs]
  cases fst with
  | mk start states =>
    have hrep : ∀ (sts : List (VectorState W)) (s : Nat),
        (fun (fst : VectorFst W) s => (List.range (fst.NumArcs s)).foldl (body s) fst)
          (VectorFst.mk start sts) s
        = VectorFst.mk start (stepAt (fun st => { st with arcs := st.arcs.map g }) sts s) :=
      fun sts s => inner start sts s
    rw [foldl_hom (fun sts => VectorFst.mk start sts) _ _ hrep]
    simp [VectorFst.NumStates, foldl_stepAt_length, VectorFst.mapArcs]

theorem set_self_of_getElem? {α : Type} (l : List α) (i : Nat) (a : α)
    (h : l[i]? = some a) : l.set i a = l := by
  apply List.ext_getElem?
  intro j
  rw [List.getElem?_set]
  split
  · subst_vars
    rcases List.getElem?_eq_some.1 h with ⟨hlt, _⟩
    simp [h, hlt]
  · rfl

theorem SetArc_self {W : Type} (fst : VectorFst W) (s i : Nat) (arc : Arc W)
    (h : (fst.Arcs s)[i]? = some arc) : fst.SetArc s i arc = fst := by
  unfold VectorFst.SetArc
  unfold VectorFst.Arcs at h
  cases hs : fst.states[s]? with
  | none => rfl
  | some st =>
    rw [hs] at h
    simp only at h ⊢
    rw [set_self_of_getElem? st.arcs i arc h, set_self_of_getElem? fst.states s st hs]

theorem AddInsPenToLattice_eq_mapArcs (penalty : Dbl) (lat : Lattice) :
    AddInsPenToLattice penalty lat = lat.mapArcs (fun arc =>
      if arc.olabel ≠ 0 then
        { arc with weight := { arc.weight with Value1 := arc.weight.Value1 + penalty } }
      else arc) := by
  unfold AddInsPenToLattice
  apply arcLoop_eq_mapArcs
  intro s fst i
  unfold AddInsPenArc
  cases h : (fst.Arcs s)[i]? with
  | none => rfl
  | some arc =>
    simp only
    split
    · rfl
    · exact (SetArc_self fst s i arc h).symm

theorem AddInsPenToCompactLattice_eq_mapArcs (penalty : Dbl) (lat : CompactLattice) :
    AddInsPenToCompactLattice penalty lat = lat.mapArcs (fun arc =>
      if arc.olabel ≠ 0 then
        { arc with weight := { arc.weight with
            Weight := { arc.weight.Weight with Value1 := arc.weight.Weight.Value1 + penalty } } }
      else arc) := by
  unfold AddInsPenToCompactLattice
  apply arcLoop_eq_mapArcs
  intro s fst i
  unfold AddInsPenArcCompact
  cases h : (fst.Arcs s)[i]? with
  | none => rfl
  | some arc =>
    simp only
    split
    · rfl
    · exact (SetArc_self fst s i arc h).symm

theorem AddInsPenToCompactLatticeFloat_eq_mapArcs (penalty : Dbl) (lat : CompactLattice) :
    AddInsPenToCompactLatticeFloat penalty lat = lat.mapArcs (fun arc =>
      if arc.olabel ≠ 0 then
        { arc with weight := { arc.weight with
            Weight := { arc.weight.Weight with
              Value1 := Dbl.addFloat arc.weight.Weight.Value1 penalty } } }
      else arc) := by
  unfold AddInsPenToCompactLatticeFloat
  apply arcLoop_eq_mapArcs
  intro s fst i
  unfold AddInsPenArcCompactFloat
  cases h : (fst.Arcs s)[i]? with
  | none => rfl
  | some arc =>
    simp only
    split
    · rfl
    · exact (SetArc_self fst s i arc h).symm

/-- When no sum is rounded the single-precision loop and the exact loop give the same
lattice. -/
theorem AddInsPenFloat_eq_of_exact (penalty : Dbl) (lat : CompactLattice)
    (h : PenaltyExact penalty lat) :
    AddInsPenToCompactLatticeFloat penalty lat = AddInsPenToCompactLattice penalty lat := by
  rw [AddInsPenToCompactLatticeFloat_eq_mapArcs, AddInsPenToCompactLattice_eq_mapArcs]
  unfold VectorFst.mapArcs
  congr 1
  apply List.map_congr_left
  intro st hst
  congr 1
  apply List.map_congr_left
  intro a ha
  by_cases ho : a.olabel ≠ 0
  · rw [if_pos ho, if_pos ho, h st hst a ha ho]
  · rw [if_neg ho, if_neg ho]

theorem mapArcs_Arcs {W : Type} (g : Arc W → Arc W) (fst : VectorFst W) (s : Nat) :
    (fst.mapArcs g).Arcs s = (fst.Arcs s).map g := by
  simp only [VectorFst.mapArcs, VectorFst.Arcs, List.getElem?_map]
  cases fst.states[s]? <;> rfl

theorem mapArcs_Final? {W : Type} (g : Arc W → Arc W) (fst : VectorFst W) (s : Nat) :
    (fst.mapArcs g).Final? s = fst.Final? s := by
  simp only [VectorFst.mapArcs, VectorFst.Final?, List.getElem?_map]
  cases fst.states[s]? <;> rfl

theorem mapArcs_SameShape {W : Type} (g : Arc W → Arc W) (fst : VectorFst W)
    (hi : ∀ a, (g a).ilabel = a.ilabel) (ho : ∀ a, (g a).olabel = a.olabel)
    (hn : ∀ a, (g a).nextstate = a.nextstate) : SameShape fst (fst.mapArcs g) := by
  refine ⟨by simp [VectorFst.NumStates, VectorFst.mapArcs], rfl, fun s => ⟨?_, ?_, ?_, ?_⟩⟩
  · exact mapArcs_Final? g fst s
  · rw [mapArcs_Arcs, List.map_map]; exact List.map_congr_left (fun a _ => hi a)
  · rw [mapArcs_Arcs, List.map_map]; exact List.map_congr_left (fun a _ => ho a)
  · rw [mapArcs_Arcs, List.map_map]; exact List.map_congr_left (fun a _ => hn a)

/-! ## Claims on the weight conversion and the insertion penalty -/

/-- C9: `ConvertLatticeWeight` maps a two-stream weight of graph cost `g` and acoustic cost
`a` to the scalar `g + a`, and its tropical and log overloads give the same scalar. -/
theorem ConvertLatticeWeight_value (g a : Dbl) (str : List Int) :
    (ConvertLatticeWeightStd ⟨⟨g, a⟩, str⟩).Value = g + a ∧
    (ConvertLatticeWeightLog ⟨⟨g, a⟩, str⟩).Value = g + a ∧
    (ConvertLatticeWeightStd ⟨⟨g, a⟩, str⟩).Value
      = (ConvertLatticeWeightLog ⟨⟨g, a⟩, str⟩).Value :=
  ⟨rfl, rfl, rfl⟩

/-- C6: `AddInsPenToLattice` keeps the states, the start state, the final weights and, state
by state, the arcs in order with their labels, destinations and acoustic costs (and, for a
`CompactLattice`, their strings); the graph cost of an arc becomes the old one plus the
penalty when the output label is not 0 and is unchanged when it is 0. Both overloads. -/
theorem AddInsPenToLattice_frame (penalty : Dbl) (lat : Lattice) (clat : CompactLattice) :
    (SameShape lat (AddInsPenToLattice penalty lat) ∧
      ∀ s, ((AddInsPenToLattice penalty lat).Arcs s).map (fun a => a.weight.Value2)
            = (lat.Arcs s).map (fun a => a.weight.Value2) ∧
          ((AddInsPenToLattice penalty lat).Arcs s).map (fun a => a.weight.Value1)
            = (lat.Arcs s).map (fun a =>
                if a.olabel ≠ 0 then a.weight.Value1 + penalty else a.weight.Value1)) ∧
    (SameShape clat (AddInsPenToCompactLattice penalty clat) ∧
      ∀ s, ((AddInsPenToCompactLattice penalty clat).Arcs s).map (fun a => a.weight.String)
            = (clat.Arcs s).map (fun a => a.weight.String) ∧
          ((AddInsPenToCompactLattice penalty clat).Arcs s).map
              (fun a => a.weight.Weight.Value2)
            = (clat.Arcs s).map (fun a => a.weight.Weight.Value2) ∧
          ((AddInsPenToCompactLattice penalty clat).Arcs s).map
              (fun a => a.weight.Weight.Value1)
            = (clat.Arcs s).map (fun a =>
                if a.olabel ≠ 0 then a.weight.Weight.Value1 + penalty
                else a.weight.Weight.Value1)) := by
  rw [AddInsPenToLattice_eq_mapArcs, AddInsPenToCompactLattice_eq_mapArcs]
  refine ⟨⟨?_, fun s => ⟨?_, ?_⟩⟩, ⟨?_, fun s => ⟨?_, ?_, ?_⟩⟩⟩
  · apply mapArcs_SameShape <;> intro a <;> split <;> rfl
  · rw [mapArcs_Arcs, List.map_map]
    apply List.map_congr_left; intro a _; simp only [Function.comp]; split <;> rfl
  · rw [mapArcs_Arcs, List.map_map]
    apply List.map_congr_left; intro a _; simp only [Function.comp]; split <;> simp_all
  · apply mapArcs_SameShape <;> intro a <;> split <;> rfl
  · rw [mapArcs_Arcs, List.map_map]
    apply List.map_congr_left; intro a _; simp only [Function.comp]; split <;> rfl
  · rw [mapArcs_Arcs, List.map_map]
    apply List.map_congr_left; intro a _; simp only [Function.comp]; split <;> rfl
  · rw [mapArcs_Arcs, List.map_map]
    apply List.map_congr_left; intro a _; simp only [Function.comp]; split <;> simp_all

/-! ## Arithmetic of costs -/

theorem dbl_le_def (a b : Dbl) : a ≤ b ↔ Dbl.le a b = true := Iff.rfl
theorem dbl_lt_def (a b : Dbl) : a < b ↔ Dbl.lt a b = true := Iff.rfl
theorem dbl_add_def (a b : Dbl) : a + b = Dbl.add a b := rfl
theorem dbl_neg_def (a : Dbl) : -a = Dbl.neg a := rfl
theorem dbl_sub_def (a b : Dbl) : a - b = Dbl.add a (Dbl.neg b) := rfl
theorem dbl_mul_def (a b : Dbl) : a * b = Dbl.mul a b := rfl

theorem dbl_le_refl {a : Dbl} (h : a.isCost = true) : a ≤ a := by
  cases a <;> simp_all [dbl_le_def, Dbl.le, Dbl.isCost]

theorem dbl_le_trans {a b c : Dbl} (h1 : a ≤ b) (h2 : b ≤ c) : a ≤ c := by
  cases a <;> cases b <;> cases c <;> simp_all [dbl_le_def, Dbl.le]
  exact le_trans h1 h2

theorem dbl_le_antisymm {a b : Dbl} (h1 : a ≤ b) (h2 : b ≤ a) : a = b := by
  cases a <;> cases b <;> simp_all [dbl_le_def, Dbl.le]
  exact le_antisymm h1 h2

theorem dbl_le_of_lt {a b : Dbl} (h : a < b) : a ≤ b := by
  cases a <;> cases b <;> simp_all [dbl_le_def, dbl_lt_def, Dbl.le, Dbl.lt]
  exact le_of_lt h

theorem dbl_le_of_not_lt {a b : Dbl} (ha : a.isCost = true) (hb : b.isCost = true)
    (h : ¬ a < b) : b ≤ a := by
  cases a <;> cases b <;> simp_all [dbl_le_def, dbl_lt_def, Dbl.le, Dbl.lt, Dbl.isCost]

theorem dbl_le_pinf {a : Dbl} (ha : a.isCost = true) : a ≤ Dbl.pinf := by
  cases a <;> simp_all [dbl_le_def, Dbl.le, Dbl.isCost]

theorem dbl_eq_pinf_of_le {a : Dbl} (h : Dbl.pinf ≤ a) : a = Dbl.pinf := by
  cases a <;> simp_all [dbl_le_def, Dbl.le]

theorem dbl_add_comm (a b : Dbl) : a + b = b + a := by
  cases a <;> cases b <;> simp [dbl_add_def, Dbl.add]
  exact add_comm _ _

theorem dbl_add_isCost {a b : Dbl} (ha : a.isCost = true) (hb : b.isCost = true) :
    (a + b).isCost = true := by
  cases a <;> cases b <;> simp_all [dbl_add_def, Dbl.add, Dbl.isCost]

theorem dbl_add_pinf {a : Dbl} (ha : a.isCost = true) : a + Dbl.pinf = Dbl.pinf := by
  cases a <;> simp_all [dbl_add_def, Dbl.add, Dbl.isCost]

theorem dbl_pinf_add {a : Dbl} (ha : a.isCost = true) : Dbl.pinf + a = Dbl.pinf := by
  cases a <;> simp_all [dbl_add_def, Dbl.add, Dbl.isCost]

theorem dbl_add_le_add_left {a b : Dbl} (c : Dbl) (hc : c.isCost = true) (h : a ≤ b)
    (ha : a.isCost = true) : c + a ≤ c + b := by
  cases a <;> cases b <;> cases c <;>
    simp_all [dbl_le_def, dbl_add_def, Dbl.le, Dbl.add, Dbl.isCost]

theorem dbl_neg_le_neg {a b : Dbl} (h : a ≤ b) : -b ≤ -a := by
  cases a <;> cases b <;> simp_all [dbl_le_def, dbl_neg_def, Dbl.le, Dbl.neg]

theorem dbl_add_eq_pinf {a b : Dbl} (ha : a.isCost = true) (hb : b.isCost = true)
    (h : a + b = Dbl.pinf) : a = Dbl.pinf ∨ b = Dbl.pinf := by
  cases a <;> cases b <;> simp_all [dbl_add_def, Dbl.add, Dbl.isCost]

/-! ## The plus-combination of a list of tropical weights is its minimum -/

theorem Plus_spec {a b : TropicalWeight} (ha : a.Member = true) (hb : b.Member = true) :
    (a.Plus b).Member = true ∧ (a.Plus b).Value ≤ a.Value ∧ (a.Plus b).Value ≤ b.Value ∧
    (a.Plus b = a ∨ a.Plus b = b) := by
  unfold TropicalWeight.Plus
  unfold TropicalWeight.Member at ha hb
  split
  · rename_i h
    exact ⟨ha, dbl_le_refl ha, dbl_le_of_lt h, Or.inl rfl⟩
  · rename_i h
    exact ⟨hb, dbl_le_of_not_lt ha hb h, dbl_le_refl hb, Or.inr rfl⟩

theorem foldPlus_spec {α : Type} (f : α → TropicalWeight) (l : List α) (z : TropicalWeight)
    (hz : z.Member = true) (hl : ∀ x ∈ l, (f x).Member = true) :
    (l.foldl (fun d x => d.Plus (f x)) z).Member = true ∧
    (l.foldl (fun d x => d.Plus (f x)) z).Value ≤ z.Value ∧
    (∀ x ∈ l, (l.foldl (fun d x => d.Plus (f x)) z).Value ≤ (f x).Value) ∧
    (l.foldl (fun d x => d.Plus (f x)) z = z ∨
      ∃ x ∈ l, l.foldl (fun d x => d.Plus (f x)) z = f x) := by
  induction l generalizing z with
  | nil => exact ⟨hz, dbl_le_refl hz, by simp, Or.inl rfl⟩
  | cons a l ih =>
    have ha : (f a).Member = true := hl a (List.mem_cons_self _ _)
    obtain ⟨p1, p2, p3, p4⟩ := Plus_spec hz ha
    obtain ⟨q1, q2, q3, q4⟩ := ih (z.Plus (f a)) p1 (fun x hx => hl x (List.mem_cons_of_mem _ hx))
    simp only [List.foldl_cons]
    refine ⟨q1, dbl_le_trans q2 p2, ?_, ?_⟩
    · intro x hx
      rcases List.mem_cons.1 hx with rfl | hx
      · exact dbl_le_trans q2 p3
      · exact q3 x hx
    · rcases q4 with q4 | ⟨x, hx, q4⟩
      · rcases p4 with p4 | p4
        · left; rw [q4, p4]
        · right; exact ⟨a, List.mem_cons_self _ _, by rw [q4, p4]⟩
      · right; exact ⟨x, List.mem_cons_of_mem _ hx, q4⟩

/-! ## Paths and their enumeration -/

theorem mem_pathsFrom {W : Type} (fst : VectorFst W) (k s : Nat) (p : List (Arc W)) :
    p ∈ pathsFrom fst k s ↔ p.length = k ∧ IsPath fst s p := by
  induction k generalizing s p with
  | zero =>
    cases p with
    | nil => simp [pathsFrom, IsPath]
    | cons a p => simp [pathsFrom]
  | succ k ih =>
    cases p with
    | nil => simp [pathsFrom]
    | cons a p =>
      simp only [pathsFrom, List.mem_flatMap, List.mem_map, List.cons.injEq, IsPath,
        List.length_cons, Nat.add_right_cancel_iff]
      constructor
      · rintro ⟨b, hb, q, hq, rfl, rfl⟩
        exact ⟨((ih _ _).1 hq).1, hb, ((ih _ _).1 hq).2⟩
      · rintro ⟨hlen, ha, hp⟩
        exact ⟨a, ha, p, (ih _ _).2 ⟨hlen, hp⟩, rfl, rfl⟩

theorem mem_pathsUpTo {W : Type} (fst : VectorFst W) (n s : Nat) (p : List (Arc W)) :
    p ∈ pathsUpTo fst n s ↔ p.length ≤ n ∧ IsPath fst s p := by
  simp only [pathsUpTo, List.mem_flatMap, List.mem_range, mem_pathsFrom]
  constructor
  · rintro ⟨k, hk, rfl, hp⟩
    exact ⟨by omega, hp⟩
  · rintro ⟨hlen, hp⟩
    exact ⟨p.length, by omega, rfl, hp⟩

theorem pathWeight_Value (p : List (Arc TropicalWeight)) :
    (pathWeight TropicalWeight.ops p).Value = pathCost p := by
  induction p with
  | nil => rfl
  | cons a p ih =>
    show a.weight.Value + (pathWeight TropicalWeight.ops p).Value = _
    rw [ih]
    rfl

theorem isPath_append {W : Type} (fst : VectorFst W) (s : Nat) (p q : List (Arc W)) :
    IsPath fst s (p ++ q) ↔ IsPath fst s p ∧ IsPath fst (pathEnd s p) q := by
  induction p generalizing s with
  | nil => simp [IsPath, pathEnd]
  | cons a p ih => simp [IsPath, pathEnd, ih, and_assoc]

theorem pathEnd_append {W : Type} (s : Nat) (p q : List (Arc W)) :
    pathEnd s (p ++ q) = pathEnd (pathEnd s p) q := by
  induction p generalizing s with
  | nil => rfl
  | cons a p ih => simp [pathEnd, ih]

theorem Arcs_nil_of_ge {W : Type} (fst : VectorFst W) (s : Nat) (h : fst.NumStates ≤ s) :
    fst.Arcs s = [] := by
  unfold VectorFst.Arcs
  rw [List.getElem?_eq_none (by simpa [VectorFst.NumStates] using h)]

theorem pathSources_lt {W : Type} (fst : VectorFst W) (s : Nat) (p : List (Arc W))
    (hp : IsPath fst s p) : ∀ x ∈ pathSources s p, x < fst.NumStates := by
  induction p generalizing s with
  | nil => simp [pathSources]
  | cons a p ih =>
    intro x hx
    simp only [pathSources, List.mem_cons] at hx
    rcases hx with rfl | hx
    · by_contra hge
      have := Arcs_nil_of_ge fst x (by omega)
      simp [IsPath, this] at hp
    · exact ih _ hp.2 x hx

theorem pathSources_length {W : Type} (s : Nat) (p : List (Arc W)) :
    (pathSources s p).length = p.length := by
  induction p generalizing s with
  | nil => rfl
  | cons a p ih => simp [pathSources, ih]

theorem mem_pathSources_split {W : Type} (s x : Nat) (p : List (Arc W))
    (hx : x ∈ pathSources s p) : ∃ p1 p2, p = p1 ++ p2 ∧ pathEnd s p1 = x ∧ p2 ≠ [] := by
  induction p generalizing s with
  | nil => simp [pathSources] at hx
  | cons a p ih =>
    simp only [pathSources, List.mem_cons] at hx
    rcases hx with rfl | hx
    · exact ⟨[], a :: p, rfl, rfl, by simp⟩
    · obtain ⟨p1, p2, rfl, he, hne⟩ := ih _ hx
      exact ⟨a :: p1, p2, rfl, he, hne⟩

/-- A path that leaves some state twice contains a cycle. -/
theorem cycle_of_not_nodup {W : Type} (s : Nat) (p : List (Arc W))
    (h : ¬ (pathSources s p).Nodup) :
    ∃ p1 c p2, p = p1 ++ c ++ p2 ∧ c ≠ [] ∧ pathEnd (pathEnd s p1) c = pathEnd s p1 := by
  induction p generalizing s with
  | nil => simp [pathSources] at h
  | cons a p ih =>
    simp only [pathSources, List.nodup_cons, not_and_or, not_not] at h
    rcases h with h | h
    · obtain ⟨q1, q2, rfl, he, _⟩ := mem_pathSources_split _ _ _ h
      exact ⟨[], a :: q1, q2, rfl, by simp, by simpa [pathEnd] using he⟩
    · obtain ⟨p1, c, p2, rfl, hc, he⟩ := ih _ h
      exact ⟨a :: p1, c, p2, rfl, hc, by simpa [pathEnd] using he⟩

theorem length_le_of_nodup_lt (l : List Nat) (n : Nat) (hnd : l.Nodup)
    (hlt : ∀ x ∈ l, x < n) : l.length ≤ n := by
  have h1 : l.toFinset ⊆ Finset.range n := by
    intro x hx
    simp only [List.mem_toFinset] at hx
    simpa using hlt x hx
  have h2 := Finset.card_le_card h1
  rwa [List.toFinset_card_of_nodup hnd, Finset.card_range] at h2

/-- In an acyclic automaton no path has more arcs than there are states. -/
theorem length_le_of_acyclic {W : Type} (fst : VectorFst W) (hac : Acyclic fst) (s : Nat)
    (p : List (Arc W)) (hp : IsPath fst s p) : p.length ≤ fst.NumStates := by
  have hnd : (pathSources s p).Nodup := by
    by_contra h
    obtain ⟨p1, c, p2, rfl, hc, he⟩ := cycle_of_not_nodup s p h
    rw [List.append_assoc, isPath_append, isPath_append] at hp
    exact hac _ c hc hp.2.1 he
  rw [← pathSources_length s p]
  exact length_le_of_nodup_lt _ _ hnd (pathSources_lt fst s p hp)

/-! ## The likelihood of a tropical automaton -/

theorem Final_Member (fst : VectorFst TropicalWeight) (hm : AllMembers fst) (s : Nat) :
    (fst.Final TropicalWeight.Zero s).Member = true := by
  unfold VectorFst.Final
  cases h : fst.states[s]? with
  | none => rfl
  | some st => exact (hm st (List.getElem?_mem h)).1

theorem Final_Zero_of_ge (fst : VectorFst TropicalWeight) (s : Nat) (h : fst.NumStates ≤ s) :
    fst.Final TropicalWeight.Zero s = TropicalWeight.Zero := by
  unfold VectorFst.Final
  rw [List.getElem?_eq_none (by simpa [VectorFst.NumStates] using h)]

theorem Arcs_Member (fst : VectorFst TropicalWeight) (hm : AllMembers fst) (s : Nat)
    (a : Arc TropicalWeight) (ha : a ∈ fst.Arcs s) : a.weight.Member = true := by
  unfold VectorFst.Arcs at ha
  cases h : fst.states[s]? with
  | none => simp [h] at ha
  | some st =>
    rw [h] at ha
    exact (hm st (List.getElem?_mem h)).2 a ha

theorem Times_Member {a b : TropicalWeight} (ha : a.Member = true) (hb : b.Member = true) :
    (a.Times b).Member = true :=
  dbl_add_isCost ha hb

theorem pathWeight_Member (fst : VectorFst TropicalWeight) (hm : AllMembers fst) (s : Nat)
    (p : List (Arc TropicalWeight)) (hp : IsPath fst s p) :
    (pathWeight TropicalWeight.ops p).Member = true := by
  induction p generalizing s with
  | nil => rfl
  | cons a p ih => exact Times_Member (Arcs_Member fst hm s a hp.1) (ih _ hp.2)


/-- A path can be shortened, between the same two states, to at most `NumStates` arcs. -/
theorem exists_short_path {W : Type} (fst : VectorFst W) (s : Nat) (p : List (Arc W))
    (hp : IsPath fst s p) :
    ∃ q, IsPath fst s q ∧ pathEnd s q = pathEnd s p ∧ q.length ≤ fst.NumStates := by
  generalize hlen : p.length = k
  induction k using Nat.strong_induction_on generalizing p with
  | _ k ih =>
    by_cases hnd : (pathSources s p).Nodup
    · refine ⟨p, hp, rfl, ?_⟩
      rw [← pathSources_length s p]
      exact length_le_of_nodup_lt _ _ hnd (pathSources_lt fst s p hp)
    · obtain ⟨p1, c, p2, rfl, hc, he⟩ := cycle_of_not_nodup s p hnd
      rw [isPath_append, isPath_append, pathEnd_append, he] at hp
      have hp' : IsPath fst s (p1 ++ p2) := (isPath_append fst s p1 p2).2 ⟨hp.1.1, hp.2⟩
      have hlt : (p1 ++ p2).length < k := by
        have hc' : 0 < c.length := List.length_pos.2 hc
        simp only [List.length_append] at hlen ⊢
        omega
      obtain ⟨q, hq, hqe, hql⟩ := ih _ hlt (p1 ++ p2) hp' rfl
      refine ⟨q, hq, ?_, hql⟩
      rw [hqe]
      simp only [pathEnd_append, he]

theorem le_foldl_max (l : List Nat) (z : Nat) :
    z ≤ l.foldl max z ∧ ∀ x ∈ l, x ≤ l.foldl max z := by
  induction l generalizing z with
  | nil => simp
  | cons a l ih =>
    simp only [List.foldl_cons, List.mem_cons, forall_eq_or_imp]
    obtain ⟨h1, h2⟩ := ih (max z a)
    exact ⟨by omega, by omega, h2⟩

theorem foldl_max_mem (l : List Nat) (z : Nat) : l.foldl max z = z ∨ l.foldl max z ∈ l := by
  induction l generalizing z with
  | nil => exact Or.inl rfl
  | cons a l ih =>
    simp only [List.foldl_cons, List.mem_cons]
    rcases ih (max z a) with h | h
    · rw [h]
      rcases Nat.le_total z a with hza | hza
      · right; left; exact Nat.max_eq_right hza
      · left; exact Nat.max_eq_left hza
    · right; right; exact h

/-! ## The distance vector -/

theorem distanceVector_length {W : Type} (ops : WeightOps W) (fst : VectorFst W)
    (s0 k : Nat) :
    (distanceVector ops fst s0 k).length
      = ((pathsUpTo fst k s0).map (pathEnd s0)).foldl max 0 + 1 := by
  simp [distanceVector]

theorem distanceVector_getElem? {W : Type} (ops : WeightOps W) (fst : VectorFst W)
    (s0 k s : Nat) (hlt : s < (distanceVector ops fst s0 k).length) :
    (distanceVector ops fst s0 k)[s]? = some (distanceOf ops fst s0 k s) := by
  rw [distanceVector_length] at hlt
  simp only [distanceVector, distanceOf, List.getElem?_map, List.getElem?_range hlt,
    Option.map_some']

theorem distanceOf_of_ge {W : Type} (ops : WeightOps W) (fst : VectorFst W)
    (s0 k s : Nat) (hge : (distanceVector ops fst s0 k).length ≤ s) :
    distanceOf ops fst s0 k s = ops.Zero := by
  rw [distanceVector_length] at hge
  have hnil : (pathsUpTo fst k s0).filter (fun p => pathEnd s0 p = s) = [] := by
    rw [List.filter_eq_nil_iff]
    intro p hp
    have := (le_foldl_max ((pathsUpTo fst k s0).map (pathEnd s0)) 0).2 _
      (List.mem_map.2 ⟨p, hp, rfl⟩)
    simp only [decide_eq_true_eq]
    omega
  unfold distanceOf
  rw [hnil]
  rfl

/-- When the paths of one more arc change no entry of the distance vector, they change the
distance of no state. -/
theorem distanceOf_converged {W : Type} (ops : WeightOps W) (fst : VectorFst W)
    (s0 n : Nat) (h : distanceVector ops fst s0 n = distanceVector ops fst s0 (n + 1))
    (s : Nat) : distanceOf ops fst s0 n s = distanceOf ops fst s0 (n + 1) s := by
  by_cases hlt : s < (distanceVector ops fst s0 n).length
  · have h1 := distanceVector_getElem? ops fst s0 n s hlt
    have h2 := distanceVector_getElem? ops fst s0 (n + 1) s (h ▸ hlt)
    rw [h, h2] at h1
    exact (Option.some.inj h1).symm
  · rw [distanceOf_of_ge ops fst s0 n s (by omega),
      distanceOf_of_ge ops fst s0 (n + 1) s (by rw [← h]; omega)]

theorem ShortestDistance_some {W : Type} [DecidableEq W] (ops : WeightOps W)
    (fst : VectorFst W) (s0 : Nat) (d : List W) (hs : fst.start = some s0)
    (hd : ShortestDistance ops fst = some d) :
    d = distanceVector ops fst s0 fst.NumStates ∧
    distanceVector ops fst s0 fst.NumStates
      = distanceVector ops fst s0 (fst.NumStates + 1) := by
  simp only [ShortestDistance, hs] at hd
  split at hd
  · rename_i h
    exact ⟨(Option.some.inj hd).symm, h⟩
  · cases hd

/-- When a path from the start state enters the highest-numbered state, the distance vector
has an entry for every state. -/
theorem covered_of_topReached {W : Type} (ops : WeightOps W) (fst : VectorFst W)
    (h : TopReached fst) (s0 : Nat) (hs : fst.start = some s0) :
    fst.NumStates ≤ (distanceVector ops fst s0 fst.NumStates).length := by
  obtain ⟨s0', p, hs', hp, hle⟩ := h
  rw [hs] at hs'
  cases hs'
  obtain ⟨q, hq, hqe, hql⟩ := exists_short_path fst s0 p hp
  rw [distanceVector_length]
  have hmem : pathEnd s0 q ∈ (pathsUpTo fst fst.NumStates s0).map (pathEnd s0) :=
    List.mem_map.2 ⟨q, (mem_pathsUpTo fst _ _ q).2 ⟨hql, hq⟩, rfl⟩
  have := (le_foldl_max _ 0).2 _ hmem
  omega

/-- When the distance vector has an entry for every state, a path from the start state enters
the highest-numbered state. -/
theorem topReached_of_covered {W : Type} (ops : WeightOps W) (fst : VectorFst W) (s0 : Nat)
    (hs : fst.start = some s0)
    (hcov : fst.NumStates ≤ (distanceVector ops fst s0 fst.NumStates).length) :
    TopReached fst := by
  rw [distanceVector_length] at hcov
  rcases foldl_max_mem ((pathsUpTo fst fst.NumStates s0).map (pathEnd s0)) 0 with h | h
  · exact ⟨s0, [], hs, trivial, by simp only [pathEnd]; omega⟩
  · obtain ⟨p, hp, he⟩ := List.mem_map.1 h
    exact ⟨s0, p, hs, ((mem_pathsUpTo fst _ _ p).1 hp).2, by omega⟩

/-! ## The loop of `ComputeLikelihood` -/

theorem foldl_read_some {W : Type} (g : W → Nat → W → W) (r : Nat → Option W) (d : Nat → W)
    (l : List Nat) (z : W) (h : ∀ s ∈ l, r s = some (d s)) :
    l.foldl (fun acc s =>
        match acc, r s with
        | some t, some x => some (g t s x)
        | _, _ => none) (some z)
      = some (l.foldl (fun t s => g t s (d s)) z) := by
  induction l generalizing z with
  | nil => rfl
  | cons a l ih =>
    simp only [List.foldl_cons, h a (List.mem_cons_self _ _)]
    exact ih _ (fun s hs => h s (List.mem_cons_of_mem _ hs))

theorem foldl_read_none {W : Type} (g : W → Nat → W → W) (r : Nat → Option W)
    (l : List Nat) (acc : Option W) (h : acc = none ∨ ∃ s ∈ l, r s = none) :
    l.foldl (fun acc s =>
        match acc, r s with
        | some t, some x => some (g t s x)
        | _, _ => none) acc
      = none := by
  induction l generalizing acc with
  | nil =>
    rcases h with h | ⟨s, hs, _⟩
    · exact h
    · simp at hs
  | cons a l ih =>
    simp only [List.foldl_cons]
    apply ih
    rcases h with h | ⟨s, hs, hr⟩
    · left; rw [h]
    · rcases List.mem_cons.1 hs with rfl | hs
      · left; rw [hr]; cases acc <;> rfl
      · right; exact ⟨s, hs, hr⟩

/-- `ComputeLikelihood` reads past the end of the distance vector, and so has no defined
result, whenever the automaton has a start state and the vector is shorter than the number
of states. -/
theorem ComputeLikelihood_none_of_short {W : Type} (ops : WeightOps W)
    (ShortestDistance : VectorFst W → Option (List W)) (fst : VectorFst W)
    (hs : fst.start ≠ none) (d : List W) (hd : ShortestDistance fst = some d)
    (hshort : d.length < fst.NumStates) :
    ComputeLikelihood ops ShortestDistance fst = none := by
  unfold ComputeLikelihood
  rw [if_neg hs, hd]
  simp only [Option.map_eq_none']
  exact foldl_read_none (fun t s x => ops.Plus t (ops.Times (fst.Final ops.Zero s) x))
    (fun s => d[s]?) _ _
    (Or.inr ⟨d.length, List.mem_range.2 hshort, List.getElem?_eq_none (Nat.le_refl _)⟩)

/-- `ComputeLikelihood` has no result when the automaton has a start state and the
shortest-distance routine does not return. -/
theorem ComputeLikelihood_none_of_none {W : Type} (ops : WeightOps W)
    (ShortestDistance : VectorFst W → Option (List W)) (fst : VectorFst W)
    (hs : fst.start ≠ none) (hd : ShortestDistance fst = none) :
    ComputeLikelihood ops ShortestDistance fst = none := by
  unfold ComputeLikelihood
  rw [if_neg hs, hd]

/-- When `ComputeLikelihood` has a result on an automaton with a start state, the
shortest-distance routine returned a vector with an entry for every state, and the result is
the negated value of the plus-combination of `Times(Final(s), d[s])` over the states. -/
theorem ComputeLikelihood_some {W : Type} (ops : WeightOps W)
    (ShortestDistance : VectorFst W → Option (List W)) (fst : VectorFst W)
    (hs : fst.start ≠ none) (L : Dbl) (hL : ComputeLikelihood ops ShortestDistance fst = some L) :
    ∃ d, ShortestDistance fst = some d ∧ fst.NumStates ≤ d.length := by
  cases hd : ShortestDistance fst with
  | none =>
    rw [ComputeLikelihood_none_of_none ops ShortestDistance fst hs hd] at hL
    cases hL
  | some d =>
    refine ⟨d, rfl, ?_⟩
    by_contra hlt
    rw [ComputeLikelihood_none_of_short ops ShortestDistance fst hs d hd (by omega)] at hL
    cases hL

theorem ComputeLikelihood_of_covered {W : Type} (ops : WeightOps W)
    (ShortestDistance : VectorFst W → Option (List W)) (fst : VectorFst W)
    (hs : fst.start ≠ none) (d : List W) (hd : ShortestDistance fst = some d)
    (dist : Nat → W) (hread : ∀ s ∈ List.range fst.NumStates, d[s]? = some (dist s)) :
    ComputeLikelihood ops ShortestDistance fst
      = some (-(ops.Value ((List.range fst.NumStates).foldl
          (fun t s => ops.Plus t (ops.Times (fst.Final ops.Zero s) (dist s))) ops.Zero))) := by
  unfold ComputeLikelihood
  rw [if_neg hs, hd]
  have := foldl_read_some
    (fun t s x => ops.Plus t (ops.Times (fst.Final ops.Zero s) x))
    (fun s => d[s]?) dist (List.range fst.NumStates) ops.Zero hread
  simp only
  rw [this]
  rfl

theorem likelihood_of_no_start {W : Type} (ops : WeightOps W)
    (ShortestDistance : VectorFst W → Option (List W)) (fst : VectorFst W)
    (h : fst.start = none) :
    ComputeLikelihood ops ShortestDistance fst = some Dbl.ninf := by
  unfold ComputeLikelihood
  rw [if_pos h]
  rfl

theorem dbl_add_assoc (a b c : Dbl) : a + b + c = a + (b + c) := by
  cases a <;> cases b <;> cases c <;> simp [dbl_add_def, Dbl.add]
  exact add_assoc _ _ _

theorem dbl_add_zero (a : Dbl) : a + Dbl.fin 0 = a := by
  cases a <;> simp [dbl_add_def, Dbl.add]

theorem dbl_add_le_add_right {a b : Dbl} (c : Dbl) (hc : c.isCost = true) (h : a ≤ b)
    (ha : a.isCost = true) : a + c ≤ b + c := by
  rw [dbl_add_comm a c, dbl_add_comm b c]
  exact dbl_add_le_add_left c hc h ha

theorem pathCost_append (p q : List (Arc TropicalWeight)) :
    pathCost (p ++ q) = pathCost p + pathCost q := by
  induction p with
  | nil =>
    show pathCost q = Dbl.fin 0 + pathCost q
    rw [dbl_add_comm, dbl_add_zero]
  | cons a p ih =>
    show a.weight.Value + pathCost (p ++ q) = (a.weight.Value + pathCost p) + pathCost q
    rw [ih, dbl_add_assoc]

/-- The distance of a state built from the paths of at most `k` arcs is a lower bound of their
costs, and is `Zero` or the cost of one of them. -/
theorem distanceOf_spec (fst : VectorFst TropicalWeight) (hm : AllMembers fst)
    (s0 k s : Nat) :
    (distanceOf TropicalWeight.ops fst s0 k s).Member = true ∧
    (∀ p, p.length ≤ k → IsPath fst s0 p → pathEnd s0 p = s →
      (distanceOf TropicalWeight.ops fst s0 k s).Value ≤ pathCost p) ∧
    (distanceOf TropicalWeight.ops fst s0 k s = TropicalWeight.Zero ∨
      ∃ p, p.length ≤ k ∧ IsPath fst s0 p ∧ pathEnd s0 p = s ∧
        (distanceOf TropicalWeight.ops fst s0 k s).Value = pathCost p) := by
  have hl : ∀ p ∈ (pathsUpTo fst k s0).filter (fun p => pathEnd s0 p = s),
      (pathWeight TropicalWeight.ops p).Member = true := by
    intro p hp
    rw [List.mem_filter, mem_pathsUpTo] at hp
    exact pathWeight_Member fst hm s0 p hp.1.2
  obtain ⟨h1, _, h3, h4⟩ :=
    foldPlus_spec (pathWeight TropicalWeight.ops) _ TropicalWeight.Zero rfl hl
  refine ⟨h1, ?_, ?_⟩
  · intro p hlen hp he
    have := h3 p (by rw [List.mem_filter, mem_pathsUpTo]; exact ⟨⟨hlen, hp⟩, by simpa using he⟩)
    rwa [pathWeight_Value] at this
  · rcases h4 with h4 | ⟨p, hp, h4⟩
    · exact Or.inl h4
    · rw [List.mem_filter, mem_pathsUpTo] at hp
      refine Or.inr ⟨p, hp.1.1, hp.1.2, by simpa using hp.2, ?_⟩
      rw [← pathWeight_Value]
      exact congrArg TropicalWeight.Value h4

/-- Once the distances no longer change, the distance of a state is a lower bound of the
cost of every path from the start state to it, however long. -/
theorem distanceOf_le_pathCost (fst : VectorFst TropicalWeight) (hm : AllMembers fst)
    (s0 : Nat)
    (hconv : distanceVector TropicalWeight.ops fst s0 fst.NumStates
      = distanceVector TropicalWeight.ops fst s0 (fst.NumStates + 1))
    (p : List (Arc TropicalWeight)) (hp : IsPath fst s0 p) :
    (distanceOf TropicalWeight.ops fst s0 fst.NumStates (pathEnd s0 p)).Value ≤ pathCost p := by
  induction p using List.reverseRecOn with
  | nil =>
    exact (distanceOf_spec fst hm s0 fst.NumStates s0).2.1 [] (Nat.zero_le _) trivial rfl
  | append_singleton q a ih =>
    rw [isPath_append] at hp
    obtain ⟨hq, ha, _⟩ := hp
    have hIH := ih hq
    have haw : a.weight.Value.isCost = true := Arcs_Member fst hm _ a ha
    rw [pathEnd_append, pathCost_append]
    show (distanceOf TropicalWeight.ops fst s0 fst.NumStates a.nextstate).Value
      ≤ pathCost q + (a.weight.Value + Dbl.fin 0)
    rw [dbl_add_zero]
    obtain ⟨hmem, _, hatt⟩ := distanceOf_spec fst hm s0 fst.NumStates (pathEnd s0 q)
    rcases hatt with hz | ⟨r, hrl, hr, hre, hrv⟩
    · rw [hz] at hIH
      rw [dbl_eq_pinf_of_le hIH, dbl_pinf_add haw]
      exact dbl_le_pinf (distanceOf_spec fst hm s0 fst.NumStates a.nextstate).1
    · have hra : IsPath fst s0 (r ++ [a]) := by
        rw [isPath_append, hre]
        exact ⟨hr, ha, trivial⟩
      have h1 := (distanceOf_spec fst hm s0 (fst.NumStates + 1) a.nextstate).2.1 (r ++ [a])
        (by simp only [List.length_append, List.length_singleton]; omega) hra
        (by rw [pathEnd_append]; rfl)
      rw [← distanceOf_converged TropicalWeight.ops fst s0 fst.NumStates hconv, pathCost_append]
        at h1
      have h1' : (distanceOf TropicalWeight.ops fst s0 fst.NumStates a.nextstate).Value
          ≤ pathCost r + a.weight.Value := by
        have : pathCost [a] = a.weight.Value := dbl_add_zero _
        rwa [this] at h1
      rw [hrv] at hIH
      have hrc : (pathCost r).isCost = true := by
        rw [← hrv]; exact hmem
      exact dbl_le_trans h1' (dbl_add_le_add_right _ haw hIH hrc)

/-- When the shortest-distance routine returns a vector with an entry for every state, the
quantity `ComputeLikelihood` negates is a lower bound of the costs of the accepting paths,
and is `+infinity` or the cost of one of them. -/
theorem likelihood_core (fst : VectorFst TropicalWeight) (s0 : Nat)
    (hs : fst.start = some s0) (hm : AllMembers fst) (d : List TropicalWeight)
    (hd : ShortestDistance TropicalWeight.ops fst = some d)
    (hcov : fst.NumStates ≤ d.length) :
    ∃ T : Dbl, T.isCost = true ∧ ComputeLikelihoodStd fst = some (-T) ∧
      (∀ p, Accepting fst p → T ≤ acceptCost fst p) ∧
      (T = Dbl.pinf ∨ ∃ p, Accepting fst p ∧ T = acceptCost fst p) := by
  obtain ⟨hdv, hconv⟩ := ShortestDistance_some TropicalWeight.ops fst s0 d hs hd
  have hne : fst.start ≠ none := by rw [hs]; simp
  let dist : Nat → TropicalWeight := distanceOf TropicalWeight.ops fst s0 fst.NumStates
  let g : Nat → TropicalWeight := fun s =>
    TropicalWeight.Times (fst.Final TropicalWeight.Zero s) (dist s)
  have hread : ∀ s ∈ List.range fst.NumStates, d[s]? = some (dist s) := by
    intro s hsr
    have := List.mem_range.1 hsr
    rw [hdv]
    exact distanceVector_getElem? _ fst s0 _ s (by rw [← hdv]; omega)
  have hgm : ∀ s ∈ List.range fst.NumStates, (g s).Member = true := by
    intro s _
    exact Times_Member (Final_Member fst hm s) (distanceOf_spec fst hm s0 _ s).1
  obtain ⟨t1, _, t3, t4⟩ := foldPlus_spec g (List.range fst.NumStates) TropicalWeight.Zero rfl hgm
  refine ⟨((List.range fst.NumStates).foldl (fun d s => TropicalWeight.Plus d (g s))
    TropicalWeight.Zero).Value, t1, ?_, ?_, ?_⟩
  · exact ComputeLikelihood_of_covered TropicalWeight.ops _ fst hne d hd dist hread
  · rintro p ⟨s, hs', hp, hfin⟩
    rw [hs] at hs'
    cases hs'
    have hlt : pathEnd s0 p < fst.NumStates := by
      by_contra hge
      exact hfin (by rw [Final_Zero_of_ge fst _ (by omega)]; rfl)
    have h1 := t3 _ (List.mem_range.2 hlt)
    have h2 := distanceOf_le_pathCost fst hm s0 hconv p hp
    have h3 := dbl_add_le_add_left (fst.Final TropicalWeight.Zero (pathEnd s0 p)).Value
      (Final_Member fst hm _) h2 (distanceOf_spec fst hm s0 _ _).1
    unfold acceptCost
    rw [hs]
    simp only
    rw [dbl_add_comm (pathCost p)]
    exact dbl_le_trans h1 h3
  · rcases t4 with t4 | ⟨s, hsr, t4⟩
    · left; rw [t4]; rfl
    · rw [t4]
      show (fst.Final TropicalWeight.Zero s).Value + (dist s).Value = Dbl.pinf ∨ _
      rcases (distanceOf_spec fst hm s0 fst.NumStates s).2.2 with hz | ⟨p, _, hp, he, hv⟩
      · left
        show _ + (distanceOf TropicalWeight.ops fst s0 fst.NumStates s).Value = _
        rw [hz]; exact dbl_add_pinf (Final_Member fst hm s)
      · by_cases hF : (fst.Final TropicalWeight.Zero s).Value = Dbl.pinf
        · left; rw [hF]; exact dbl_pinf_add (distanceOf_spec fst hm s0 _ s).1
        · right
          refine ⟨p, ⟨s0, hs, hp, by rw [he]; exact hF⟩, ?_⟩
          unfold acceptCost
          rw [hs]
          simp only
          rw [he, ← hv, dbl_add_comm]
          rfl

/-- A defined result of `ComputeLikelihood` on a tropical automaton with a start state is the
negation of a lower bound of the costs of the accepting paths that is `+infinity` or the
cost of one of them. -/
theorem likelihood_defined (fst : VectorFst TropicalWeight) (s0 : Nat)
    (hs : fst.start = some s0) (hm : AllMembers fst) (L : Dbl)
    (hL : ComputeLikelihoodStd fst = some L) :
    ∃ T : Dbl, T.isCost = true ∧ L = -T ∧
      (∀ p, Accepting fst p → T ≤ acceptCost fst p) ∧
      (T = Dbl.pinf ∨ ∃ p, Accepting fst p ∧ T = acceptCost fst p) := by
  obtain ⟨d, hd, hcov⟩ := ComputeLikelihood_some TropicalWeight.ops _ fst
    (by rw [hs]; simp) L hL
  obtain ⟨T, hT, hL', hlb, hatt⟩ := likelihood_core fst s0 hs hm d hd hcov
  rw [hL'] at hL
  exact ⟨T, hT, (Option.some.inj hL).symm, hlb, hatt⟩

/-- In an acyclic automaton the paths of at most `NumStates` arcs are all the paths: the
shortest-distance routine returns. -/
theorem converged_of_acyclic {W : Type} (ops : WeightOps W) (fst : VectorFst W)
    (hac : Acyclic fst) (s0 : Nat) :
    distanceVector ops fst s0 fst.NumStates
      = distanceVector ops fst s0 (fst.NumStates + 1) := by
  have hnil : pathsFrom fst (fst.NumStates + 1) s0 = [] := by
    rw [List.eq_nil_iff_forall_not_mem]
    intro p hp
    rw [mem_pathsFrom] at hp
    have := length_le_of_acyclic fst hac s0 p hp.2
    omega
  have : pathsUpTo fst (fst.NumStates + 1) s0 = pathsUpTo fst fst.NumStates s0 := by
    unfold pathsUpTo
    rw [List.range_succ, List.flatMap_append]
    simp [hnil]
  unfold distanceVector
  rw [this]

theorem pathEnd_ge_of_topSorted {W : Type} (fst : VectorFst W) (h : TopSorted fst = true)
    (s : Nat) (p : List (Arc W)) (hp : IsPath fst s p) : s ≤ pathEnd s p ∧ (p ≠ [] → s < pathEnd s p) := by
  induction p generalizing s with
  | nil => simp [pathEnd]
  | cons a p ih =>
    have hlt : s < fst.NumStates := by
      by_contra hge
      have := Arcs_nil_of_ge fst s (by omega)
      simp [IsPath, this] at hp
    have h1 : s < a.nextstate := by
      simp only [TopSorted, List.all_eq_true, List.mem_range, decide_eq_true_eq] at h
      exact h s hlt a hp.1
    have h2 := (ih _ hp.2).1
    simp only [pathEnd]
    exact ⟨by omega, fun _ => by omega⟩

/-- An automaton whose arcs all lead to higher-numbered states is acyclic. -/
theorem acyclic_of_topSorted {W : Type} (fst : VectorFst W) (h : TopSorted fst = true) :
    Acyclic fst := by
  intro s p hne hp
  have := (pathEnd_ge_of_topSorted fst h s p hp).2 hne
  omega

/-! ## Claims on the likelihood -/

/-- For a tropical automaton that has a start state, is acyclic and whose highest-numbered
state is entered by a path from the start state, `ComputeLikelihood` returns the negation of
the minimum, over the paths from the start state to a state with a final weight, of the sum
of the arc weights plus that final weight: it is at least the negated cost of every such
path, it is the negated cost of one of them when there is one, and it is `-infinity` when
there is none. -/
theorem ComputeLikelihood_tropical_covered (fst : VectorFst TropicalWeight)
    (hac : Acyclic fst) (hm : AllMembers fst) (htop : TopReached fst) :
    ∃ L, ComputeLikelihoodStd fst = some L ∧
      (∀ p, Accepting fst p → -(acceptCost fst p) ≤ L) ∧
      ((∃ p, Accepting fst p) → ∃ p, Accepting fst p ∧ L = -(acceptCost fst p)) ∧
      ((¬ ∃ p, Accepting fst p) → L = Dbl.ninf) := by
  obtain ⟨s0, _, hs, _, _⟩ := id htop
  have hd : ShortestDistance TropicalWeight.ops fst
      = some (distanceVector TropicalWeight.ops fst s0 fst.NumStates) := by
    unfold ShortestDistance
    rw [hs]
    simp only
    rw [if_pos (converged_of_acyclic TropicalWeight.ops fst hac s0)]
  obtain ⟨T, hT, hL, hlb, hatt⟩ := likelihood_core fst s0 hs hm _ hd
    (covered_of_topReached TropicalWeight.ops fst htop s0 hs)
  refine ⟨-T, hL, ?_, ?_, ?_⟩
  · intro p hp
    exact dbl_neg_le_neg (hlb p hp)
  · rintro ⟨p0, hp0⟩
    rcases hatt with hinf | ⟨p, hp, hTp⟩
    · refine ⟨p0, hp0, ?_⟩
      have := hlb p0 hp0
      rw [hinf] at this
      rw [hinf, dbl_eq_pinf_of_le this]
    · exact ⟨p, hp, by rw [hTp]⟩
  · intro hnone
    rcases hatt with hinf | ⟨p, hp, _⟩
    · rw [hinf]; rfl
    · exact absurd ⟨p, hp⟩ hnone

/-- C1, at an input where the code fails. The automaton `trailingStd` has a start state, is
acyclic, has weights in the tropical semiring and has one accepting path, of cost 5, so the
likelihood the claim gives is -5. Its highest-numbered state is not entered by any path from
the start state: the distance vector has two entries for three states, and
`ComputeLikelihood` reads `state_likelihoods[2]` past its end, with no defined result. -/
theorem ComputeLikelihood_trailing_state :
    trailingStd.start = some 0 ∧ Acyclic trailingStd ∧ AllMembers trailingStd ∧
    Accepting trailingStd [⟨1, 1, ⟨Dbl.fin 5⟩, 1⟩] ∧
    acceptCost trailingStd [⟨1, 1, ⟨Dbl.fin 5⟩, 1⟩] = Dbl.fin 5 ∧
    trailingStd.NumStates = 3 ∧
    (ShortestDistance TropicalWeight.ops trailingStd).map List.length = some 2 ∧
    ComputeLikelihoodStd trailingStd = none :=
  ⟨rfl, acyclic_of_topSorted trailingStd (by decide), by decide, by decide, by decide!,
    by decide, by decide!, by decide!⟩

/-- C2: for an automaton with no start state `ComputeLikelihood` returns `-infinity`,
whatever the weight type and its semiring operations (tropical or log), whatever the states,
arcs and final weights, and whatever the shortest-distance routine would compute: it is not
consulted. -/
theorem ComputeLikelihood_no_start {W : Type} (ops : WeightOps W)
    (ShortestDistance : VectorFst W → Option (List W)) (fst : VectorFst W) (h : fst.start = none) :
    ComputeLikelihood ops ShortestDistance fst = some Dbl.ninf := by
  unfold ComputeLikelihood
  rw [if_pos h]
  rfl

theorem ComputeLikelihood_no_start_witness :
    ComputeLikelihood TropicalWeight.ops (ShortestDistance TropicalWeight.ops) noStartStd
      = some Dbl.ninf :=
  ComputeLikelihood_no_start TropicalWeight.ops (ShortestDistance TropicalWeight.ops)
    noStartStd rfl

/-! ## Claims on the reported score -/

/-- C4, as stated, fails: when the lattice likelihood is `-infinity` the reported score is
`NaN`, which is neither `0` nor `<= 0`, also when the restricted likelihood is `-infinity`
too; and when only the restricted likelihood is `-infinity` the score is `-infinity`. -/
theorem reportedScore_ninf_counterexample :
    reportedScore Dbl.ninf Dbl.ninf = Dbl.nan ∧
    ¬ (reportedScore Dbl.ninf Dbl.ninf ≤ Dbl.fin 0) ∧
    reportedScore Dbl.ninf Dbl.ninf ≠ Dbl.fin 0 ∧
    (reportedScore (Dbl.fin 0) Dbl.ninf).isFinite = false := by
  decide

/-- C4, amended: for a finite lattice likelihood `L` the reported score is `<= 0` for every
restricted likelihood `Q` that is finite or `-infinity`; it is finite when `Q` is finite and
`-infinity` when `Q` is `-infinity`. When `L` is `-infinity` the reported score is `NaN`,
whether `Q` is finite or `-infinity`. -/
theorem reportedScore_bounds (l q : ℚ) :
    reportedScore (Dbl.fin l) (Dbl.fin q) ≤ Dbl.fin 0 ∧
    (reportedScore (Dbl.fin l) (Dbl.fin q)).isFinite = true ∧
    reportedScore (Dbl.fin l) Dbl.ninf = Dbl.ninf ∧
    reportedScore (Dbl.fin l) Dbl.ninf ≤ Dbl.fin 0 ∧
    reportedScore Dbl.ninf (Dbl.fin q) = Dbl.nan ∧
    reportedScore Dbl.ninf Dbl.ninf = Dbl.nan := by
  refine ⟨?_, ?_, rfl, rfl, rfl, rfl⟩
  · unfold reportedScore
    by_cases h : l < q
    · simp [GT.gt, dbl_lt_def, Dbl.lt, h, dbl_sub_def, Dbl.neg, Dbl.add, dbl_le_def, Dbl.le]
    · simp [GT.gt, dbl_lt_def, Dbl.lt, h, dbl_sub_def, Dbl.neg, Dbl.add, dbl_le_def, Dbl.le]
      linarith
  · unfold reportedScore
    by_cases h : l < q <;>
      simp [GT.gt, dbl_lt_def, Dbl.lt, h, dbl_sub_def, Dbl.neg, Dbl.add, Dbl.isFinite]

/-- C5, as stated, fails: with the lattice likelihood `-infinity` and the restricted
likelihood `0`, the restricted likelihood is greater and is replaced, yet the reported
score is `NaN`, not `0`. -/
theorem reportedScore_clamp_counterexample :
    Dbl.fin 0 > Dbl.ninf ∧ reportedScore Dbl.ninf (Dbl.fin 0) = Dbl.nan ∧
    reportedScore Dbl.ninf (Dbl.fin 0) ≠ Dbl.fin 0 := by
  decide

/-- C5, amended: the reported score is `min(Q, L) - L`; when `Q > L` the restricted
likelihood is replaced by `L`, and the score is exactly `0` if `L` is finite; when `Q <= L`
the score is `Q - L`. -/
theorem reportedScore_clamp (L Q : Dbl) :
    reportedScore L Q = Dbl.min Q L - L ∧
    (Q > L → reportedScore L Q = L - L) ∧
    (Q > L → L.isFinite = true → reportedScore L Q = Dbl.fin 0) ∧
    (Q ≤ L → reportedScore L Q = Q - L) := by
  refine ⟨rfl, ?_, ?_, ?_⟩
  · intro h
    simp [reportedScore, h]
  · intro h hf
    cases L <;> simp_all [reportedScore, Dbl.isFinite, dbl_sub_def, Dbl.neg, Dbl.add]
  · intro h
    have hn : ¬ Q > L := by
      cases L <;> cases Q <;> simp_all [GT.gt, dbl_le_def, dbl_lt_def, Dbl.le, Dbl.lt]
    simp [reportedScore, hn]

theorem reportedScore_clamp_witness :
    reportedScore (Dbl.fin (-2)) (Dbl.fin (-1)) = Dbl.fin 0 ∧
    reportedScore (Dbl.fin (-1)) (Dbl.fin (-2)) = Dbl.fin (-2) - Dbl.fin (-1) :=
  ⟨(reportedScore_clamp (Dbl.fin (-2)) (Dbl.fin (-1))).2.2.1 (by decide) rfl,
   (reportedScore_clamp (Dbl.fin (-1)) (Dbl.fin (-2))).2.2.2 (by decide)⟩

/-! ## Claims on the driver -/

theorem latticeStdFst_defaults (PruneLattice : Dbl → CompactLattice → CompactLattice)
    (lat : CompactLattice) :
    latticeStdFst PruneLattice tropicalDefaults lat = ArcSortOLabel (ConvertLattice lat) := by
  simp [latticeStdFst, latticeBeforePrune, tropicalDefaults, Dbl.ne]

/-- C10: in the tropical semiring with the default options (scales 1, penalty 0, beam
`+infinity`), the lattice with the two accepting paths A (cost 1.0, "cat") and B (cost 2.0,
"dog") has likelihood -1.0; with the query accepting "cat" the restricted likelihood is -1.0
and the reported score 0.0; with the query accepting "dog" the restricted likelihood is -2.0
and the reported score -1.0. -/
theorem end_to_end_cat_dog (PruneLattice : Dbl → CompactLattice → CompactLattice) :
    latticeStdFst PruneLattice tropicalDefaults catDogLattice = twoPathStd ∧
    ComputeLikelihoodStd (latticeStdFst PruneLattice tropicalDefaults catDogLattice)
      = some (Dbl.fin (-1)) ∧
    ComputeLikelihoodStd
      (TableCompose TropicalWeight.ops
        (latticeStdFst PruneLattice tropicalDefaults catDogLattice) (wordQuery 1))
      = some (Dbl.fin (-1)) ∧
    queryScoreStd PruneLattice tropicalDefaults catDogLattice (wordQuery 1)
      = some (Dbl.fin 0) ∧
    ComputeLikelihoodStd
      (TableCompose TropicalWeight.ops
        (latticeStdFst PruneLattice tropicalDefaults catDogLattice) (wordQuery 2))
      = some (Dbl.fin (-2)) ∧
    queryScoreStd PruneLattice tropicalDefaults catDogLattice (wordQuery 2)
      = some (Dbl.fin (-1)) := by
  unfold queryScoreStd
  rw [latticeStdFst_defaults]
  decide!

theorem dbl_one_mul (a : Dbl) : Dbl.fin 1 * a = a := by
  cases a <;> simp [dbl_mul_def, Dbl.mul]

theorem dbl_eq_of_ne_false {a b : Dbl} (h : Dbl.ne a b = false) : a = b := by
  cases a <;> cases b <;> simp_all [Dbl.ne]

theorem ScaleLattice_Arcs (gs as : Dbl) (lat : CompactLattice) (s : Nat) :
    (ScaleLattice [[gs, Dbl.fin 0], [Dbl.fin 0, as]] lat).Arcs s
      = (lat.Arcs s).map fun a =>
          { a with weight := { a.weight with
              Weight := ⟨gs * a.weight.Weight.Value1, as * a.weight.Weight.Value2⟩ } } := by
  simp only [ScaleLattice, VectorFst.Arcs, List.getElem?_map, List.getD_cons_zero,
    List.getD_cons_succ]
  cases lat.states[s]? <;> rfl

/-- C8: `main` transforms the lattice in the order rescale, insertion penalty, prune,
convert: pruning, when the beam is not `+infinity`, is applied to the lattice in which an arc
of original costs `(g, a)` has graph cost `graph_scale * g + insertion_penalty` when its
output label is not 0 and `graph_scale * g` when it is 0, and acoustic cost
`acoustic_scale * a`; the result of pruning is what is converted. -/
theorem latticeStdFst_order (PruneLattice : Dbl → CompactLattice → CompactLattice)
    (opts : Options) (lat : CompactLattice) :
    latticeStdFst PruneLattice opts lat
      = ArcSortOLabel (ConvertLattice
          (if Dbl.ne opts.beam Dbl.pinf then PruneLattice opts.beam (latticeBeforePrune opts lat)
           else latticeBeforePrune opts lat)) ∧
    ∀ s,
      ((latticeBeforePrune opts lat).Arcs s).map (fun a => a.weight.Weight.Value1)
        = (lat.Arcs s).map (fun a =>
            if a.olabel ≠ 0 then opts.graph_scale * a.weight.Weight.Value1 + opts.insertion_penalty
            else opts.graph_scale * a.weight.Weight.Value1) ∧
      ((latticeBeforePrune opts lat).Arcs s).map (fun a => a.weight.Weight.Value2)
        = (lat.Arcs s).map (fun a => opts.acoustic_scale * a.weight.Weight.Value2) ∧
      ((latticeBeforePrune opts lat).Arcs s).map (fun a => (a.ilabel, a.olabel, a.nextstate))
        = (lat.Arcs s).map (fun a => (a.ilabel, a.olabel, a.nextstate)) := by
  refine ⟨rfl, fun s => ?_⟩
  -- the rescaling step, whether or not it runs
  have hscale : ∀ s,
      ((if Dbl.ne opts.acoustic_scale (Dbl.fin 1) || Dbl.ne opts.graph_scale (Dbl.fin 1) then
          ScaleLattice [[opts.graph_scale, Dbl.fin 0], [Dbl.fin 0, opts.acoustic_scale]] lat
        else lat).Arcs s)
      = (lat.Arcs s).map fun a =>
          { a with weight := { a.weight with
              Weight := ⟨opts.graph_scale * a.weight.Weight.Value1,
                opts.acoustic_scale * a.weight.Weight.Value2⟩ } } := by
    intro s
    split
    · exact ScaleLattice_Arcs _ _ lat s
    · rename_i h
      simp only [Bool.or_eq_true, not_or, Bool.not_eq_true] at h
      rw [dbl_eq_of_ne_false h.1, dbl_eq_of_ne_false h.2]
      simp [dbl_one_mul]
  unfold latticeBeforePrune
  simp only
  split
  · rw [AddInsPenToCompactLattice_eq_mapArcs]
    simp only [mapArcs_Arcs, hscale, List.map_map]
    refine ⟨?_, ?_, ?_⟩ <;>
      (apply List.map_congr_left; intro a _; simp only [Function.comp]; split <;> simp_all)
  · rename_i h
    simp only [Bool.not_eq_true] at h
    rw [dbl_eq_of_ne_false h]
    simp only [hscale, List.map_map]
    refine ⟨?_, ?_, ?_⟩ <;>
      (apply List.map_congr_left; intro a _; simp [Function.comp, dbl_add_zero])


/-! ## Automata with a single accepting path -/

/-- A defined likelihood of a tropical automaton with exactly one accepting path is the
negated cost of that path. -/
theorem likelihood_of_unique (fst : VectorFst TropicalWeight) (hm : AllMembers fst)
    (π : List (Arc TropicalWeight)) (hacc : Accepting fst π)
    (huniq : ∀ q, Accepting fst q → q = π) (L : Dbl) (hL : ComputeLikelihoodStd fst = some L) :
    L = -(acceptCost fst π) := by
  obtain ⟨s0, hs, _, _⟩ := id hacc
  obtain ⟨T, _, hLT, hlb, hatt⟩ := likelihood_defined fst s0 hs hm L hL
  have hle := hlb π hacc
  rcases hatt with hinf | ⟨q, hq, hTq⟩
  · rw [hinf] at hle
    rw [hLT, hinf, dbl_eq_pinf_of_le hle]
  · rw [hLT, hTq, huniq q hq]

theorem dbl_add_right_comm (g a : Dbl) (p : ℚ) :
    g + Dbl.fin p + a = g + a + Dbl.fin p := by
  cases g <;> cases a <;> simp [dbl_add_def, Dbl.add]
  exact add_right_comm _ _ _

theorem dbl_add_assoc_fin (a b : Dbl) (p : ℚ) :
    a + (b + Dbl.fin p) = a + b + Dbl.fin p := by
  cases a <;> cases b <;> simp [dbl_add_def, Dbl.add]
  exact (add_assoc _ _ _).symm

theorem dbl_add_fin_fin (a : Dbl) (p q : ℚ) :
    a + Dbl.fin p + Dbl.fin q = a + Dbl.fin (p + q) := by
  cases a <;> simp [dbl_add_def, Dbl.add]
  exact add_assoc _ _ _

theorem dbl_neg_add_fin (a : Dbl) (p : ℚ) : -(a + Dbl.fin p) = -a - Dbl.fin p := by
  cases a <;> simp [dbl_add_def, dbl_neg_def, dbl_sub_def, Dbl.add, Dbl.neg]
  ring

theorem ConvertLattice_AddInsPen (p : ℚ) (lat : CompactLattice) :
    ConvertLattice (AddInsPenToCompactLattice (Dbl.fin p) lat)
      = (ConvertLattice lat).mapArcs (penalizeStd p) := by
  rw [AddInsPenToCompactLattice_eq_mapArcs]
  simp only [ConvertLattice, VectorFst.mapArcs, List.map_map]
  congr 1
  apply List.map_congr_left
  intro st _
  simp only [Function.comp, List.map_map]
  congr 1
  apply List.map_congr_left
  intro a _
  simp only [Function.comp, penalizeStd]
  split
  · simp only [ConvertLatticeWeightStd, dbl_add_right_comm]
  · rfl

theorem penalizeStd_nextstate (p : ℚ) (a : Arc TropicalWeight) :
    (penalizeStd p a).nextstate = a.nextstate := by
  unfold penalizeStd; split <;> rfl

theorem mapArcs_Final {W : Type} (g : Arc W → Arc W) (z : W) (fst : VectorFst W) (s : Nat) :
    (fst.mapArcs g).Final z s = fst.Final z s := by
  simp only [VectorFst.mapArcs, VectorFst.Final, List.getElem?_map]
  cases fst.states[s]? <;> rfl

theorem pathEnd_map {W : Type} (g : Arc W → Arc W) (hn : ∀ a, (g a).nextstate = a.nextstate)
    (s : Nat) (q : List (Arc W)) : pathEnd s (q.map g) = pathEnd s q := by
  induction q generalizing s with
  | nil => rfl
  | cons a q ih => simp [pathEnd, hn, ih]

theorem isPath_mapArcs {W : Type} (g : Arc W → Arc W)
    (hn : ∀ a, (g a).nextstate = a.nextstate) (fst : VectorFst W) (s : Nat)
    (q' : List (Arc W)) :
    IsPath (fst.mapArcs g) s q' ↔ ∃ q, IsPath fst s q ∧ q' = q.map g := by
  induction q' generalizing s with
  | nil =>
    constructor
    · intro _; exact ⟨[], trivial, rfl⟩
    · intro _; trivial
  | cons a' q' ih =>
    simp only [IsPath, mapArcs_Arcs, List.mem_map]
    constructor
    · rintro ⟨⟨a, ha, rfl⟩, hq'⟩
      obtain ⟨q, hq, rfl⟩ := (ih _).1 hq'
      rw [hn] at hq
      exact ⟨a :: q, ⟨ha, hq⟩, rfl⟩
    · rintro ⟨q, hq, he⟩
      cases q with
      | nil => simp at he
      | cons a q =>
        simp only [List.map_cons, List.cons.injEq] at he
        obtain ⟨rfl, rfl⟩ := he
        exact ⟨⟨a, hq.1, rfl⟩, (ih _).2 ⟨q, by rw [hn]; exact hq.2, rfl⟩⟩

theorem accepting_mapArcs (g : Arc TropicalWeight → Arc TropicalWeight)
    (hn : ∀ a, (g a).nextstate = a.nextstate) (fst : VectorFst TropicalWeight)
    (q' : List (Arc TropicalWeight)) :
    Accepting (fst.mapArcs g) q' ↔ ∃ q, Accepting fst q ∧ q' = q.map g := by
  constructor
  · rintro ⟨s0, hs, hp, hfin⟩
    obtain ⟨q, hq, rfl⟩ := (isPath_mapArcs g hn fst s0 _).1 hp
    rw [pathEnd_map g hn, mapArcs_Final] at hfin
    exact ⟨q, ⟨s0, hs, hq, hfin⟩, rfl⟩
  · rintro ⟨q, ⟨s0, hs, hq, hfin⟩, rfl⟩
    refine ⟨s0, hs, (isPath_mapArcs g hn fst s0 _).2 ⟨q, hq, rfl⟩, ?_⟩
    rw [pathEnd_map g hn, mapArcs_Final]
    exact hfin

theorem pathCost_penalize (p : ℚ) (q : List (Arc TropicalWeight)) :
    pathCost (q.map (penalizeStd p)) = pathCost q + Dbl.fin (nonEpsilonCount q * p) := by
  induction q with
  | nil => simp [pathCost, nonEpsilonCount, dbl_add_def, Dbl.add]
  | cons a q ih =>
    simp only [List.map_cons, pathCost, ih, nonEpsilonCount, List.countP_cons]
    unfold penalizeStd
    by_cases h : a.olabel ≠ 0
    · rw [if_pos h, if_pos (by simpa using h)]
      simp only [dbl_add_assoc_fin]
      rw [dbl_add_right_comm, dbl_add_fin_fin]
      congr 2
      push_cast
      ring
    · rw [if_neg h, if_neg (by simpa using h)]
      simp only [dbl_add_assoc_fin, Nat.add_zero]

theorem acceptCost_penalize (p : ℚ) (fst : VectorFst TropicalWeight)
    (q : List (Arc TropicalWeight)) :
    acceptCost (fst.mapArcs (penalizeStd p)) (q.map (penalizeStd p))
      = acceptCost fst q + Dbl.fin (nonEpsilonCount q * p) := by
  unfold acceptCost
  have hst : (fst.mapArcs (penalizeStd p)).start = fst.start := rfl
  rw [hst]
  cases fst.start with
  | none => rfl
  | some s0 =>
    simp only [pathEnd_map _ (penalizeStd_nextstate p), mapArcs_Final, pathCost_penalize]
    rw [dbl_add_right_comm]

theorem allMembers_penalize (p : ℚ) (fst : VectorFst TropicalWeight) (hm : AllMembers fst) :
    AllMembers (fst.mapArcs (penalizeStd p)) := by
  intro st hst
  simp only [VectorFst.mapArcs, List.mem_map] at hst
  obtain ⟨st0, hst0, rfl⟩ := hst
  refine ⟨(hm st0 hst0).1, ?_⟩
  intro a ha
  simp only [List.mem_map] at ha
  obtain ⟨a0, ha0, rfl⟩ := ha
  have := (hm st0 hst0).2 a0 ha0
  unfold penalizeStd
  split
  · exact dbl_add_isCost this rfl
  · exact this

/-- In an automaton whose arcs lead to higher-numbered states, a property of all accepting
paths can be checked on the paths of at most `NumStates` arcs. -/
theorem unique_of_topSorted (fst : VectorFst TropicalWeight) (π : List (Arc TropicalWeight))
    (s0 : Nat) (hs : fst.start = some s0) (ht : TopSorted fst = true)
    (h : ∀ q ∈ pathsUpTo fst fst.NumStates s0,
      (fst.Final TropicalWeight.Zero (pathEnd s0 q)).Value ≠ Dbl.pinf → q = π) :
    ∀ q, Accepting fst q → q = π := by
  rintro q ⟨s, hs', hp, hfin⟩
  rw [hs] at hs'
  cases hs'
  exact h q ((mem_pathsUpTo fst _ _ q).2
    ⟨length_le_of_acyclic fst (acyclic_of_topSorted fst ht) s0 q hp, hp⟩) hfin

theorem topReached_mapArcs {W : Type} (g : Arc W → Arc W)
    (hn : ∀ a, (g a).nextstate = a.nextstate) (fst : VectorFst W) (h : TopReached fst) :
    TopReached (fst.mapArcs g) := by
  obtain ⟨s0, p, hs, hp, hle⟩ := h
  refine ⟨s0, p.map g, hs, (isPath_mapArcs g hn fst s0 _).2 ⟨p, hp, rfl⟩, ?_⟩
  rw [pathEnd_map g hn]
  simpa [VectorFst.NumStates, VectorFst.mapArcs] using hle

theorem acyclic_mapArcs {W : Type} (g : Arc W → Arc W)
    (hn : ∀ a, (g a).nextstate = a.nextstate) (fst : VectorFst W) (h : Acyclic fst) :
    Acyclic (fst.mapArcs g) := by
  intro s p hne hp
  obtain ⟨q, hq, rfl⟩ := (isPath_mapArcs g hn fst s p).1 hp
  rw [pathEnd_map g hn]
  exact h s q (by rintro rfl; exact hne rfl) hq

/-- C7, as stated, fails. With the single-precision sum of the source, the penalty 1 added to
the graph cost `2 ^ 25` of the only arc of `heavyLattice` (output label 1, so `k = 1`) is
rounded away: the lattice, the cost of its accepting path and the likelihood of the
converted automaton are unchanged, where the claim gives a change of `k * p = 1`; every other
sum on this input is exact in single precision. And under exact arithmetic, with the penalty
`+infinity` and the lattice `epsLattice`, whose accepting path has no arc with a non-epsilon
output label (`k = 0`), the cost is unchanged while `k * p` is `0 * infinity`, not a
number. -/
theorem AddInsPen_single_path_counterexample :
    nonEpsilonCount heavyPath = 1 ∧
    Accepting (ConvertLattice heavyLattice) heavyPath ∧
    (∀ q ∈ pathsUpTo (ConvertLattice heavyLattice) 2 0,
      ((ConvertLattice heavyLattice).Final TropicalWeight.Zero (pathEnd 0 q)).Value ≠ Dbl.pinf
        → q = heavyPath) ∧
    AddInsPenToCompactLatticeFloat (Dbl.fin 1) heavyLattice = heavyLattice ∧
    acceptCost (ConvertLattice (AddInsPenToCompactLatticeFloat (Dbl.fin 1) heavyLattice))
        heavyPath
      = acceptCost (ConvertLattice heavyLattice) heavyPath ∧
    acceptCost (ConvertLattice (AddInsPenToCompactLatticeFloat (Dbl.fin 1) heavyLattice))
        heavyPath
      ≠ acceptCost (ConvertLattice heavyLattice) heavyPath
          + Dbl.fin (nonEpsilonCount heavyPath) * Dbl.fin 1 ∧
    ComputeLikelihoodStd
        (ConvertLattice (AddInsPenToCompactLatticeFloat (Dbl.fin 1) heavyLattice))
      = ComputeLikelihoodStd (ConvertLattice heavyLattice) ∧
    ComputeLikelihoodStd (ConvertLattice heavyLattice) = some (Dbl.fin (-33554432)) ∧
    nonEpsilonCount epsPath = 0 ∧
    Accepting (ConvertLattice epsLattice) epsPath ∧
    AddInsPenToCompactLattice Dbl.pinf epsLattice = epsLattice ∧
    Dbl.fin (nonEpsilonCount epsPath) * Dbl.pinf = Dbl.nan ∧
    acceptCost (ConvertLattice (AddInsPenToCompactLattice Dbl.pinf epsLattice)) epsPath
      ≠ acceptCost (ConvertLattice epsLattice) epsPath
          + Dbl.fin (nonEpsilonCount epsPath) * Dbl.pinf := by
  decide!

/-- C7, amended: when no sum `weight.Value1() + penalty` is rounded, the single-precision loop
of the source computes the exact sums. With exact sums and a finite penalty `p`, for a
lattice whose converted automaton has exactly one accepting path `π`, with `k` arcs of
non-epsilon output label, after `AddInsPenToLattice(p, lat)` the converted automaton has
exactly one accepting path again, the same arcs with new weights, and its tropical cost is
the cost of `π` plus `k * p`; `ComputeLikelihood` of the converted automaton, when it is
defined before and after the penalty, is lower by exactly `k * p`, and for an acyclic lattice
it is defined after the penalty whenever it is defined before. -/
theorem AddInsPen_single_path (lat : CompactLattice) (p : ℚ) (π : List (Arc TropicalWeight))
    (hm : AllMembers (ConvertLattice lat)) (hacc : Accepting (ConvertLattice lat) π)
    (huniq : ∀ q, Accepting (ConvertLattice lat) q → q = π) :
    (PenaltyExact (Dbl.fin p) lat →
      AddInsPenToCompactLatticeFloat (Dbl.fin p) lat
        = AddInsPenToCompactLattice (Dbl.fin p) lat) ∧
    ∃ π', Accepting (ConvertLattice (AddInsPenToCompactLattice (Dbl.fin p) lat)) π' ∧
      (∀ q, Accepting (ConvertLattice (AddInsPenToCompactLattice (Dbl.fin p) lat)) q → q = π') ∧
      π'.map (fun a => (a.ilabel, a.olabel, a.nextstate))
        = π.map (fun a => (a.ilabel, a.olabel, a.nextstate)) ∧
      acceptCost (ConvertLattice (AddInsPenToCompactLattice (Dbl.fin p) lat)) π'
        = acceptCost (ConvertLattice lat) π + Dbl.fin (nonEpsilonCount π * p) ∧
      (∀ L L', ComputeLikelihoodStd (ConvertLattice lat) = some L →
        ComputeLikelihoodStd (ConvertLattice (AddInsPenToCompactLattice (Dbl.fin p) lat))
          = some L' →
        L' = L - Dbl.fin (nonEpsilonCount π * p)) ∧
      (Acyclic (ConvertLattice lat) →
        ∀ L, ComputeLikelihoodStd (ConvertLattice lat) = some L →
          ComputeLikelihoodStd (ConvertLattice (AddInsPenToCompactLattice (Dbl.fin p) lat))
            = some (L - Dbl.fin (nonEpsilonCount π * p))) := by
  refine ⟨AddInsPenFloat_eq_of_exact (Dbl.fin p) lat, ?_⟩
  rw [ConvertLattice_AddInsPen]
  have hn := penalizeStd_nextstate p
  have hacc' : Accepting ((ConvertLattice lat).mapArcs (penalizeStd p))
      (π.map (penalizeStd p)) :=
    (accepting_mapArcs _ hn _ _).2 ⟨π, hacc, rfl⟩
  have huniq' : ∀ q, Accepting ((ConvertLattice lat).mapArcs (penalizeStd p)) q →
      q = π.map (penalizeStd p) := by
    intro q hq
    obtain ⟨q0, hq0, rfl⟩ := (accepting_mapArcs _ hn _ _).1 hq
    rw [huniq q0 hq0]
  have hboth : ∀ L L', ComputeLikelihoodStd (ConvertLattice lat) = some L →
      ComputeLikelihoodStd ((ConvertLattice lat).mapArcs (penalizeStd p)) = some L' →
      L' = L - Dbl.fin (nonEpsilonCount π * p) := by
    intro L L' hL hL'
    rw [likelihood_of_unique _ hm π hacc huniq L hL,
      likelihood_of_unique _ (allMembers_penalize p _ hm) _ hacc' huniq' L' hL',
      acceptCost_penalize, dbl_neg_add_fin]
  refine ⟨π.map (penalizeStd p), hacc', huniq', ?_, acceptCost_penalize p _ π, hboth, ?_⟩
  · rw [List.map_map]
    apply List.map_congr_left
    intro a _
    simp only [Function.comp, penalizeStd]
    split <;> rfl
  · intro hac L hL
    obtain ⟨s0, hs0, _, _⟩ := id hacc
    obtain ⟨d, hd, hcov⟩ := ComputeLikelihood_some TropicalWeight.ops _ _
      (by rw [hs0]; simp) L hL
    rw [(ShortestDistance_some TropicalWeight.ops _ s0 d hs0 hd).1] at hcov
    obtain ⟨L', hL', _⟩ := ComputeLikelihood_tropical_covered _
      (acyclic_mapArcs (penalizeStd p) hn _ hac) (allMembers_penalize p _ hm)
      (topReached_mapArcs (penalizeStd p) hn _
        (topReached_of_covered TropicalWeight.ops _ s0 hs0 hcov))
    rw [hL', hboth L L' hL hL']

theorem AddInsPen_single_path_witness :
    ComputeLikelihoodStd (ConvertLattice epsCatLattice) = some (Dbl.fin (-2)) ∧
    nonEpsilonCount epsCatPath = 1 ∧
    Acyclic (ConvertLattice epsCatLattice) ∧
    PenaltyExact (Dbl.fin 3) epsCatLattice ∧
    (PenaltyExact (Dbl.fin 3) epsCatLattice →
      AddInsPenToCompactLatticeFloat (Dbl.fin 3) epsCatLattice
        = AddInsPenToCompactLattice (Dbl.fin 3) epsCatLattice) ∧
    ∃ π', Accepting (ConvertLattice (AddInsPenToCompactLattice (Dbl.fin 3) epsCatLattice)) π' ∧
      (∀ q, Accepting (ConvertLattice (AddInsPenToCompactLattice (Dbl.fin 3) epsCatLattice)) q
        → q = π') ∧
      π'.map (fun a => (a.ilabel, a.olabel, a.nextstate))
        = epsCatPath.map (fun a => (a.ilabel, a.olabel, a.nextstate)) ∧
      acceptCost (ConvertLattice (AddInsPenToCompactLattice (Dbl.fin 3) epsCatLattice)) π'
        = acceptCost (ConvertLattice epsCatLattice) epsCatPath
          + Dbl.fin (nonEpsilonCount epsCatPath * 3) ∧
      (∀ L L', ComputeLikelihoodStd (ConvertLattice epsCatLattice) = some L →
        ComputeLikelihoodStd
            (ConvertLattice (AddInsPenToCompactLattice (Dbl.fin 3) epsCatLattice))
          = some L' →
        L' = L - Dbl.fin (nonEpsilonCount epsCatPath * 3)) ∧
      (Acyclic (ConvertLattice epsCatLattice) →
        ∀ L, ComputeLikelihoodStd (ConvertLattice epsCatLattice) = some L →
          ComputeLikelihoodStd
              (ConvertLattice (AddInsPenToCompactLattice (Dbl.fin 3) epsCatLattice))
            = some (L - Dbl.fin (nonEpsilonCount epsCatPath * 3))) :=
  ⟨by decide!, by decide, acyclic_of_topSorted _ (by decide!), by decide!,
    AddInsPen_single_path epsCatLattice 3 epsCatPath (by decide!) (by decide!)
      (unique_of_topSorted _ _ 0 rfl (by decide!) (by decide!))⟩

/-! ## Composition -/

theorem dbl_add_add_add_comm (a b c d : Dbl) : a + b + (c + d) = a + c + (b + d) := by
  rw [dbl_add_assoc, dbl_add_assoc, ← dbl_add_assoc b c d, dbl_add_comm b c, dbl_add_assoc]

theorem dbl_isCost_of_nonneg {a : Dbl} (h : Dbl.fin 0 ≤ a) : a.isCost = true := by
  cases a <;> simp_all [dbl_le_def, Dbl.le, Dbl.isCost]

theorem dbl_add_nonneg {a b : Dbl} (ha : Dbl.fin 0 ≤ a) (hb : Dbl.fin 0 ≤ b) :
    Dbl.fin 0 ≤ a + b := by
  cases a <;> cases b <;> simp_all [dbl_le_def, dbl_add_def, Dbl.le, Dbl.add]
  exact add_nonneg ha hb

theorem dbl_le_add_of_nonneg {a b : Dbl} (ha : a.isCost = true) (hb : Dbl.fin 0 ≤ b) :
    a ≤ a + b := by
  cases a <;> cases b <;> simp_all [dbl_le_def, dbl_add_def, Dbl.le, Dbl.add, Dbl.isCost]

theorem dbl_ninf_le_neg {a : Dbl} (ha : a.isCost = true) : Dbl.ninf ≤ -a := by
  cases a <;> simp_all [dbl_le_def, dbl_neg_def, Dbl.le, Dbl.neg, Dbl.isCost]

theorem allMembers_of_nonNegative (fst : VectorFst TropicalWeight) (h : NonNegative fst) :
    AllMembers fst :=
  fun st hst => ⟨dbl_isCost_of_nonneg (h st hst).1,
    fun a ha => dbl_isCost_of_nonneg ((h st hst).2 a ha)⟩

theorem pair_index (n1 n2 s1 s2 : Nat) (h1 : s1 < n1) (h2 : s2 < n2) :
    s1 * n2 + s2 < n1 * n2 ∧ (s1 * n2 + s2) / n2 = s1 ∧ (s1 * n2 + s2) % n2 = s2 := by
  refine ⟨?_, ?_, ?_⟩
  · calc s1 * n2 + s2 < s1 * n2 + n2 := by omega
      _ = (s1 + 1) * n2 := by ring
      _ ≤ n1 * n2 := Nat.mul_le_mul_right _ h1
  · rw [Nat.add_comm, Nat.add_mul_div_right _ _ (by omega), Nat.div_eq_of_lt h2, Nat.zero_add]
  · rw [Nat.add_comm, Nat.add_mul_mod_self_right, Nat.mod_eq_of_lt h2]

theorem composeProduct_state {W : Type} (ops : WeightOps W) (fst1 fst2 : VectorFst W) (s1 s2 : Nat)
    (h1 : s1 < fst1.NumStates) (h2 : s2 < fst2.NumStates) :
    (composeProduct ops fst1 fst2).states[s1 * fst2.NumStates + s2]?
      = some ⟨ops.Times (fst1.Final ops.Zero s1)
          (fst2.Final ops.Zero s2), composeArcs ops fst1 fst2 s1 s2⟩ := by
  obtain ⟨hlt, hd, hmod⟩ := pair_index _ _ s1 s2 h1 h2
  simp only [composeProduct, List.getElem?_map, List.getElem?_range hlt, Option.map_some', hd, hmod]

theorem composeProduct_Arcs {W : Type} (ops : WeightOps W) (fst1 fst2 : VectorFst W) (s1 s2 : Nat)
    (h1 : s1 < fst1.NumStates) (h2 : s2 < fst2.NumStates) :
    (composeProduct ops fst1 fst2).Arcs (s1 * fst2.NumStates + s2) = composeArcs ops fst1 fst2 s1 s2 := by
  unfold VectorFst.Arcs
  rw [composeProduct_state ops fst1 fst2 s1 s2 h1 h2]

theorem composeProduct_Final {W : Type} (ops : WeightOps W) (fst1 fst2 : VectorFst W) (s1 s2 : Nat)
    (h1 : s1 < fst1.NumStates) (h2 : s2 < fst2.NumStates) :
    (composeProduct ops fst1 fst2).Final ops.Zero (s1 * fst2.NumStates + s2)
      = ops.Times (fst1.Final ops.Zero s1)
          (fst2.Final ops.Zero s2) := by
  unfold VectorFst.Final
  rw [composeProduct_state ops fst1 fst2 s1 s2 h1 h2]
  rfl

/-- Every arc of the composition comes from an arc of the first automaton, an arc of the
second, or one of each. -/
theorem mem_composeArcs {W : Type} (ops : WeightOps W) (fst1 fst2 : VectorFst W) (s1 s2 : Nat)
    (a : Arc W) (ha : a ∈ composeArcs ops fst1 fst2 s1 s2) :
    (∃ a1 ∈ fst1.Arcs s1, a1.nextstate < fst1.NumStates ∧ a.weight = a1.weight ∧
      a.nextstate = a1.nextstate * fst2.NumStates + s2) ∨
    (∃ a2 ∈ fst2.Arcs s2, a2.nextstate < fst2.NumStates ∧ a.weight = a2.weight ∧
      a.nextstate = s1 * fst2.NumStates + a2.nextstate ∧ a2.ilabel = 0) ∨
    (∃ a1 ∈ fst1.Arcs s1, ∃ a2 ∈ fst2.Arcs s2, a1.nextstate < fst1.NumStates ∧
      a2.nextstate < fst2.NumStates ∧ a.weight = ops.Times a1.weight a2.weight ∧
      a.nextstate = a1.nextstate * fst2.NumStates + a2.nextstate) := by
  unfold composeArcs at ha
  simp only [List.mem_append, List.mem_flatMap, List.mem_map, List.mem_filter] at ha
  rcases ha with ⟨a1, ha1, h⟩ | ⟨a2, ⟨ha2, hc⟩, rfl⟩
  · split at h
    · rename_i hn1
      split at h
      · simp only [List.mem_singleton] at h
        subst h
        exact Or.inl ⟨a1, ha1, hn1, rfl, rfl⟩
      · simp only [List.mem_map, List.mem_filter] at h
        obtain ⟨a2, ⟨ha2, hc⟩, rfl⟩ := h
        simp only [Bool.decide_and, Bool.and_eq_true, decide_eq_true_eq] at hc
        exact Or.inr (Or.inr ⟨a1, ha1, a2, ha2, hn1, hc.2, rfl, rfl⟩)
    · simp at h
  · simp only [Bool.decide_and, Bool.and_eq_true, decide_eq_true_eq] at hc
    exact Or.inr (Or.inl ⟨a2, ha2, hc.2, rfl, rfl, hc.1⟩)

/-- A path of the composition projects to a path of each automaton, and its cost is the sum
of their costs. -/
theorem compose_path_project (fst1 fst2 : VectorFst TropicalWeight)
    (π : List (Arc TropicalWeight)) (s1 s2 : Nat)
    (h1 : s1 < fst1.NumStates) (h2 : s2 < fst2.NumStates)
    (hp : IsPath (composeProduct TropicalWeight.ops fst1 fst2) (s1 * fst2.NumStates + s2) π) :
    ∃ π1 π2, IsPath fst1 s1 π1 ∧ IsPath fst2 s2 π2 ∧
      pathEnd s1 π1 < fst1.NumStates ∧ pathEnd s2 π2 < fst2.NumStates ∧
      pathEnd (s1 * fst2.NumStates + s2) π
        = pathEnd s1 π1 * fst2.NumStates + pathEnd s2 π2 ∧
      pathCost π = pathCost π1 + pathCost π2 := by
  induction π generalizing s1 s2 with
  | nil => exact ⟨[], [], trivial, trivial, h1, h2, rfl, by simp [pathCost, dbl_add_def, Dbl.add]⟩
  | cons a π ih =>
    obtain ⟨ha, hrest⟩ := hp
    rw [composeProduct_Arcs TropicalWeight.ops fst1 fst2 s1 s2 h1 h2] at ha
    rcases mem_composeArcs TropicalWeight.ops fst1 fst2 s1 s2 a ha with
      ⟨a1, ha1, hn1, hw, hn⟩ | ⟨a2, ha2, hn2, hw, hn, _⟩ | ⟨a1, ha1, a2, ha2, hn1, hn2, hw, hn⟩
    · rw [hn] at hrest
      obtain ⟨π1, π2, p1, p2, e1, e2, he, hc⟩ := ih _ _ hn1 h2 hrest
      refine ⟨a1 :: π1, π2, ⟨ha1, p1⟩, p2, e1, e2, ?_, ?_⟩
      · simp only [pathEnd, hn, he]
      · simp only [pathCost, hc, hw, dbl_add_assoc]
    · rw [hn] at hrest
      obtain ⟨π1, π2, p1, p2, e1, e2, he, hc⟩ := ih _ _ h1 hn2 hrest
      refine ⟨π1, a2 :: π2, p1, ⟨ha2, p2⟩, e1, e2, ?_, ?_⟩
      · simp only [pathEnd, hn, he]
      · simp only [pathCost, hc, hw]
        rw [← dbl_add_assoc, dbl_add_comm a2.weight.Value, dbl_add_assoc]
    · rw [hn] at hrest
      obtain ⟨π1, π2, p1, p2, e1, e2, he, hc⟩ := ih _ _ hn1 hn2 hrest
      refine ⟨a1 :: π1, a2 :: π2, ⟨ha1, p1⟩, ⟨ha2, p2⟩, e1, e2, ?_, ?_⟩
      · simp only [pathEnd, hn, he]
      · simp only [pathCost, hc, hw, TropicalWeight.Times]
        exact dbl_add_add_add_comm _ _ _ _

theorem allMembers_composeProduct (fst1 fst2 : VectorFst TropicalWeight)
    (hm1 : AllMembers fst1) (hm2 : AllMembers fst2) : AllMembers (composeProduct TropicalWeight.ops fst1 fst2) := by
  intro st hst
  simp only [composeProduct, List.mem_map, List.mem_range] at hst
  obtain ⟨k, _, rfl⟩ := hst
  refine ⟨Times_Member (Final_Member fst1 hm1 _) (Final_Member fst2 hm2 _), ?_⟩
  intro a ha
  rcases mem_composeArcs TropicalWeight.ops fst1 fst2 _ _ a ha with
    ⟨a1, ha1, _, hw, _⟩ | ⟨a2, ha2, _, hw, _⟩ | ⟨a1, ha1, a2, ha2, _, _, hw, _⟩
  · rw [hw]; exact Arcs_Member fst1 hm1 _ a1 ha1
  · rw [hw]; exact Arcs_Member fst2 hm2 _ a2 ha2
  · rw [hw]; exact Times_Member (Arcs_Member fst1 hm1 _ a1 ha1) (Arcs_Member fst2 hm2 _ a2 ha2)

theorem Final_nonneg (fst : VectorFst TropicalWeight) (h : NonNegative fst) (s : Nat) :
    Dbl.fin 0 ≤ (fst.Final TropicalWeight.Zero s).Value := by
  unfold VectorFst.Final
  cases hs : fst.states[s]? with
  | none => decide
  | some st => exact (h st (List.getElem?_mem hs)).1

theorem pathCost_nonneg (fst : VectorFst TropicalWeight) (h : NonNegative fst) (s : Nat)
    (p : List (Arc TropicalWeight)) (hp : IsPath fst s p) : Dbl.fin 0 ≤ pathCost p := by
  induction p generalizing s with
  | nil => decide
  | cons a p ih =>
    have ha : Dbl.fin 0 ≤ a.weight.Value := by
      have hmem := hp.1
      unfold VectorFst.Arcs at hmem
      cases hs : fst.states[s]? with
      | none => simp [hs] at hmem
      | some st =>
        rw [hs] at hmem
        exact (h st (List.getElem?_mem hs)).2 a hmem
    exact dbl_add_nonneg ha (ih _ hp.2)


/-! ## Trimming -/

theorem mem_accessibleStates {W : Type} (fst : VectorFst W) (s : Nat) :
    s ∈ accessibleStates fst ↔
      s < fst.NumStates ∧ ∃ s0 p, fst.start = some s0 ∧ IsPath fst s0 p ∧ pathEnd s0 p = s := by
  unfold accessibleStates
  cases hs : fst.start with
  | none => simp
  | some s0 =>
    simp only [List.mem_filter, List.mem_range, List.any_eq_true, mem_pathsUpTo,
      decide_eq_true_eq]
    constructor
    · rintro ⟨hlt, p, ⟨_, hp⟩, he⟩
      exact ⟨hlt, s0, p, rfl, hp, he⟩
    · rintro ⟨hlt, s0', p, hs0, hp, he⟩
      cases hs0
      obtain ⟨q, hq, hqe, hql⟩ := exists_short_path fst s0 p hp
      exact ⟨hlt, q, ⟨hql, hq⟩, by rw [hqe, he]⟩

theorem coaccessible_iff {W : Type} [DecidableEq W] (ops : WeightOps W) (fst : VectorFst W) (s : Nat) :
    coaccessible ops fst s = true ↔
      ∃ r, IsPath fst s r ∧ fst.Final ops.Zero (pathEnd s r) ≠ ops.Zero := by
  unfold coaccessible
  simp only [List.any_eq_true, mem_pathsUpTo, decide_eq_true_eq]
  constructor
  · rintro ⟨r, ⟨_, hr⟩, hf⟩
    exact ⟨r, hr, hf⟩
  · rintro ⟨r, hr, hf⟩
    obtain ⟨q, hq, hqe, hql⟩ := exists_short_path fst s r hr
    exact ⟨q, ⟨hql, hq⟩, by rw [hqe]; exact hf⟩

theorem mem_keptStates {W : Type} [DecidableEq W] (ops : WeightOps W) (fst : VectorFst W) (s : Nat) :
    s ∈ keptStates ops fst ↔
      s < fst.NumStates ∧
      (∃ s0 p, fst.start = some s0 ∧ IsPath fst s0 p ∧ pathEnd s0 p = s) ∧
      ∃ r, IsPath fst s r ∧ fst.Final ops.Zero (pathEnd s r) ≠ ops.Zero := by
  unfold keptStates
  rw [List.mem_filter, mem_accessibleStates, coaccessible_iff, and_assoc]

theorem keptStates_nodup {W : Type} [DecidableEq W] (ops : WeightOps W) (fst : VectorFst W) : (keptStates ops fst).Nodup := by
  unfold keptStates accessibleStates
  cases fst.start with
  | none => simp
  | some s0 => exact ((List.nodup_range _).filter _).filter _

theorem Connect_NumStates {W : Type} [DecidableEq W] (ops : WeightOps W) (fst : VectorFst W) :
    (Connect ops fst).NumStates = (keptStates ops fst).length := by
  simp [Connect, VectorFst.NumStates]

theorem Connect_Arcs {W : Type} [DecidableEq W] (ops : WeightOps W) (fst : VectorFst W) (i s : Nat)
    (hi : (keptStates ops fst)[i]? = some s) :
    (Connect ops fst).Arcs i
      = ((fst.Arcs s).filter fun a => a.nextstate ∈ keptStates ops fst).map fun a =>
          { a with nextstate := (keptStates ops fst).indexOf a.nextstate } := by
  simp only [Connect, VectorFst.Arcs, List.getElem?_map, hi, Option.map_some']

theorem Connect_Final {W : Type} [DecidableEq W] (ops : WeightOps W) (fst : VectorFst W) (i s : Nat)
    (hi : (keptStates ops fst)[i]? = some s) :
    (Connect ops fst).Final ops.Zero i = fst.Final ops.Zero s := by
  simp only [Connect, VectorFst.Final, List.getElem?_map, hi, Option.map_some']

theorem Connect_start {W : Type} [DecidableEq W] (ops : WeightOps W) (fst : VectorFst W) (i0 : Nat)
    (h : (Connect ops fst).start = some i0) :
    ∃ s0, fst.start = some s0 ∧ s0 ∈ keptStates ops fst ∧ (keptStates ops fst)[i0]? = some s0 := by
  simp only [Connect] at h
  cases hs : fst.start with
  | none => rw [hs] at h; cases h
  | some s0 =>
    rw [hs] at h
    simp only [Option.some_bind] at h
    split at h
    · rename_i hmem
      cases h
      exact ⟨s0, rfl, hmem, List.getElem?_indexOf hmem⟩
    · cases h

/-- A path of the trimmed automaton is a path of the automaton it was trimmed from, with the
same arc weights. -/
theorem connect_path_sound {W : Type} [DecidableEq W] (ops : WeightOps W) (fst : VectorFst W) (π : List (Arc W))
    (i s : Nat) (hi : (keptStates ops fst)[i]? = some s) (hp : IsPath (Connect ops fst) i π) :
    ∃ π', IsPath fst s π' ∧ pathWeight ops π' = pathWeight ops π ∧
      (keptStates ops fst)[pathEnd i π]? = some (pathEnd s π') := by
  induction π generalizing i s with
  | nil => exact ⟨[], trivial, rfl, hi⟩
  | cons a π ih =>
    obtain ⟨ha, hrest⟩ := hp
    rw [Connect_Arcs ops fst i s hi] at ha
    simp only [List.mem_map, List.mem_filter, decide_eq_true_eq] at ha
    obtain ⟨a', ⟨ha', hk⟩, rfl⟩ := ha
    obtain ⟨π', hπ', hc, he⟩ := ih _ _ (List.getElem?_indexOf hk) hrest
    exact ⟨a' :: π', ⟨ha', hπ'⟩, by simp only [pathWeight, hc], he⟩

/-- A path between two kept states is a path of the trimmed automaton. -/
theorem connect_path_complete {W : Type} [DecidableEq W] (ops : WeightOps W) (fst : VectorFst W) (p : List (Arc W))
    (s : Nat) (hs : s ∈ keptStates ops fst) (hp : IsPath fst s p)
    (he : pathEnd s p ∈ keptStates ops fst) :
    ∃ π, IsPath (Connect ops fst) ((keptStates ops fst).indexOf s) π ∧
      pathEnd ((keptStates ops fst).indexOf s) π = (keptStates ops fst).indexOf (pathEnd s p) := by
  induction p generalizing s with
  | nil => exact ⟨[], trivial, rfl⟩
  | cons a p ih =>
    obtain ⟨ha, hrest⟩ := hp
    simp only [pathEnd] at he
    have hk : a.nextstate ∈ keptStates ops fst := by
      obtain ⟨_, ⟨s0, q, hs0, hq, hqe⟩, _⟩ := (mem_keptStates ops fst s).1 hs
      obtain ⟨_, _, ⟨r, hr, hf⟩⟩ := (mem_keptStates ops fst _).1 he
      refine (mem_keptStates ops fst _).2 ⟨?_, ⟨s0, q ++ [a], hs0, ?_, ?_⟩, ⟨p ++ r, ?_, ?_⟩⟩
      · cases p with
        | nil => exact ((mem_keptStates ops fst _).1 he).1
        | cons b p =>
          by_contra hge
          have := Arcs_nil_of_ge fst a.nextstate (by omega)
          simp [IsPath, this] at hrest
      · rw [isPath_append, hqe]; exact ⟨hq, ha, trivial⟩
      · rw [pathEnd_append]; rfl
      · rw [isPath_append]; exact ⟨hrest, hr⟩
      · rw [pathEnd_append]; exact hf
    obtain ⟨π, hπ, hπe⟩ := ih _ hk hrest he
    refine ⟨{ a with nextstate := (keptStates ops fst).indexOf a.nextstate } :: π, ⟨?_, hπ⟩, hπe⟩
    rw [Connect_Arcs ops fst _ s (List.getElem?_indexOf hs)]
    simp only [List.mem_map, List.mem_filter, decide_eq_true_eq]
    exact ⟨a, ⟨ha, hk⟩, rfl⟩

/-- Every state of a trimmed automaton is entered by a path from its start state. -/
theorem topReached_Connect {W : Type} [DecidableEq W] (ops : WeightOps W) (fst : VectorFst W)
    (h : (Connect ops fst).start ≠ none) : TopReached (Connect ops fst) := by
  obtain ⟨i0, hi0⟩ := Option.ne_none_iff_exists'.1 h
  obtain ⟨s0, hs0, hmem0, hk0⟩ := Connect_start ops fst i0 hi0
  have hpos : 0 < (keptStates ops fst).length := List.length_pos_of_mem hmem0
  have hlast : (keptStates ops fst).length - 1 < (keptStates ops fst).length := by omega
  have hkm : (keptStates ops fst)[(keptStates ops fst).length - 1] ∈ keptStates ops fst :=
    List.getElem_mem _
  obtain ⟨_, ⟨s0', p, hs0', hp, hpe⟩, _⟩ := (mem_keptStates ops fst _).1 hkm
  rw [hs0] at hs0'
  cases hs0'
  obtain ⟨π, hπ, hπe⟩ := connect_path_complete ops fst p s0 hmem0 hp (by rw [hpe]; exact hkm)
  have hidx : i0 = (keptStates ops fst).indexOf s0 := by
    have h1 := List.getElem?_indexOf hmem0
    have hlt : i0 < (keptStates ops fst).length := by
      rcases List.getElem?_eq_some.1 hk0 with ⟨h, _⟩; exact h
    rw [List.getElem?_eq_getElem hlt] at hk0
    cases hk0
    exact (List.indexOf_getElem (keptStates_nodup ops fst) i0 hlt).symm
  refine ⟨i0, π, hi0, by rw [hidx]; exact hπ, ?_⟩
  rw [hidx, hπe, hpe, List.indexOf_getElem (keptStates_nodup ops fst) _ hlast, Connect_NumStates]
  omega

theorem tropical_ne_Zero (w : TropicalWeight) :
    w ≠ TropicalWeight.ops.Zero ↔ w.Value ≠ Dbl.pinf := by
  cases w with
  | mk v =>
    show (⟨v⟩ : TropicalWeight) ≠ ⟨Dbl.pinf⟩ ↔ v ≠ Dbl.pinf
    simp

theorem allMembers_Connect (fst : VectorFst TropicalWeight) (hm : AllMembers fst) :
    AllMembers (Connect TropicalWeight.ops fst) := by
  intro st hst
  simp only [Connect, List.mem_map] at hst
  obtain ⟨s, _, rfl⟩ := hst
  refine ⟨Final_Member fst hm s, ?_⟩
  intro a ha
  simp only [List.mem_map, List.mem_filter] at ha
  obtain ⟨a', ⟨ha', _⟩, rfl⟩ := ha
  exact Arcs_Member fst hm s a' ha'


/-! ## When the shortest-distance routine returns -/

/-- The distances built from the paths of one more arc reach no further state: the vector
keeps its length. -/
theorem distanceVector_length_succ {W : Type} (ops : WeightOps W) (fst : VectorFst W)
    (s0 : Nat) :
    (distanceVector ops fst s0 (fst.NumStates + 1)).length
      = (distanceVector ops fst s0 fst.NumStates).length := by
  rw [distanceVector_length, distanceVector_length]
  congr 1
  apply le_antisymm
  · rcases foldl_max_mem ((pathsUpTo fst (fst.NumStates + 1) s0).map (pathEnd s0)) 0 with h | h
    · rw [h]; exact Nat.zero_le _
    · obtain ⟨p, hp, he⟩ := List.mem_map.1 h
      obtain ⟨q, hq, hqe, hql⟩ := exists_short_path fst s0 p ((mem_pathsUpTo fst _ _ p).1 hp).2
      rw [← he, ← hqe]
      exact (le_foldl_max _ 0).2 _
        (List.mem_map.2 ⟨q, (mem_pathsUpTo fst _ _ q).2 ⟨hql, hq⟩, rfl⟩)
  · rcases foldl_max_mem ((pathsUpTo fst fst.NumStates s0).map (pathEnd s0)) 0 with h | h
    · rw [h]; exact Nat.zero_le _
    · obtain ⟨p, hp, he⟩ := List.mem_map.1 h
      have hp' := (mem_pathsUpTo fst _ _ p).1 hp
      rw [← he]
      exact (le_foldl_max _ 0).2 _
        (List.mem_map.2 ⟨p, (mem_pathsUpTo fst _ _ p).2 ⟨by omega, hp'.2⟩, rfl⟩)

/-- The shortest-distance routine returns as soon as the paths of one more arc change no
distance. -/
theorem converged_of_distanceOf {W : Type} (ops : WeightOps W) (fst : VectorFst W) (s0 : Nat)
    (h : ∀ s, distanceOf ops fst s0 fst.NumStates s
      = distanceOf ops fst s0 (fst.NumStates + 1) s) :
    distanceVector ops fst s0 fst.NumStates
      = distanceVector ops fst s0 (fst.NumStates + 1) := by
  apply List.ext_getElem?
  intro s
  by_cases hlt : s < (distanceVector ops fst s0 fst.NumStates).length
  · rw [distanceVector_getElem? ops fst s0 _ s hlt,
      distanceVector_getElem? ops fst s0 _ s (by rw [distanceVector_length_succ]; exact hlt),
      h s]
  · rw [List.getElem?_eq_none (by omega),
      List.getElem?_eq_none (by rw [distanceVector_length_succ]; omega)]

theorem ShortestDistance_of_converged {W : Type} [DecidableEq W] (ops : WeightOps W)
    (fst : VectorFst W) (s0 : Nat) (hs : fst.start = some s0)
    (h : distanceVector ops fst s0 fst.NumStates
      = distanceVector ops fst s0 (fst.NumStates + 1)) :
    ShortestDistance ops fst = some (distanceVector ops fst s0 fst.NumStates) := by
  unfold ShortestDistance
  rw [hs]
  simp only
  rw [if_pos h]

theorem pathCost_isCost (fst : VectorFst TropicalWeight) (hm : AllMembers fst) (s : Nat)
    (p : List (Arc TropicalWeight)) (hp : IsPath fst s p) : (pathCost p).isCost = true := by
  rw [← pathWeight_Value]
  exact pathWeight_Member fst hm s p hp

theorem tropical_ext {a b : TropicalWeight} (h : a.Value = b.Value) : a = b := by
  cases a; cases b; simp_all

/-- In the tropical semiring the routine returns when every path from the start state can be
replaced by one of at most `NumStates` arcs to the same state that costs no more. -/
theorem converged_of_shortcut (fst : VectorFst TropicalWeight) (hm : AllMembers fst)
    (s0 : Nat)
    (h : ∀ π, IsPath fst s0 π → ∃ π', IsPath fst s0 π' ∧ pathEnd s0 π' = pathEnd s0 π ∧
      π'.length ≤ fst.NumStates ∧ pathCost π' ≤ pathCost π) :
    distanceVector TropicalWeight.ops fst s0 fst.NumStates
      = distanceVector TropicalWeight.ops fst s0 (fst.NumStates + 1) := by
  apply converged_of_distanceOf
  intro s
  obtain ⟨m1, lb1, att1⟩ := distanceOf_spec fst hm s0 fst.NumStates s
  obtain ⟨m2, lb2, att2⟩ := distanceOf_spec fst hm s0 (fst.NumStates + 1) s
  apply tropical_ext
  apply dbl_le_antisymm
  · rcases att2 with hz | ⟨p, _, hp, he, hv⟩
    · rw [hz]; exact dbl_le_pinf m1
    · obtain ⟨q, hq, hqe, hql, hqc⟩ := h p hp
      rw [hv]
      exact dbl_le_trans (lb1 q hql hq (by rw [hqe, he])) hqc
  · rcases att1 with hz | ⟨p, hl, hp, he, hv⟩
    · rw [hz]; exact dbl_le_pinf m2
    · rw [hv]
      exact lb2 p (by omega) hp he

theorem dbl_add_le_add {a b c d : Dbl} (ha : a.isCost = true) (hc : c.isCost = true)
    (h1 : a ≤ b) (h2 : c ≤ d) : a + c ≤ b + d := by
  have hb : b.isCost = true := by
    cases a <;> cases b <;> simp_all [dbl_le_def, Dbl.le, Dbl.isCost]
  exact dbl_le_trans (dbl_add_le_add_right c hc h1 ha) (dbl_add_le_add_left b hb h2 hc)

/-- Removing the cycles of a path: when going round a cycle never lowers the cost of a path
from the start state, every path can be replaced by one of at most `NumStates` arcs. -/
theorem shortcut_of_cycles (fst : VectorFst TropicalWeight) (hm : AllMembers fst) (s0 : Nat)
    (hcyc : ∀ p1 c, IsPath fst s0 (p1 ++ c) → pathEnd (pathEnd s0 p1) c = pathEnd s0 p1 →
      pathCost p1 ≤ pathCost p1 + pathCost c)
    (π : List (Arc TropicalWeight)) (hπ : IsPath fst s0 π) :
    ∃ π', IsPath fst s0 π' ∧ pathEnd s0 π' = pathEnd s0 π ∧
      π'.length ≤ fst.NumStates ∧ pathCost π' ≤ pathCost π := by
  generalize hlen : π.length = k
  induction k using Nat.strong_induction_on generalizing π with
  | _ k ih =>
    by_cases hnd : (pathSources s0 π).Nodup
    · refine ⟨π, hπ, rfl, ?_, dbl_le_refl (pathCost_isCost fst hm s0 π hπ)⟩
      rw [← pathSources_length s0 π]
      exact length_le_of_nodup_lt _ _ hnd (pathSources_lt fst s0 π hπ)
    · obtain ⟨p1, c, p2, rfl, hc, he⟩ := cycle_of_not_nodup s0 π hnd
      have hπ' := hπ
      rw [List.append_assoc, isPath_append, isPath_append] at hπ'
      obtain ⟨h1, h2, h3⟩ := hπ'
      rw [he] at h3
      have hshort : IsPath fst s0 (p1 ++ p2) := by
        rw [isPath_append]; exact ⟨h1, h3⟩
      have hpc : IsPath fst s0 (p1 ++ c) := by
        rw [isPath_append]; exact ⟨h1, h2⟩
      have hc' : 0 < c.length := List.length_pos.2 hc
      obtain ⟨π', hp', he', hl', hcost'⟩ := ih (p1 ++ p2).length
        (by rw [← hlen]; simp only [List.length_append]; omega) (p1 ++ p2) hshort rfl
      refine ⟨π', hp', ?_, hl', dbl_le_trans hcost' ?_⟩
      · rw [he']
        simp only [pathEnd_append, he]
      · rw [pathCost_append, pathCost_append, pathCost_append]
        have c1 := pathCost_isCost fst hm s0 p1 h1
        have c2 := pathCost_isCost fst hm _ p2 h3
        exact dbl_add_le_add c1 c2 (hcyc p1 c hpc he) (dbl_le_refl c2)

theorem dbl_le_add_of_le_add {r q c : Dbl} (hr : r.isCost = true) (hq : q.isCost = true)
    (hc : c.isCost = true) (h1 : r ≤ r + c) (h2 : r ≤ q) : q ≤ q + c := by
  cases r <;> cases q <;> cases c <;>
    simp_all [dbl_le_def, dbl_add_def, Dbl.le, Dbl.add, Dbl.isCost]

/-- When the routine returns on a tropical automaton, going round a cycle never lowers the
cost of a path from the start state. -/
theorem cycle_of_converged (fst : VectorFst TropicalWeight) (hm : AllMembers fst)
    (s0 : Nat)
    (hconv : distanceVector TropicalWeight.ops fst s0 fst.NumStates
      = distanceVector TropicalWeight.ops fst s0 (fst.NumStates + 1))
    (q c : List (Arc TropicalWeight)) (hq : IsPath fst s0 q)
    (hc : IsPath fst (pathEnd s0 q) c) (he : pathEnd (pathEnd s0 q) c = pathEnd s0 q) :
    pathCost q ≤ pathCost q + pathCost c := by
  have cq := pathCost_isCost fst hm s0 q hq
  have cc := pathCost_isCost fst hm _ c hc
  have hqd := distanceOf_le_pathCost fst hm s0 hconv q hq
  rcases (distanceOf_spec fst hm s0 fst.NumStates (pathEnd s0 q)).2.2 with hz | ⟨r, _, hr, hre, hrv⟩
  · rw [hz] at hqd
    rw [dbl_eq_pinf_of_le hqd, dbl_pinf_add cc]
    exact dbl_le_pinf rfl
  · have hrc : IsPath fst s0 (r ++ c) := by
      rw [isPath_append, hre]; exact ⟨hr, hc⟩
    have h1 := distanceOf_le_pathCost fst hm s0 hconv (r ++ c) hrc
    rw [pathEnd_append, hre, he, hrv, pathCost_append] at h1
    rw [hrv] at hqd
    exact dbl_le_add_of_le_add (pathCost_isCost fst hm s0 r hr) cq cc h1 hqd

/-! ## The likelihood of a composition, tropical semiring -/

theorem ninf_le_likelihood (fst : VectorFst TropicalWeight) (hm : AllMembers fst) (L : Dbl)
    (hL : ComputeLikelihoodStd fst = some L) : Dbl.ninf ≤ L := by
  cases hs : fst.start with
  | none =>
    have h := likelihood_of_no_start TropicalWeight.ops
      (ShortestDistance TropicalWeight.ops) fst hs
    unfold ComputeLikelihoodStd at hL
    rw [h] at hL
    cases hL
    decide
  | some s0 =>
    obtain ⟨T, hT, hL', _, _⟩ := likelihood_defined fst s0 hs hm L hL
    rw [hL']
    exact dbl_ninf_le_neg hT

/-- The start state of a composition that has one is the pair of the two start states. -/
theorem composeProduct_start {W : Type} (ops : WeightOps W) (fst1 fst2 : VectorFst W)
    (c0 : Nat) (h : (composeProduct ops fst1 fst2).start = some c0) :
    ∃ s1 s2, fst1.start = some s1 ∧ fst2.start = some s2 ∧ s1 < fst1.NumStates ∧
      s2 < fst2.NumStates ∧ c0 = s1 * fst2.NumStates + s2 := by
  simp only [composeProduct] at h
  split at h
  · rename_i s1 s2 e1 e2
    split at h
    · rename_i hlt
      exact ⟨s1, s2, e1, e2, hlt.1, hlt.2, by cases h; rfl⟩
    · cases h
  · cases h

theorem pair_index_inj (n2 a b c d : Nat) (hb : b < n2) (hd : d < n2)
    (h : a * n2 + b = c * n2 + d) : a = c ∧ b = d := by
  have h1 : (a * n2 + b) / n2 = a := by
    rw [Nat.add_comm, Nat.add_mul_div_right _ _ (by omega), Nat.div_eq_of_lt hb, Nat.zero_add]
  have h2 : (c * n2 + d) / n2 = c := by
    rw [Nat.add_comm, Nat.add_mul_div_right _ _ (by omega), Nat.div_eq_of_lt hd, Nat.zero_add]
  have h3 : (a * n2 + b) % n2 = b := by
    rw [Nat.add_comm, Nat.add_mul_mod_self_right, Nat.mod_eq_of_lt hb]
  have h4 : (c * n2 + d) % n2 = d := by
    rw [Nat.add_comm, Nat.add_mul_mod_self_right, Nat.mod_eq_of_lt hd]
  rw [h] at h1 h3
  exact ⟨h1.symm.trans h2, h3.symm.trans h4⟩

/-- Going round a cycle of the composition never lowers the cost of a path from its start
state, when the shortest-distance routine returns on the first automaton and the weights of
the second are `>= 0`. -/
theorem compose_cycle (lat query : VectorFst TropicalWeight) (hlm : AllMembers lat)
    (hq : NonNegative query) (s1 : Nat)
    (hconv : distanceVector TropicalWeight.ops lat s1 lat.NumStates
      = distanceVector TropicalWeight.ops lat s1 (lat.NumStates + 1))
    (s2 i0 : Nat) (hlt1 : s1 < lat.NumStates) (hlt2 : s2 < query.NumStates)
    (hk0 : (keptStates TropicalWeight.ops (composeProduct TropicalWeight.ops lat query))[i0]?
      = some (s1 * query.NumStates + s2))
    (p c : List (Arc TropicalWeight))
    (hp : IsPath (TableCompose TropicalWeight.ops lat query) i0 (p ++ c))
    (he : pathEnd (pathEnd i0 p) c = pathEnd i0 p) :
    pathCost p ≤ pathCost p + pathCost c := by
  have hqm := allMembers_of_nonNegative query hq
  rw [isPath_append] at hp
  obtain ⟨hp1, hp2⟩ := hp
  obtain ⟨p', hp', hw', hend'⟩ := connect_path_sound TropicalWeight.ops _ p _ _ hk0 hp1
  obtain ⟨c', hc', hwc', hendc'⟩ := connect_path_sound TropicalWeight.ops _ c _ _ hend' hp2
  rw [he, hend'] at hendc'
  have hcend : pathEnd (pathEnd (s1 * query.NumStates + s2) p') c'
      = pathEnd (s1 * query.NumStates + s2) p' := (Option.some.inj hendc').symm
  obtain ⟨q1, q2, hq1, hq2, e1, e2, hpe, hcost⟩ :=
    compose_path_project lat query p' s1 s2 hlt1 hlt2 hp'
  rw [hpe] at hc' hcend
  obtain ⟨c1, c2, hc1, hc2, f1, f2, hce, hccost⟩ :=
    compose_path_project lat query c' _ _ e1 e2 hc'
  rw [hce] at hcend
  obtain ⟨g1, _⟩ := pair_index_inj _ _ _ _ _ f2 e2 hcend
  have hp_cost : pathCost p = pathCost q1 + pathCost q2 := by
    rw [← pathWeight_Value, ← hw', pathWeight_Value, hcost]
  have hc_cost : pathCost c = pathCost c1 + pathCost c2 := by
    rw [← pathWeight_Value, ← hwc', pathWeight_Value, hccost]
  have k1 := cycle_of_converged lat hlm s1 hconv q1 c1 hq1 hc1 g1
  have k2 : pathCost q2 ≤ pathCost q2 + pathCost c2 :=
    dbl_le_add_of_nonneg (pathCost_isCost query hqm s2 q2 hq2)
      (pathCost_nonneg query hq _ c2 hc2)
  rw [hp_cost, hc_cost, dbl_add_add_add_comm]
  exact dbl_add_le_add (pathCost_isCost lat hlm s1 q1 hq1)
    (pathCost_isCost query hqm s2 q2 hq2) k1 k2

/-- In the tropical semiring, for a query with weights `>= 0`, the likelihood of the
composition is defined whenever the likelihood of the lattice is, and does not exceed it. -/
theorem compose_likelihood_tropical (lat query : VectorFst TropicalWeight)
    (hlm : AllMembers lat) (hq : NonNegative query)
    (L : Dbl) (hL : ComputeLikelihoodStd lat = some L) :
    ∃ Q, ComputeLikelihoodStd (TableCompose TropicalWeight.ops lat query) = some Q ∧ Q ≤ L := by
  have hqm := allMembers_of_nonNegative query hq
  have hPm := allMembers_composeProduct lat query hlm hqm
  have hCm : AllMembers (TableCompose TropicalWeight.ops lat query) := allMembers_Connect _ hPm
  cases hCs : (TableCompose TropicalWeight.ops lat query).start with
  | none =>
    exact ⟨Dbl.ninf, likelihood_of_no_start _ _ _ hCs, ninf_le_likelihood lat hlm L hL⟩
  | some i0 =>
    have htop : TopReached (TableCompose TropicalWeight.ops lat query) :=
      topReached_Connect TropicalWeight.ops _ (by unfold TableCompose at hCs; rw [hCs]; simp)
    obtain ⟨c0, hPs, _, hk0⟩ := Connect_start TropicalWeight.ops _ i0 hCs
    obtain ⟨s1, s2, hs1, _, hlt1, hlt2, rfl⟩ := composeProduct_start _ _ _ c0 hPs
    obtain ⟨d1, hd1, _⟩ := ComputeLikelihood_some TropicalWeight.ops _ lat
      (by rw [hs1]; simp) L hL
    obtain ⟨_, hconv1⟩ := ShortestDistance_some TropicalWeight.ops lat s1 d1 hs1 hd1
    have hconvC := converged_of_shortcut _ hCm i0
      (shortcut_of_cycles _ hCm i0 (fun p c hpc he =>
        compose_cycle lat query hlm hq s1 hconv1 s2 i0 hlt1 hlt2 hk0 p c hpc he))
    obtain ⟨TC, hTC, hLC, _, hattC⟩ := likelihood_core _ i0 hCs hCm _
      (ShortestDistance_of_converged TropicalWeight.ops _ i0 hCs hconvC)
      (covered_of_topReached TropicalWeight.ops _ htop i0 hCs)
    obtain ⟨T1, hT1, hL1, hlb1, _⟩ := likelihood_defined lat s1 hs1 hlm L hL
    rw [hL1]
    refine ⟨-TC, hLC, dbl_neg_le_neg ?_⟩
    rcases hattC with hinf | ⟨π, ⟨c, hc, hp, hfin⟩, hTπ⟩
    · rw [hinf]; exact dbl_le_pinf hT1
    · rw [hCs] at hc
      cases hc
      obtain ⟨π', hp', hcost', hend'⟩ := connect_path_sound TropicalWeight.ops _ π _ _ hk0 hp
      have hFT : (TableCompose TropicalWeight.ops lat query).Final TropicalWeight.Zero
            (pathEnd i0 π)
          = (composeProduct TropicalWeight.ops lat query).Final TropicalWeight.Zero
              (pathEnd (s1 * query.NumStates + s2) π') :=
        Connect_Final TropicalWeight.ops _ _ _ hend'
      obtain ⟨π1, π2, p1, p2, e1, e2, he, hcost⟩ :=
        compose_path_project lat query π' s1 s2 hlt1 hlt2 hp'
      have hPF : (composeProduct TropicalWeight.ops lat query).Final TropicalWeight.Zero
            (pathEnd s1 π1 * query.NumStates + pathEnd s2 π2)
          = TropicalWeight.Times (lat.Final TropicalWeight.Zero (pathEnd s1 π1))
              (query.Final TropicalWeight.Zero (pathEnd s2 π2)) :=
        composeProduct_Final TropicalWeight.ops lat query _ _ e1 e2
      rw [hFT, he, hPF] at hfin
      have hF2 := Final_nonneg query hq (pathEnd s2 π2)
      have hF1 : (lat.Final TropicalWeight.Zero (pathEnd s1 π1)).Value ≠ Dbl.pinf := by
        intro h
        apply hfin
        show (lat.Final TropicalWeight.Zero (pathEnd s1 π1)).Value
          + (query.Final TropicalWeight.Zero (pathEnd s2 π2)).Value = Dbl.pinf
        rw [h]
        exact dbl_pinf_add (dbl_isCost_of_nonneg hF2)
      have hacc1 : Accepting lat π1 := ⟨s1, hs1, p1, hF1⟩
      have hb := hlb1 π1 hacc1
      have hπcost : pathCost π = pathCost π1 + pathCost π2 := by
        rw [← pathWeight_Value, ← hcost', pathWeight_Value, hcost]
      have hC : acceptCost (TableCompose TropicalWeight.ops lat query) π
          = acceptCost lat π1
            + (pathCost π2 + (query.Final TropicalWeight.Zero (pathEnd s2 π2)).Value) := by
        unfold acceptCost
        rw [hCs, hs1]
        simp only
        rw [hFT, he, hPF, hπcost]
        exact dbl_add_add_add_comm _ _ _ _
      have hcost1 : (acceptCost lat π1).isCost = true := by
        unfold acceptCost
        rw [hs1]
        simp only
        exact dbl_add_isCost (pathCost_isCost lat hlm s1 π1 p1) (Final_Member lat hlm _)
      rw [hTπ, hC]
      exact dbl_le_trans hb (dbl_le_add_of_nonneg hcost1
        (dbl_add_nonneg (pathCost_nonneg query hq s2 π2 p2) hF2))

/-! ## The likelihood of a log-semiring automaton -/

theorem foldl_add_eq_sum {K : Type} [LinearOrderedField K] {α : Type} (f : α → K)
    (l : List α) (z : K) : l.foldl (fun d x => d + f x) z = z + (l.map f).sum := by
  induction l generalizing z with
  | nil => simp
  | cons a l ih => simp only [List.foldl_cons, ih, List.map_cons, List.sum_cons, add_assoc]

theorem sum_map_flatMap {K : Type} [LinearOrderedField K] {α β : Type} (g : α → List β)
    (f : β → K) (l : List α) :
    ((l.flatMap g).map f).sum = (l.map fun a => ((g a).map f).sum).sum := by
  induction l with
  | nil => rfl
  | cons a l ih =>
    simp only [List.flatMap_cons, List.map_append, List.sum_append, ih, List.map_cons,
      List.sum_cons]

theorem pathWeight_log_append {K : Type} [LinearOrderedField K] (V : K → Dbl)
    (p q : List (Arc K)) :
    pathWeight (LogProb.ops V) (p ++ q)
      = pathWeight (LogProb.ops V) p * pathWeight (LogProb.ops V) q := by
  induction p with
  | nil => exact (one_mul _).symm
  | cons a p ih =>
    show a.weight * pathWeight (LogProb.ops V) (p ++ q)
      = a.weight * pathWeight (LogProb.ops V) p * pathWeight (LogProb.ops V) q
    rw [ih, mul_assoc]

theorem Final_log_of_ge {K : Type} [LinearOrderedField K] (fst : VectorFst K) (s : Nat)
    (h : fst.NumStates ≤ s) : fst.Final 0 s = 0 := by
  unfold VectorFst.Final
  rw [List.getElem?_eq_none (by simpa [VectorFst.NumStates] using h)]

/-- The recursion of `acceptMass` adds up the paths of exactly `k` arcs. -/
theorem acceptMass_eq_sum {K : Type} [LinearOrderedField K] (V : K → Dbl) (fst : VectorFst K)
    (k s : Nat) :
    acceptMass fst k s
      = ((pathsFrom fst k s).map fun p =>
          pathWeight (LogProb.ops V) p * fst.Final 0 (pathEnd s p)).sum := by
  induction k generalizing s with
  | zero =>
    show fst.Final 0 s = (1 * fst.Final 0 s + 0)
    rw [one_mul, add_zero]
  | succ k ih =>
    simp only [acceptMass, pathsFrom]
    rw [sum_map_flatMap]
    congr 1
    apply List.map_congr_left
    intro a _
    rw [ih, List.map_map, ← List.sum_map_mul_left]
    congr 1
    apply List.map_congr_left
    intro p _
    show a.weight * (pathWeight (LogProb.ops V) p * fst.Final 0 (pathEnd a.nextstate p))
      = a.weight * pathWeight (LogProb.ops V) p * fst.Final 0 (pathEnd a.nextstate p)
    rw [mul_assoc]

theorem sum_range_ite {K : Type} [LinearOrderedField K] (g : Nat → K) (x n : Nat) :
    ((List.range n).map fun s => if x = s then g s else 0).sum = if x < n then g x else 0 := by
  induction n with
  | zero => simp
  | succ n ih =>
    rw [List.range_succ, List.map_append, List.sum_append, ih]
    by_cases h1 : x < n
    · have h2 : x ≠ n := by omega
      have h3 : x < n + 1 := by omega
      simp [h1, h2, h3]
    · by_cases h2 : x = n
      · subst h2
        simp
      · have h3 : ¬ x < n + 1 := by omega
        simp [h1, h2, h3]

/-- Adding up over the states the final weight times the distance adds up the paths, each
weighted by the final weight of the state it ends in. -/
theorem sum_states_eq_sum_paths {K : Type} [LinearOrderedField K] {α : Type}
    (F : Nat → K) (w : α → K) (e : α → Nat) (n : Nat) (hF : ∀ s, n ≤ s → F s = 0)
    (l : List α) :
    ((List.range n).map fun s => F s * ((l.filter fun p => e p = s).map w).sum).sum
      = (l.map fun p => w p * F (e p)).sum := by
  induction l with
  | nil => simp
  | cons a l ih =>
    rw [List.map_cons, List.sum_cons, ← ih]
    have hsplit : ∀ s, F s * (((a :: l).filter fun p => e p = s).map w).sum
        = (if e a = s then w a * F s else 0)
          + F s * ((l.filter fun p => e p = s).map w).sum := by
      intro s
      by_cases h : e a = s
      · simp only [List.filter_cons, h, decide_True, if_true, List.map_cons, List.sum_cons]
        ring
      · simp only [List.filter_cons, h, decide_False, if_false]
        simp
    simp only [hsplit]
    rw [List.sum_map_add]
    congr 1
    rw [sum_range_ite (fun s => w a * F s) (e a) n]
    by_cases hlt : e a < n
    · rw [if_pos hlt]
    · rw [if_neg hlt, hF (e a) (by omega), mul_zero]


/-- The total `ComputeLikelihood` accumulates on a log-semiring automaton, when the
shortest-distance routine returns a vector with an entry for every state, is the total
probability of the paths of at most `NumStates` arcs from the start state, each weighted by
the final weight of the state it ends in. -/
theorem likelihood_log {K : Type} [LinearOrderedField K] (V : K → Dbl) (fst : VectorFst K)
    (s0 : Nat) (hs : fst.start = some s0) (d : List K)
    (hd : ShortestDistance (LogProb.ops V) fst = some d) (hcov : fst.NumStates ≤ d.length) :
    ComputeLikelihoodLog V fst = some (-(V (totalMass fst fst.NumStates s0))) := by
  obtain ⟨hdv, _⟩ := ShortestDistance_some (LogProb.ops V) fst s0 d hs hd
  have hne : fst.start ≠ none := by rw [hs]; simp
  have hread : ∀ s ∈ List.range fst.NumStates,
      d[s]? = some (distanceOf (LogProb.ops V) fst s0 fst.NumStates s) := by
    intro s hsr
    have := List.mem_range.1 hsr
    rw [hdv]
    exact distanceVector_getElem? _ fst s0 _ s (by rw [← hdv]; omega)
  unfold ComputeLikelihoodLog
  rw [ComputeLikelihood_of_covered (LogProb.ops V) _ fst hne d hd _ hread]
  show some (-(V ((List.range fst.NumStates).foldl
      (fun t s => t + fst.Final 0 s * distanceOf (LogProb.ops V) fst s0 fst.NumStates s) 0)))
    = some (-(V (totalMass fst fst.NumStates s0)))
  congr 3
  rw [foldl_add_eq_sum, zero_add]
  have hdist : ∀ s, distanceOf (LogProb.ops V) fst s0 fst.NumStates s
      = (((pathsUpTo fst fst.NumStates s0).filter fun p => pathEnd s0 p = s).map
          (pathWeight (LogProb.ops V))).sum := by
    intro s
    show List.foldl (fun d p => d + pathWeight (LogProb.ops V) p) 0 _ = _
    rw [foldl_add_eq_sum, zero_add]
  simp only [hdist]
  rw [sum_states_eq_sum_paths (fun s => fst.Final 0 s) (pathWeight (LogProb.ops V))
    (pathEnd s0) fst.NumStates (fun s h => Final_log_of_ge fst s h)]
  unfold totalMass pathsUpTo
  rw [sum_map_flatMap]
  congr 1
  apply List.map_congr_left
  intro k _
  rw [acceptMass_eq_sum V]
/-! ## Probabilities of paths -/

theorem Final_log_nonneg {K : Type} [LinearOrderedField K] (fst : VectorFst K)
    (h : ProbWeights fst) (s : Nat) : 0 ≤ fst.Final 0 s := by
  unfold VectorFst.Final
  cases hs : fst.states[s]? with
  | none => exact le_refl _
  | some st => exact (h st (List.getElem?_mem hs)).1

theorem Arcs_log_nonneg {K : Type} [LinearOrderedField K] (fst : VectorFst K)
    (h : ProbWeights fst) (s : Nat) (a : Arc K) (ha : a ∈ fst.Arcs s) : 0 ≤ a.weight := by
  unfold VectorFst.Arcs at ha
  cases hs : fst.states[s]? with
  | none => simp [hs] at ha
  | some st =>
    rw [hs] at ha
    exact (h st (List.getElem?_mem hs)).2 a ha

theorem acceptMass_nonneg {K : Type} [LinearOrderedField K] (fst : VectorFst K)
    (h : ProbWeights fst) (k s : Nat) : 0 ≤ acceptMass fst k s := by
  induction k generalizing s with
  | zero => exact Final_log_nonneg fst h s
  | succ k ih =>
    simp only [acceptMass]
    apply List.sum_nonneg
    intro x hx
    obtain ⟨a, ha, rfl⟩ := List.mem_map.1 hx
    exact mul_nonneg (Arcs_log_nonneg fst h s a ha) (ih _)

theorem acceptMass_of_ge {K : Type} [LinearOrderedField K] (fst : VectorFst K)
    (k s : Nat) (hge : fst.NumStates ≤ s) : acceptMass fst k s = 0 := by
  cases k with
  | zero => exact Final_log_of_ge fst s hge
  | succ k =>
    simp only [acceptMass, Arcs_nil_of_ge fst s hge, List.map_nil, List.sum_nil]

theorem pathWeight_log_nonneg {K : Type} [LinearOrderedField K] (V : K → Dbl)
    (fst : VectorFst K) (h : ProbWeights fst) (s : Nat) (p : List (Arc K))
    (hp : IsPath fst s p) : 0 ≤ pathWeight (LogProb.ops V) p := by
  induction p generalizing s with
  | nil => exact zero_le_one
  | cons a p ih => exact mul_nonneg (Arcs_log_nonneg fst h s a hp.1) (ih _ hp.2)

theorem sum_map_le_sum_map {K : Type} [LinearOrderedField K] {α : Type} (f g : α → K)
    (l : List α) (h : ∀ a ∈ l, f a ≤ g a) : (l.map f).sum ≤ (l.map g).sum := by
  induction l with
  | nil => exact le_refl _
  | cons a l ih =>
    simp only [List.map_cons, List.sum_cons]
    exact add_le_add (h a (List.mem_cons_self _ _))
      (ih fun b hb => h b (List.mem_cons_of_mem _ hb))

theorem sum_filter_le_sum {K : Type} [LinearOrderedField K] {α : Type} (f : α → K)
    (c : α → Bool) (l : List α) (h : ∀ a ∈ l, 0 ≤ f a) :
    ((l.filter c).map f).sum ≤ (l.map f).sum := by
  induction l with
  | nil => exact le_refl _
  | cons a l ih =>
    have ih' := ih fun b hb => h b (List.mem_cons_of_mem _ hb)
    have ha := h a (List.mem_cons_self _ _)
    by_cases hc : c a = true
    · simp only [List.filter_cons, hc, if_true, List.map_cons, List.sum_cons]
      exact add_le_add (le_refl _) ih'
    · simp only [List.filter_cons, hc, List.map_cons, List.sum_cons]
      simp only [Bool.false_eq_true, if_false]
      linarith

theorem sum_eq_zero_of_nonneg {K : Type} [LinearOrderedField K] (l : List K)
    (h : ∀ x ∈ l, 0 ≤ x) (hs : l.sum = 0) : ∀ x ∈ l, x = 0 := by
  induction l with
  | nil => simp
  | cons a l ih =>
    have ha := h a (List.mem_cons_self _ _)
    have hl : 0 ≤ l.sum := List.sum_nonneg fun x hx => h x (List.mem_cons_of_mem _ hx)
    rw [List.sum_cons] at hs
    intro x hx
    rcases List.mem_cons.1 hx with rfl | hx
    · linarith
    · exact ih (fun y hy => h y (List.mem_cons_of_mem _ hy)) (by linarith) x hx

/-- At every state of a sub-stochastic query the arcs with a given input label have
probabilities of sum at most 1. -/
theorem query_label_sum_le {K : Type} [LinearOrderedField K] (query : VectorFst K)
    (h : SubStochastic query) (s : Nat) (x : Int) :
    (((query.Arcs s).filter fun b => b.ilabel = x).map fun b => b.weight).sum ≤ 1 := by
  unfold VectorFst.Arcs
  cases hs : query.states[s]? with
  | none => simp
  | some st =>
    simp only
    cases hf : st.arcs.filter (fun b => b.ilabel = x) with
    | nil => simp
    | cons a l =>
      have ha : a ∈ st.arcs.filter (fun b => b.ilabel = x) := by rw [hf]; simp
      rw [List.mem_filter] at ha
      have hx : a.ilabel = x := by simpa using ha.2
      have := ((h st (List.getElem?_mem hs)).2.2 a ha.1).2.2
      rw [hx, hf] at this
      exact this

theorem query_arcs {K : Type} [LinearOrderedField K] (query : VectorFst K)
    (h : SubStochastic query) (s : Nat) (a : Arc K) (ha : a ∈ query.Arcs s) :
    a.ilabel ≠ 0 ∧ 0 ≤ a.weight := by
  unfold VectorFst.Arcs at ha
  cases hs : query.states[s]? with
  | none => simp [hs] at ha
  | some st =>
    rw [hs] at ha
    have := (h st (List.getElem?_mem hs)).2.2 a ha
    exact ⟨this.1, this.2.1⟩

theorem query_Final {K : Type} [LinearOrderedField K] (query : VectorFst K)
    (h : SubStochastic query) (s : Nat) : 0 ≤ query.Final 0 s ∧ query.Final 0 s ≤ 1 := by
  unfold VectorFst.Final
  cases hs : query.states[s]? with
  | none => exact ⟨le_refl _, zero_le_one⟩
  | some st =>
    have := h st (List.getElem?_mem hs)
    exact ⟨this.1, this.2.1⟩

theorem probWeights_of_subStochastic {K : Type} [LinearOrderedField K] (query : VectorFst K)
    (h : SubStochastic query) : ProbWeights query :=
  fun st hst => ⟨(h st hst).1, fun a ha => ((h st hst).2.2 a ha).2.1⟩

/-! ## The probability of a composition -/

/-- From every state of the composition with a sub-stochastic query, the paths of `k` arcs
have at most the total probability of the paths of `k` arcs from the corresponding state of
the first automaton. -/
theorem acceptMass_composeProduct_le {K : Type} [LinearOrderedField K] (V : K → Dbl)
    (lat query : VectorFst K) (hl : ProbWeights lat) (hq : SubStochastic query)
    (k s1 s2 : Nat) (h1 : s1 < lat.NumStates) (h2 : s2 < query.NumStates) :
    acceptMass (composeProduct (LogProb.ops V) lat query) k (s1 * query.NumStates + s2)
      ≤ acceptMass lat k s1 := by
  induction k generalizing s1 s2 with
  | zero =>
    have hF : (composeProduct (LogProb.ops V) lat query).Final 0 (s1 * query.NumStates + s2)
        = lat.Final 0 s1 * query.Final 0 s2 :=
      composeProduct_Final (LogProb.ops V) lat query s1 s2 h1 h2
    simp only [acceptMass]
    rw [hF]
    calc lat.Final 0 s1 * query.Final 0 s2 ≤ lat.Final 0 s1 * 1 :=
          mul_le_mul_of_nonneg_left (query_Final query hq s2).2 (Final_log_nonneg lat hl s1)
      _ = lat.Final 0 s1 := mul_one _
  | succ k ih =>
    have hnoeps : (query.Arcs s2).filter
        (fun a2 => a2.ilabel = 0 ∧ a2.nextstate < query.NumStates) = [] := by
      rw [List.filter_eq_nil_iff]
      intro a ha
      have := (query_arcs query hq s2 a ha).1
      simp [this]
    simp only [acceptMass]
    rw [composeProduct_Arcs (LogProb.ops V) lat query s1 s2 h1 h2]
    simp only [composeArcs, hnoeps, List.map_nil, List.append_nil]
    rw [sum_map_flatMap]
    apply sum_map_le_sum_map
    intro a1 ha1
    have hw1 := Arcs_log_nonneg lat hl s1 a1 ha1
    have hM := acceptMass_nonneg lat hl k a1.nextstate
    split
    · rename_i hn1
      split
      · simp only [List.map_cons, List.map_nil, List.sum_cons, List.sum_nil, add_zero]
        exact mul_le_mul_of_nonneg_left (ih _ _ hn1 h2) hw1
      · rw [List.map_map]
        have hstep : ∀ a2 ∈ (query.Arcs s2).filter
            (fun a2 => a2.ilabel = a1.olabel ∧ a2.nextstate < query.NumStates),
            ((fun c : Arc K => c.weight *
                acceptMass (composeProduct (LogProb.ops V) lat query) k c.nextstate) ∘
              fun a2 : Arc K => ⟨a1.ilabel, a2.olabel, (LogProb.ops V).Times a1.weight a2.weight,
                a1.nextstate * query.NumStates + a2.nextstate⟩) a2
            ≤ a2.weight * (a1.weight * acceptMass lat k a1.nextstate) := by
          intro a2 ha2
          rw [List.mem_filter] at ha2
          have hn2 : a2.nextstate < query.NumStates := by
            have := ha2.2
            simp only [Bool.decide_and, Bool.and_eq_true, decide_eq_true_eq] at this
            exact this.2
          have hw2 := (query_arcs query hq s2 a2 ha2.1).2
          show a1.weight * a2.weight * acceptMass (composeProduct (LogProb.ops V) lat query) k
              (a1.nextstate * query.NumStates + a2.nextstate)
            ≤ a2.weight * (a1.weight * acceptMass lat k a1.nextstate)
          calc a1.weight * a2.weight * acceptMass (composeProduct (LogProb.ops V) lat query) k
                (a1.nextstate * query.NumStates + a2.nextstate)
              ≤ a1.weight * a2.weight * acceptMass lat k a1.nextstate :=
                mul_le_mul_of_nonneg_left (ih _ _ hn1 hn2) (mul_nonneg hw1 hw2)
            _ = a2.weight * (a1.weight * acceptMass lat k a1.nextstate) := by ring
        refine le_trans (sum_map_le_sum_map _ _ _ hstep) ?_
        rw [List.sum_map_mul_right]
        have hsum : (((query.Arcs s2).filter
            (fun a2 => a2.ilabel = a1.olabel ∧ a2.nextstate < query.NumStates)).map
              fun a2 => a2.weight).sum ≤ 1 := by
          have hsub : (query.Arcs s2).filter
              (fun a2 => a2.ilabel = a1.olabel ∧ a2.nextstate < query.NumStates)
              = ((query.Arcs s2).filter (fun b => b.ilabel = a1.olabel)).filter
                  (fun a2 => a2.nextstate < query.NumStates) := by
            rw [List.filter_filter]
            congr 1
            funext a2
            simp only [Bool.decide_and, Bool.and_comm]
          rw [hsub]
          refine le_trans (sum_filter_le_sum _ _ _ ?_) (query_label_sum_le query hq s2 a1.olabel)
          intro a2 ha2
          exact (query_arcs query hq s2 a2 (List.mem_filter.1 ha2).1).2
        calc _ ≤ 1 * (a1.weight * acceptMass lat k a1.nextstate) :=
              mul_le_mul_of_nonneg_right hsum (mul_nonneg hw1 hM)
          _ = _ := one_mul _
    · simp only [List.map_nil, List.sum_nil]
      exact mul_nonneg hw1 hM

theorem probWeights_composeProduct {K : Type} [LinearOrderedField K] (V : K → Dbl)
    (lat query : VectorFst K) (hl : ProbWeights lat) (hq : ProbWeights query) :
    ProbWeights (composeProduct (LogProb.ops V) lat query) := by
  intro st hst
  simp only [composeProduct, List.mem_map, List.mem_range] at hst
  obtain ⟨k, _, rfl⟩ := hst
  refine ⟨mul_nonneg (Final_log_nonneg lat hl _) (Final_log_nonneg query hq _), ?_⟩
  intro a ha
  rcases mem_composeArcs (LogProb.ops V) lat query _ _ a ha with
    ⟨a1, ha1, _, hw, _⟩ | ⟨a2, ha2, _, hw, _⟩ | ⟨a1, ha1, a2, ha2, _, _, hw, _⟩
  · rw [hw]; exact Arcs_log_nonneg lat hl _ a1 ha1
  · rw [hw]; exact Arcs_log_nonneg query hq _ a2 ha2
  · rw [hw]
    exact mul_nonneg (Arcs_log_nonneg lat hl _ a1 ha1) (Arcs_log_nonneg query hq _ a2 ha2)

/-- From every state of the trimmed automaton, the paths of `k` arcs have at most the total
probability of the paths of `k` arcs from the state it was kept from. -/
theorem acceptMass_Connect_le {K : Type} [LinearOrderedField K] (V : K → Dbl)
    (fst : VectorFst K) (h : ProbWeights fst) (k i s : Nat)
    (hi : (keptStates (LogProb.ops V) fst)[i]? = some s) :
    acceptMass (Connect (LogProb.ops V) fst) k i ≤ acceptMass fst k s := by
  induction k generalizing i s with
  | zero =>
    have hF : (Connect (LogProb.ops V) fst).Final 0 i = fst.Final 0 s :=
      Connect_Final (LogProb.ops V) fst i s hi
    simp only [acceptMass]
    rw [hF]
  | succ k ih =>
    simp only [acceptMass]
    rw [Connect_Arcs (LogProb.ops V) fst i s hi, List.map_map]
    have hstep : ∀ a ∈ (fst.Arcs s).filter
        (fun a => a.nextstate ∈ keptStates (LogProb.ops V) fst),
        ((fun c : Arc K => c.weight * acceptMass (Connect (LogProb.ops V) fst) k c.nextstate) ∘
          fun a : Arc K =>
            { a with nextstate := (keptStates (LogProb.ops V) fst).indexOf a.nextstate }) a
          ≤ a.weight * acceptMass fst k a.nextstate := by
      intro a ha
      rw [List.mem_filter] at ha
      have hk : a.nextstate ∈ keptStates (LogProb.ops V) fst := by simpa using ha.2
      exact mul_le_mul_of_nonneg_left (ih _ _ (List.getElem?_indexOf hk))
        (Arcs_log_nonneg fst h s a ha.1)
    refine le_trans (sum_map_le_sum_map _ _ _ hstep) (sum_filter_le_sum _ _ _ ?_)
    intro a ha
    exact mul_nonneg (Arcs_log_nonneg fst h s a ha) (acceptMass_nonneg fst h k _)

theorem probWeights_Connect {K : Type} [LinearOrderedField K] (V : K → Dbl)
    (fst : VectorFst K) (h : ProbWeights fst) : ProbWeights (Connect (LogProb.ops V) fst) := by
  intro st hst
  simp only [Connect, List.mem_map] at hst
  obtain ⟨s, _, rfl⟩ := hst
  refine ⟨Final_log_nonneg fst h s, ?_⟩
  intro a ha
  simp only [List.mem_map, List.mem_filter] at ha
  obtain ⟨a', ⟨ha', _⟩, rfl⟩ := ha
  exact Arcs_log_nonneg fst h s a' ha'

/-! ## Paths longer than the shortest-distance routine looks at -/

theorem pathsUpTo_succ {W : Type} (fst : VectorFst W) (n s : Nat) :
    pathsUpTo fst (n + 1) s = pathsUpTo fst n s ++ pathsFrom fst (n + 1) s := by
  unfold pathsUpTo
  rw [List.range_succ, List.flatMap_append]
  simp

/-- On a log-semiring automaton the paths of one more arc change no distance exactly when
each of them has probability 0. -/
theorem distanceOf_log_succ {K : Type} [LinearOrderedField K] (V : K → Dbl)
    (fst : VectorFst K) (s0 n s : Nat) :
    distanceOf (LogProb.ops V) fst s0 (n + 1) s
      = distanceOf (LogProb.ops V) fst s0 n s
        + (((pathsFrom fst (n + 1) s0).filter fun p => pathEnd s0 p = s).map
            (pathWeight (LogProb.ops V))).sum := by
  have hdist : ∀ m, distanceOf (LogProb.ops V) fst s0 m s
      = (((pathsUpTo fst m s0).filter fun p => pathEnd s0 p = s).map
          (pathWeight (LogProb.ops V))).sum := by
    intro m
    show List.foldl (fun d p => d + pathWeight (LogProb.ops V) p) 0 _ = _
    rw [foldl_add_eq_sum, zero_add]
  rw [hdist, hdist, pathsUpTo_succ, List.filter_append, List.map_append, List.sum_append]

/-- When the routine returns on a log-semiring automaton, every path from the start state
with more than `NumStates` arcs has probability 0. -/
theorem long_path_zero {K : Type} [LinearOrderedField K] (V : K → Dbl)
    (fst : VectorFst K) (h : ProbWeights fst) (s0 : Nat)
    (hconv : distanceVector (LogProb.ops V) fst s0 fst.NumStates
      = distanceVector (LogProb.ops V) fst s0 (fst.NumStates + 1))
    (p : List (Arc K)) (hp : IsPath fst s0 p) (hlen : fst.NumStates < p.length) :
    pathWeight (LogProb.ops V) p = 0 := by
  have hsplit : p = p.take (fst.NumStates + 1) ++ p.drop (fst.NumStates + 1) :=
    (List.take_append_drop _ _).symm
  have hp' := hp
  rw [hsplit, isPath_append] at hp'
  have hmem : p.take (fst.NumStates + 1) ∈ pathsFrom fst (fst.NumStates + 1) s0 := by
    rw [mem_pathsFrom]
    exact ⟨by rw [List.length_take]; omega, hp'.1⟩
  have h0 := distanceOf_converged (LogProb.ops V) fst s0 fst.NumStates hconv
    (pathEnd s0 (p.take (fst.NumStates + 1)))
  rw [distanceOf_log_succ] at h0
  have hsum : (((pathsFrom fst (fst.NumStates + 1) s0).filter
      fun q => pathEnd s0 q = pathEnd s0 (p.take (fst.NumStates + 1))).map
        (pathWeight (LogProb.ops V))).sum = 0 := by
    have := h0
    linarith
  have hz := sum_eq_zero_of_nonneg _ (by
    intro x hx
    obtain ⟨q, hq, rfl⟩ := List.mem_map.1 hx
    rw [List.mem_filter, mem_pathsFrom] at hq
    exact pathWeight_log_nonneg V fst h s0 q hq.1.2) hsum
    (pathWeight (LogProb.ops V) (p.take (fst.NumStates + 1)))
    (List.mem_map.2 ⟨_, List.mem_filter.2 ⟨hmem, by simp⟩, rfl⟩)
  rw [hsplit, pathWeight_log_append, hz, zero_mul]

theorem acceptMass_long {K : Type} [LinearOrderedField K] (V : K → Dbl)
    (fst : VectorFst K) (h : ProbWeights fst) (s0 : Nat)
    (hconv : distanceVector (LogProb.ops V) fst s0 fst.NumStates
      = distanceVector (LogProb.ops V) fst s0 (fst.NumStates + 1))
    (k : Nat) (hk : fst.NumStates < k) : acceptMass fst k s0 = 0 := by
  rw [acceptMass_eq_sum V]
  apply List.sum_eq_zero
  intro x hx
  obtain ⟨p, hp, rfl⟩ := List.mem_map.1 hx
  rw [mem_pathsFrom] at hp
  rw [long_path_zero V fst h s0 hconv p hp.2 (by omega), zero_mul]

theorem totalMass_succ {K : Type} [LinearOrderedField K] (fst : VectorFst K) (n s : Nat) :
    totalMass fst (n + 1) s = totalMass fst n s + acceptMass fst (n + 1) s := by
  unfold totalMass
  rw [List.range_succ, List.map_append, List.sum_append]
  simp

theorem totalMass_nonneg {K : Type} [LinearOrderedField K] (fst : VectorFst K)
    (h : ProbWeights fst) (n s : Nat) : 0 ≤ totalMass fst n s := by
  unfold totalMass
  apply List.sum_nonneg
  intro x hx
  obtain ⟨k, _, rfl⟩ := List.mem_map.1 hx
  exact acceptMass_nonneg fst h k s

theorem totalMass_mono {K : Type} [LinearOrderedField K] (fst : VectorFst K)
    (h : ProbWeights fst) (s a j : Nat) : totalMass fst a s ≤ totalMass fst (a + j) s := by
  induction j with
  | zero => exact le_refl _
  | succ j ih =>
    rw [← Nat.add_assoc, totalMass_succ]
    have := acceptMass_nonneg fst h (a + j + 1) s
    linarith

/-- The total probability of the paths from a state, up to any number of arcs, is at most
the total up to `m` arcs when all longer paths have probability 0. -/
theorem totalMass_le {K : Type} [LinearOrderedField K] (fst : VectorFst K)
    (h : ProbWeights fst) (s m : Nat) (hz : ∀ k, m < k → acceptMass fst k s = 0) (n : Nat) :
    totalMass fst n s ≤ totalMass fst m s := by
  have hconst : ∀ j, totalMass fst (m + j) s = totalMass fst m s := by
    intro j
    induction j with
    | zero => rfl
    | succ j ih =>
      rw [← Nat.add_assoc, totalMass_succ, ih, hz (m + j + 1) (by omega), add_zero]
  by_cases hnm : n ≤ m
  · obtain ⟨j, rfl⟩ := Nat.exists_eq_add_of_le hnm
    exact totalMass_mono fst h s n j
  · obtain ⟨j, rfl⟩ := Nat.exists_eq_add_of_le (by omega : m ≤ n)
    rw [hconst j]

/-! ## When the routine returns on a composition, log semiring -/

/-- A path of the trimmed automaton is a path of the automaton it was trimmed from, with the
same arc weights and as many arcs. -/
theorem connect_path_project {W : Type} [DecidableEq W] (ops : WeightOps W)
    (fst : VectorFst W) (π : List (Arc W)) (i s : Nat)
    (hi : (keptStates ops fst)[i]? = some s) (hp : IsPath (Connect ops fst) i π) :
    ∃ π', IsPath fst s π' ∧ pathWeight ops π' = pathWeight ops π ∧
      (keptStates ops fst)[pathEnd i π]? = some (pathEnd s π') ∧ π'.length = π.length := by
  induction π generalizing i s with
  | nil => exact ⟨[], trivial, rfl, hi, rfl⟩
  | cons a π ih =>
    obtain ⟨ha, hrest⟩ := hp
    rw [Connect_Arcs ops fst i s hi] at ha
    simp only [List.mem_map, List.mem_filter, decide_eq_true_eq] at ha
    obtain ⟨a', ⟨ha', hk⟩, rfl⟩ := ha
    obtain ⟨π', hπ', hc, he, hl⟩ := ih _ _ (List.getElem?_indexOf hk) hrest
    exact ⟨a' :: π', ⟨ha', hπ'⟩, by simp only [pathWeight, hc], he,
      by simp only [List.length_cons, hl]⟩

/-- A path of the composition with a query that has no arc of input label 0 projects to a
path of each automaton; its probability is the product of theirs and it has as many arcs as
the path of the first automaton. -/
theorem compose_path_project_log {K : Type} [LinearOrderedField K] (V : K → Dbl)
    (lat query : VectorFst K) (hq : SubStochastic query)
    (π : List (Arc K)) (s1 s2 : Nat)
    (h1 : s1 < lat.NumStates) (h2 : s2 < query.NumStates)
    (hp : IsPath (composeProduct (LogProb.ops V) lat query) (s1 * query.NumStates + s2) π) :
    ∃ π1 π2, IsPath lat s1 π1 ∧ IsPath query s2 π2 ∧
      pathEnd s1 π1 < lat.NumStates ∧ pathEnd s2 π2 < query.NumStates ∧
      pathEnd (s1 * query.NumStates + s2) π
        = pathEnd s1 π1 * query.NumStates + pathEnd s2 π2 ∧
      pathWeight (LogProb.ops V) π
        = pathWeight (LogProb.ops V) π1 * pathWeight (LogProb.ops V) π2 ∧
      π1.length = π.length := by
  induction π generalizing s1 s2 with
  | nil => exact ⟨[], [], trivial, trivial, h1, h2, rfl, (one_mul _).symm, rfl⟩
  | cons a π ih =>
    obtain ⟨ha, hrest⟩ := hp
    rw [composeProduct_Arcs (LogProb.ops V) lat query s1 s2 h1 h2] at ha
    rcases mem_composeArcs (LogProb.ops V) lat query s1 s2 a ha with
      ⟨a1, ha1, hn1, hw, hn⟩ | ⟨a2, ha2, _, _, _, h0⟩ | ⟨a1, ha1, a2, ha2, hn1, hn2, hw, hn⟩
    · rw [hn] at hrest
      obtain ⟨π1, π2, p1, p2, e1, e2, he, hc, hl⟩ := ih _ _ hn1 h2 hrest
      refine ⟨a1 :: π1, π2, ⟨ha1, p1⟩, p2, e1, e2, ?_, ?_, ?_⟩
      · simp only [pathEnd, hn, he]
      · show a.weight * pathWeight (LogProb.ops V) π
          = a1.weight * pathWeight (LogProb.ops V) π1 * pathWeight (LogProb.ops V) π2
        rw [hc, hw, mul_assoc]
      · simp only [List.length_cons, hl]
    · exact absurd h0 (query_arcs query hq s2 a2 ha2).1
    · rw [hn] at hrest
      obtain ⟨π1, π2, p1, p2, e1, e2, he, hc, hl⟩ := ih _ _ hn1 hn2 hrest
      refine ⟨a1 :: π1, a2 :: π2, ⟨ha1, p1⟩, ⟨ha2, p2⟩, e1, e2, ?_, ?_, ?_⟩
      · simp only [pathEnd, hn, he]
      · show a.weight * pathWeight (LogProb.ops V) π
          = a1.weight * pathWeight (LogProb.ops V) π1
            * (a2.weight * pathWeight (LogProb.ops V) π2)
        rw [hc, hw]
        show a1.weight * a2.weight * _ = _
        ring
      · simp only [List.length_cons, hl]

/-- Going round a cycle `m` times. -/
theorem iterate_cycle {K : Type} [LinearOrderedField K] (V : K → Dbl) (fst : VectorFst K)
    (e : Nat) (c : List (Arc K)) (hc : IsPath fst e c) (he : pathEnd e c = e)
    (hne : c ≠ []) (m : Nat) :
    ∃ r, IsPath fst e r ∧ pathEnd e r = e ∧
      pathWeight (LogProb.ops V) r = pathWeight (LogProb.ops V) c ^ m ∧ m ≤ r.length := by
  induction m with
  | zero => exact ⟨[], trivial, rfl, (pow_zero _).symm, Nat.le_refl _⟩
  | succ m ih =>
    obtain ⟨r, hr, hre, hrw, hrl⟩ := ih
    refine ⟨c ++ r, ?_, ?_, ?_, ?_⟩
    · rw [isPath_append, he]; exact ⟨hc, hr⟩
    · rw [pathEnd_append, he, hre]
    · rw [pathWeight_log_append, hrw, pow_succ, mul_comm]
    · have : 0 < c.length := List.length_pos.2 hne
      simp only [List.length_append]
      omega

/-- When the routine returns on a log-semiring automaton, a path from the start state
followed by a cycle has probability 0. -/
theorem cycle_zero_log {K : Type} [LinearOrderedField K] (V : K → Dbl)
    (fst : VectorFst K) (h : ProbWeights fst) (s0 : Nat)
    (hconv : distanceVector (LogProb.ops V) fst s0 fst.NumStates
      = distanceVector (LogProb.ops V) fst s0 (fst.NumStates + 1))
    (q c : List (Arc K)) (hq : IsPath fst s0 q) (hc : IsPath fst (pathEnd s0 q) c)
    (he : pathEnd (pathEnd s0 q) c = pathEnd s0 q) (hne : c ≠ []) :
    pathWeight (LogProb.ops V) q * pathWeight (LogProb.ops V) c = 0 := by
  obtain ⟨r, hr, _, hrw, hrl⟩ := iterate_cycle V fst _ c hc he hne (fst.NumStates + 1)
  have hz := long_path_zero V fst h s0 hconv (q ++ r)
    (by rw [isPath_append]; exact ⟨hq, hr⟩)
    (by simp only [List.length_append]; omega)
  rw [pathWeight_log_append, hrw] at hz
  rcases mul_eq_zero.1 hz with h1 | h1
  · rw [h1, zero_mul]
  · rw [pow_eq_zero_iff (by omega) |>.1 h1, mul_zero]

/-- When the routine returns on the lattice, every path of the composition with a
sub-stochastic query that goes round a cycle has probability 0. -/
theorem compose_cycle_log {K : Type} [LinearOrderedField K] (V : K → Dbl)
    (lat query : VectorFst K) (hl : ProbWeights lat) (hq : SubStochastic query) (s1 : Nat)
    (hconv : distanceVector (LogProb.ops V) lat s1 lat.NumStates
      = distanceVector (LogProb.ops V) lat s1 (lat.NumStates + 1))
    (s2 i0 : Nat) (hlt1 : s1 < lat.NumStates) (hlt2 : s2 < query.NumStates)
    (hk0 : (keptStates (LogProb.ops V) (composeProduct (LogProb.ops V) lat query))[i0]?
      = some (s1 * query.NumStates + s2))
    (p c : List (Arc K))
    (hp : IsPath (TableCompose (LogProb.ops V) lat query) i0 (p ++ c))
    (he : pathEnd (pathEnd i0 p) c = pathEnd i0 p) (hne : c ≠ []) :
    pathWeight (LogProb.ops V) p * pathWeight (LogProb.ops V) c = 0 := by
  rw [isPath_append] at hp
  obtain ⟨hp1, hp2⟩ := hp
  obtain ⟨p', hp', hw', hend', _⟩ := connect_path_project (LogProb.ops V) _ p _ _ hk0 hp1
  obtain ⟨c', hc', hwc', hendc', hlc'⟩ :=
    connect_path_project (LogProb.ops V) _ c _ _ hend' hp2
  rw [he, hend'] at hendc'
  have hcend : pathEnd (pathEnd (s1 * query.NumStates + s2) p') c'
      = pathEnd (s1 * query.NumStates + s2) p' := (Option.some.inj hendc').symm
  obtain ⟨q1, q2, hq1, hq2, e1, e2, hpe, hcost, _⟩ :=
    compose_path_project_log V lat query hq p' s1 s2 hlt1 hlt2 hp'
  rw [hpe] at hc' hcend
  obtain ⟨c1, c2, hc1, hc2, f1, f2, hce, hccost, hl1⟩ :=
    compose_path_project_log V lat query hq c' _ _ e1 e2 hc'
  rw [hce] at hcend
  obtain ⟨g1, _⟩ := pair_index_inj _ _ _ _ _ f2 e2 hcend
  have hne1 : c1 ≠ [] := by
    intro h
    rw [h] at hl1
    have : 0 < c.length := List.length_pos.2 hne
    simp only [List.length_nil] at hl1
    omega
  have hz := cycle_zero_log V lat hl s1 hconv q1 c1 hq1 hc1 g1 hne1
  rw [← hw', ← hwc', hcost, hccost]
  calc pathWeight (LogProb.ops V) q1 * pathWeight (LogProb.ops V) q2
        * (pathWeight (LogProb.ops V) c1 * pathWeight (LogProb.ops V) c2)
      = pathWeight (LogProb.ops V) q1 * pathWeight (LogProb.ops V) c1
        * (pathWeight (LogProb.ops V) q2 * pathWeight (LogProb.ops V) c2) := by ring
    _ = 0 := by rw [hz, zero_mul]

/-- The routine returns on the composition with a sub-stochastic query when it returns on
the lattice. -/
theorem compose_converged_log {K : Type} [LinearOrderedField K] (V : K → Dbl)
    (lat query : VectorFst K) (hl : ProbWeights lat) (hq : SubStochastic query) (s1 : Nat)
    (hconv : distanceVector (LogProb.ops V) lat s1 lat.NumStates
      = distanceVector (LogProb.ops V) lat s1 (lat.NumStates + 1))
    (s2 i0 : Nat) (hlt1 : s1 < lat.NumStates) (hlt2 : s2 < query.NumStates)
    (hk0 : (keptStates (LogProb.ops V) (composeProduct (LogProb.ops V) lat query))[i0]?
      = some (s1 * query.NumStates + s2)) :
    distanceVector (LogProb.ops V) (TableCompose (LogProb.ops V) lat query) i0
        (TableCompose (LogProb.ops V) lat query).NumStates
      = distanceVector (LogProb.ops V) (TableCompose (LogProb.ops V) lat query) i0
        ((TableCompose (LogProb.ops V) lat query).NumStates + 1) := by
  apply converged_of_distanceOf
  intro s
  rw [distanceOf_log_succ]
  have hz : (((pathsFrom (TableCompose (LogProb.ops V) lat query)
      ((TableCompose (LogProb.ops V) lat query).NumStates + 1) i0).filter
        fun p => pathEnd i0 p = s).map (pathWeight (LogProb.ops V))).sum = 0 := by
    apply List.sum_eq_zero
    intro x hx
    obtain ⟨p, hp, rfl⟩ := List.mem_map.1 hx
    rw [List.mem_filter, mem_pathsFrom] at hp
    obtain ⟨⟨hlen, hpath⟩, _⟩ := hp
    have hnd : ¬ (pathSources i0 p).Nodup := by
      intro hnd
      have := length_le_of_nodup_lt _ _ hnd (pathSources_lt _ i0 p hpath)
      rw [pathSources_length] at this
      omega
    obtain ⟨p1, c, p2, rfl, hc, he⟩ := cycle_of_not_nodup i0 p hnd
    rw [isPath_append] at hpath
    rw [pathWeight_log_append, pathWeight_log_append,
      compose_cycle_log V lat query hl hq s1 hconv s2 i0 hlt1 hlt2 hk0 p1 c hpath.1 he hc,
      zero_mul]
  rw [hz, add_zero]

theorem dbl_ninf_le_neg_of_le_self {a : Dbl} (h : a ≤ a) : Dbl.ninf ≤ -a := by
  cases a <;> simp_all [dbl_le_def, dbl_neg_def, Dbl.le, Dbl.neg]

/-- In the log semiring, for a sub-stochastic query and a readout of the cost that decreases
as the probability grows, the likelihood of the composition is defined whenever the
likelihood of the lattice is, and does not exceed it. -/
theorem compose_likelihood_log {K : Type} [LinearOrderedField K] (V : K → Dbl)
    (hV : ∀ p q : K, 0 ≤ p → p ≤ q → V q ≤ V p)
    (lat query : VectorFst K) (hl : ProbWeights lat) (hq : SubStochastic query)
    (L : Dbl) (hL : ComputeLikelihoodLog V lat = some L) :
    ∃ Q, ComputeLikelihoodLog V (TableCompose (LogProb.ops V) lat query) = some Q ∧ Q ≤ L := by
  have hPm := probWeights_composeProduct V lat query hl (probWeights_of_subStochastic query hq)
  have hCm := probWeights_Connect V _ hPm
  cases hs : lat.start with
  | none =>
    have hCs : (TableCompose (LogProb.ops V) lat query).start = none := by
      simp only [TableCompose, Connect, composeProduct, hs, Option.none_bind]
    have h1 := likelihood_of_no_start (LogProb.ops V) (ShortestDistance (LogProb.ops V)) lat hs
    have h2 := likelihood_of_no_start (LogProb.ops V) (ShortestDistance (LogProb.ops V)) _ hCs
    unfold ComputeLikelihoodLog at hL ⊢
    rw [h1] at hL
    cases hL
    exact ⟨Dbl.ninf, h2, by decide⟩
  | some s1 =>
    obtain ⟨d1, hd1, hcov1⟩ := ComputeLikelihood_some (LogProb.ops V) _ lat
      (by rw [hs]; simp) L hL
    obtain ⟨_, hconv1⟩ := ShortestDistance_some (LogProb.ops V) lat s1 d1 hs hd1
    have hLv := likelihood_log V lat s1 hs d1 hd1 hcov1
    rw [hLv] at hL
    cases hL
    have hTL := totalMass_nonneg lat hl lat.NumStates s1
    cases hCs : (TableCompose (LogProb.ops V) lat query).start with
    | none =>
      refine ⟨Dbl.ninf, likelihood_of_no_start _ _ _ hCs, ?_⟩
      exact dbl_ninf_le_neg_of_le_self (hV _ _ hTL (le_refl _))
    | some i0 =>
      have htop : TopReached (TableCompose (LogProb.ops V) lat query) :=
        topReached_Connect (LogProb.ops V) _ (by unfold TableCompose at hCs; rw [hCs]; simp)
      obtain ⟨c0, hPs, _, hk0⟩ := Connect_start (LogProb.ops V) _ i0 hCs
      obtain ⟨s1', s2, hs1', _, hlt1, hlt2, rfl⟩ := composeProduct_start _ _ _ c0 hPs
      rw [hs] at hs1'
      cases hs1'
      have hconvC := compose_converged_log V lat query hl hq s1 hconv1 s2 i0 hlt1 hlt2 hk0
      have hQ := likelihood_log V _ i0 hCs _
        (ShortestDistance_of_converged (LogProb.ops V) _ i0 hCs hconvC)
        (covered_of_topReached (LogProb.ops V) _ htop i0 hCs)
      refine ⟨_, hQ, dbl_neg_le_neg (hV _ _ (totalMass_nonneg _ hCm _ _) ?_)⟩
      have hstep : ∀ n, totalMass (TableCompose (LogProb.ops V) lat query) n i0
          ≤ totalMass lat n s1 := by
        intro n
        unfold totalMass
        apply sum_map_le_sum_map
        intro k _
        exact le_trans (acceptMass_Connect_le V _ hPm k i0 _ hk0)
          (acceptMass_composeProduct_le V lat query hl hq k s1 s2 hlt1 hlt2)
      exact le_trans (hstep _)
        (totalMass_le lat hl s1 lat.NumStates
          (fun k hk => acceptMass_long V lat hl s1 hconv1 k hk) _)

/-! ## Claims on the restricted likelihood -/

theorem dbl_not_gt_of_le {a b : Dbl} (h : a ≤ b) : ¬ (a > b) := by
  cases a <;> cases b <;> simp_all [GT.gt, dbl_le_def, dbl_lt_def, Dbl.le, Dbl.lt]

/-- The readout `log2Cost` decreases as the probability grows. -/
theorem log2Cost_antitone (p q : ℚ) (_ : 0 ≤ p) (hpq : p ≤ q) : log2Cost q ≤ log2Cost p := by
  unfold log2Cost
  by_cases hq0 : q ≤ 0
  · have hp0 : p ≤ 0 := le_trans hpq hq0
    rw [if_pos hq0, if_pos hp0]
    decide
  · rw [if_neg hq0]
    by_cases hp0 : p ≤ 0
    · rw [if_pos hp0]
      rfl
    · rw [if_neg hp0]
      have h := Int.log_mono_right (b := 2) (lt_of_not_ge hp0) hpq
      have h' : (-(Int.log 2 q : ℚ)) ≤ -(Int.log 2 p : ℚ) := by
        have : (Int.log 2 p : ℚ) ≤ (Int.log 2 q : ℚ) := by exact_mod_cast h
        linarith
      simpa [dbl_le_def, Dbl.le] using h'

end LatticeSearch
